import Mathlib

set_option linter.all false

/-!
# fix_UTF8: in-place byte substitution in a mailbox file

A shallow embedding of `fix_UTF8.cpp`.

* Bytes and characters are natural numbers (`0 .. 255`).
* `buffer[2 * BLKSIZE]` is a map from an `int` index to a byte; the program's
  global variables are the fields of `State`, whose field `file` is the
  content of the mailbox file behind `fid`.
* `int` variables are integers. `bufferlen` and `bufferpos` stay far below the
  range of `int`; the counters `used` and `total_changes` are 32-bit and wrap
  around (`wrap32`) when they are incremented. File positions are natural
  numbers.
* The translation table is the list of the `num_translations` entries stored so
  far; `srch` and `repl` are lists of `MAX_STR` bytes.
-/

namespace FixUTF8

/-! ## Constants and data -/

/-- How much is read or written at a time (`#define BLKSIZE 4096`). -/
def BLKSIZE : Nat := 4096

/-- Size of the translation table (`#define MAX_TRANSLATIONS 250`). -/
def MAX_TRANSLATIONS : Nat := 250

/-- Maximal size of search and replacement strings (`#define MAX_STR 4`). -/
def MAX_STR : Nat := 4

/-- Size of the line buffer of `read_translations` (`#define LINESIZE 80`). -/
def LINESIZE : Nat := 80

/-- The value of a 32-bit `int` that holds `x` after wrap-around: the number
in `[-2^31, 2^31)` that differs from `x` by a multiple of `2^32`. -/
def wrap32 (x : Int) : Int :=
  (x + 2147483648) % 4294967296 - 2147483648

/-- One entry of the table of translations (`struct translation_t`). -/
structure translation_t where
  /-- chars to search for -/
  srch : List Nat
  /-- how many chars -/
  srchlen : Nat
  /-- chars to replace it with -/
  repl : List Nat
  /-- how many chars -/
  repllen : Nat
  /-- how often this translation was used (`int used`) -/
  used : Int
deriving DecidableEq, Repr

/-- The global variables of the program, and the mailbox file. -/
structure State where
  /-- the two-block buffer: `byte buffer[2 * BLKSIZE]` -/
  buffer : Int → Nat
  /-- how much is in the buffer -/
  bufferlen : Int
  /-- where we are looking in the buffer -/
  bufferpos : Int
  /-- the file position of the first half of the buffer's data -/
  filepos1st : Nat
  /-- the file position of the second half of the buffer's data -/
  filepos2nd : Nat
  /-- the next file position to read -/
  fileposnext : Nat
  /-- do we need to write the first half of the buffer? -/
  dirty1st : Bool
  /-- do we need to write the second half of the buffer? -/
  dirty2nd : Bool
  /-- number of substitutions made (`int total_changes`) -/
  total_changes : Int
  /-- the table of translations, `translation[0 .. num_translations - 1]` -/
  translation : List translation_t
  /-- the bytes of the mailbox file on disk -/
  file : List Nat

/-! ## The C library calls the program makes -/

/-- The bytes `fread(_, 1, count, fid)` delivers at file position `pos`:
as many as the file still has, at most `count`. -/
def fread (file : List Nat) (pos count : Nat) : List Nat :=
  (file.drop pos).take count

/-- The file after `fwrite(data, 1, data.length, fid)` at file position `pos`.
A write that ends past the end of the file makes the file longer. -/
def fwrite (file : List Nat) (pos : Nat) (data : List Nat) : List Nat :=
  (file ++ List.replicate (pos - file.length) 0).take pos ++ data
    ++ file.drop (pos + data.length)

/-- The buffer after `memcpy(buffer + dst, src, n)`. -/
def memcpy (buffer : Int → Nat) (dst : Int) (src : Nat → Nat) (n : Nat) : Int → Nat :=
  fun i => if dst ≤ i ∧ i < dst + n then src (i - dst).toNat else buffer i

/-- The test `memcmp(buffer + pos, pat, n) == 0`. -/
def memcmp_eq (buffer : Int → Nat) (pos : Int) (pat : List Nat) (n : Nat) : Bool :=
  (List.range n).all (fun (k : Nat) => buffer (pos + (k : Int)) == pat.getD k 0)

/-- The first `count` bytes of the buffer, as handed to `fwrite`. -/
def buffer_bytes (buffer : Int → Nat) (count : Nat) : List Nat :=
  (List.range count).map (fun (k : Nat) => buffer (k : Int))

/-! ## chk_buffer -/

/-- The block of the `if` of `chk_buffer`: the first half is written out if it
was changed, the second half slides to the first half and up to another half
is read. -/
def slide (s : State) : State :=
  let file1 :=
    if s.dirty1st then
      fwrite s.file s.filepos1st
        (buffer_bytes s.buffer (min (BLKSIZE : Int) s.bufferlen).toNat)
    else s.file
  let buffer1 := memcpy s.buffer 0 (fun (k : Nat) => s.buffer ((BLKSIZE : Int) + (k : Int))) BLKSIZE
  let chunk := fread file1 s.fileposnext BLKSIZE
  let nbytes := chunk.length
  { buffer := memcpy buffer1 BLKSIZE (fun k => chunk.getD k 0) nbytes
    bufferlen := s.bufferlen - BLKSIZE + nbytes
    bufferpos := s.bufferpos - BLKSIZE
    filepos1st := s.filepos2nd
    filepos2nd := s.fileposnext
    fileposnext := s.fileposnext + nbytes
    dirty1st := s.dirty2nd
    dirty2nd := false
    total_changes := s.total_changes
    translation := s.translation
    file := file1 }

/-- The function `chk_buffer`: keep the pointer in the first half of the buffer. -/
def chk_buffer (forceend : Bool) (s : State) : State :=
  if forceend || decide ((BLKSIZE : Int) ≤ s.bufferpos) then slide s else s

/-! ## The scan loop of main -/

/-- The loop `while (zerocount--) buffer[++bufferpos] = 0;`. -/
def zero_pad : Nat → (Int → Nat) × Int → (Int → Nat) × Int
  | 0, bp => bp
  | zerocount + 1, (buffer, bufferpos) =>
      zero_pad zerocount (Function.update buffer (bufferpos + 1) 0, bufferpos + 1)

/-- The statement `++translation[xlate].used;`. -/
def incr_used : Nat → List translation_t → List translation_t
  | _, [] => []
  | 0, t :: rest => { t with used := wrap32 (t.used + 1) } :: rest
  | xlate + 1, t :: rest => t :: incr_used xlate rest

/-- The body of the `if (memcmp(...) == 0)` of `main`, up to its `break`:
do the substitution with entry `t`, the entry at index `xlate`.
The count `srchlen - repllen` is not negative for a table that
`read_translations` has stored. -/
def substitute (s : State) (xlate : Nat) (t : translation_t) : State :=
  let buffer1 := memcpy s.buffer s.bufferpos (fun k => t.repl.getD k 0) t.repllen
  let dirty1st1 := if s.bufferpos < BLKSIZE then true else s.dirty1st
  let dirty2nd1 := if s.bufferpos < BLKSIZE then s.dirty2nd else true
  let bufferpos1 := s.bufferpos + ((t.repllen : Int) - 1)
  let zerocount : Int := (t.srchlen : Int) - t.repllen
  let padded := zero_pad zerocount.toNat (buffer1, bufferpos1)
  { buffer := padded.1
    bufferlen := s.bufferlen
    bufferpos := padded.2
    filepos1st := s.filepos1st
    filepos2nd := s.filepos2nd
    fileposnext := s.fileposnext
    dirty1st := dirty1st1
    dirty2nd := if (BLKSIZE : Int) ≤ padded.2 then true else dirty2nd1
    total_changes := wrap32 (s.total_changes + 1)
    translation := incr_used xlate s.translation
    file := s.file }

/-- The loop `for (xlate = ...; xlate < num_translations; ++xlate)` of `main`,
from index `xlate` on, `rest` being the entries from that index: the first
entry whose search string is at the buffer position is substituted, and the
loop is left. -/
def try_from (s : State) : Nat → List translation_t → State
  | _, [] => s
  | xlate, t :: rest =>
      if memcmp_eq s.buffer s.bufferpos t.srch t.srchlen then substitute s xlate t
      else try_from s (xlate + 1) rest

/-- Try each translation at this position. -/
def try_translations (s : State) : State :=
  try_from s 0 s.translation

/-- The statement `++bufferpos;` that ends the body of the scan loop. -/
def advance (s : State) : State :=
  { s with bufferpos := s.bufferpos + 1 }

/-- One pass through the body of the `do ... while` loop of `main`. -/
def scan_body (s : State) : State :=
  advance (try_translations (chk_buffer false s))

/-- The state after the mailbox file is opened and both halves of the buffer are
primed. The buffer and the counters are zero-initialised globals, `table` is
what `read_translations` has stored. -/
def prime (file : List Nat) (table : List translation_t) : State :=
  let first := fread file 0 BLKSIZE
  let filepos2nd := first.length
  let second := fread file filepos2nd BLKSIZE
  { buffer := memcpy (memcpy (fun _ => 0) 0 (fun k => first.getD k 0) first.length)
      BLKSIZE (fun k => second.getD k 0) second.length
    bufferlen := (first.length : Int) + second.length
    bufferpos := 0
    filepos1st := 0
    filepos2nd := filepos2nd
    fileposnext := filepos2nd + second.length
    dirty1st := false
    dirty2nd := false
    total_changes := 0
    translation := table
    file := file }

/-- Where `main` stands between its two loops. -/
inductive Phase where
  /-- in the `do ... while (bufferpos < bufferlen)` loop -/
  | scan
  /-- in the loop `while (bufferlen > 0) chk_buffer(true)` -/
  | drain
  /-- past both loops, at `fclose(fid)` -/
  | done
deriving DecidableEq, Repr

/-- One loop iteration of `main`: a pass through the scan loop with its test, or
a pass through the drain loop with its test. -/
def step : Phase × State → Phase × State
  | (Phase.scan, s) =>
      let s1 := scan_body s
      if s1.bufferpos < s1.bufferlen then (Phase.scan, s1) else (Phase.drain, s1)
  | (Phase.drain, s) =>
      if 0 < s.bufferlen then (Phase.drain, chk_buffer true s) else (Phase.done, s)
  | (Phase.done, s) => (Phase.done, s)

/-- The program after `k` loop iterations on the mailbox `file` with the stored
`table`. -/
def program_point (file : List Nat) (table : List translation_t) : Nat → Phase × State
  | 0 => (Phase.scan, prime file table)
  | k + 1 => step (program_point file table k)

/-- The run of `main` from the opening of the mailbox to `fclose`, with at most
`fuel` loop iterations: the final state, if the loops have ended by then. -/
def run (fuel : Nat) (file : List Nat) (table : List translation_t) : Option State :=
  match program_point file table fuel with
  | (Phase.done, s) => some s
  | _ => none

/-- The `fwrite` that `chk_buffer` issues in the next loop iteration, if it
issues one: the file position it writes at and the number of bytes it writes. -/
def writes_back : Phase × State → Option (Nat × Nat)
  | (Phase.scan, s) =>
      if (BLKSIZE : Int) ≤ s.bufferpos ∧ s.dirty1st = true then
        some (s.filepos1st, (min (BLKSIZE : Int) s.bufferlen).toNat)
      else none
  | (Phase.drain, s) =>
      if 0 < s.bufferlen ∧ s.dirty1st = true then
        some (s.filepos1st, (min (BLKSIZE : Int) s.bufferlen).toNat)
      else none
  | (Phase.done, _) => none

/-! ## Concrete scenario -/

/-- The rule `E2 80 93 -> "-"`. -/
def rule_en_dash : translation_t :=
  { srch := [0xE2, 0x80, 0x93, 0], srchlen := 3, repl := [0x2D, 0, 0, 0], repllen := 1, used := 0 }

/-- The rule `C2 A0 -> " "`. -/
def rule_nbsp : translation_t :=
  { srch := [0xC2, 0xA0, 0, 0], srchlen := 2, repl := [0x20, 0, 0, 0], repllen := 1, used := 0 }

/-- The bytes `Hello`, en dash, `world`, no-break space, `!`. -/
def hello_file : List Nat :=
  [0x48, 0x65, 0x6C, 0x6C, 0x6F, 0xE2, 0x80, 0x93, 0x77, 0x6F, 0x72, 0x6C, 0x64, 0xC2, 0xA0, 0x21]

/-! ## read_translations -/

/-- What stops the program early: a failed `assert`, which prints its message
and calls `exit(8)`, or a read past the end of the array `line`. -/
inductive Fault where
  /-- `assert(test, msg)` with a false test -/
  | assertion (msg : String)
  /-- a read of `line[i]` with `i >= LINESIZE` -/
  | out_of_bounds
deriving DecidableEq, Repr

/-- Equality of two outcomes can be decided. -/
instance {ε α : Type} [DecidableEq ε] [DecidableEq α] : DecidableEq (Except ε α)
  | Except.ok a, Except.ok b =>
      if h : a = b then isTrue (by rw [h]) else isFalse (fun h1 => h (by cases h1; rfl))
  | Except.error a, Except.error b =>
      if h : a = b then isTrue (by rw [h]) else isFalse (fun h1 => h (by cases h1; rfl))
  | Except.ok _, Except.error _ => isFalse (fun h => by cases h)
  | Except.error _, Except.ok _ => isFalse (fun h => by cases h)

/-- The successive results of `fgets(line, LINESIZE, fid)` on the characters of
the translations file, `cur` being what the current call has read so far: a
call reads up to the first newline, at most `LINESIZE - 1` characters. -/
def fgets_from : List Nat → List Nat → List (List Nat)
  | [], cur => if cur = [] then [] else [cur]
  | c :: rest, cur =>
      if c = 10 ∨ cur.length + 1 = LINESIZE - 1 then (cur ++ [c]) :: fgets_from rest []
      else fgets_from rest (cur ++ [c])

/-- The successive results of `fgets(line, LINESIZE, fid)` on a translations
file with the characters `stream`. -/
def fgets_lines (stream : List Nat) : List (List Nat) :=
  fgets_from stream []

/-- The array `line` after `fgets` has stored `chars` and the closing NUL; what
lies behind the NUL is left as it was. -/
def store_line (line : Nat → Nat) (chars : List Nat) : Nat → Nat :=
  fun i => if i < chars.length then chars.getD i 0 else if i = chars.length then 0 else line i

/-- The loop `while (line[chrndx] == ' ') ++chrndx;`, which ends at the NUL of
the line at the latest. -/
def skip_spaces (line : Nat → Nat) : Nat → Nat → Nat
  | 0, chrndx => chrndx
  | fuel + 1, chrndx =>
      if line chrndx = 32 then skip_spaces line fuel (chrndx + 1) else chrndx

/-- The value of a hex digit `0-9`, `A-F`, `a-f`. -/
def hex_value (ch : Nat) : Option Nat :=
  if 48 ≤ ch ∧ ch ≤ 57 then some (ch - 48)
  else if 65 ≤ ch ∧ ch ≤ 70 then some (ch - 55)
  else if 97 ≤ ch ∧ ch ≤ 102 then some (ch - 87)
  else none

/-- The loop `for (int nibndx = ...; ; ++nibndx)` that parses the hex string
into `tp->srch`, from nibble `nibndx` and character `chrndx` on: the entry and
the value of `chrndx` when the loop is left at a space. -/
def parse_hex (line : Nat → Nat) :
    Nat → Nat → Nat → translation_t → Except Fault (Nat × translation_t)
  | 0, _, _, _ => Except.error (Fault.assertion "hex string too long")
  | fuel + 1, nibndx, chrndx, tp =>
      let ch := line chrndx
      if ch = 32 then Except.ok (chrndx + 1, tp)
      else
        match hex_value ch with
        | none => Except.error (Fault.assertion "bad hex")
        | some v =>
            if nibndx < MAX_STR * 2 then
              parse_hex line fuel (nibndx + 1) (chrndx + 1)
                { tp with
                  srch := tp.srch.set (nibndx >>> 1)
                    (((tp.srch.getD (nibndx >>> 1) 0 <<< 4) ||| v) % 256)
                  srchlen := if nibndx &&& 1 = 1 then tp.srchlen + 1 else tp.srchlen }
            else Except.error (Fault.assertion "hex string too long")

/-- The loop `for (int rndx = ...; line[chrndx] != delim; ++rndx)` that parses
the replacement string into `tp->repl`, from `rndx` and `chrndx` on. -/
def parse_repl (line : Nat → Nat) (delim : Nat) :
    Nat → Nat → Nat → translation_t → Except Fault translation_t
  | 0, _, _, _ => Except.error (Fault.assertion "replacement string too long")
  | fuel + 1, rndx, chrndx, tp =>
      if LINESIZE ≤ chrndx then Except.error Fault.out_of_bounds
      else if line chrndx = delim then Except.ok tp
      else if rndx < MAX_STR then
        parse_repl line delim fuel (rndx + 1) (chrndx + 1)
          { tp with repl := tp.repl.set rndx (line chrndx), repllen := tp.repllen + 1 }
      else Except.error (Fault.assertion "replacement string too long")

/-- An entry of the zero-initialised table `translation`. -/
def zero_translation : translation_t :=
  { srch := List.replicate MAX_STR 0, srchlen := 0, repl := List.replicate MAX_STR 0,
    repllen := 0, used := 0 }

/-- The body of the loop `while (fgets(line, LINESIZE, fid))` of
`read_translations` on the array `line`, with the entries `table` stored so far. -/
def process_line (line : Nat → Nat) (table : List translation_t) :
    Except Fault (List translation_t) :=
  let chrndx := skip_spaces line LINESIZE 0
  if line chrndx = 0 ∨ line chrndx = 10 then Except.ok table
  else
    match parse_hex line (MAX_STR * 2 + 1) 0 chrndx zero_translation with
    | Except.error e => Except.error e
    | Except.ok (chrndx1, tp1) =>
        if ¬ (chrndx1 &&& 1 = 1) then
          Except.error (Fault.assertion "odd number of hex chars")
        else if ¬ (table.length + 1 < MAX_TRANSLATIONS) then
          Except.error (Fault.assertion "too many translations")
        else
          let chrndx2 := skip_spaces line LINESIZE chrndx1
          let delim := line chrndx2
          if ¬ (delim = 34 ∨ delim = 39) then
            Except.error (Fault.assertion "missing string delimiter")
          else
            match parse_repl line delim (MAX_STR + 1) 0 (chrndx2 + 1) tp1 with
            | Except.error e => Except.error e
            | Except.ok tp2 =>
                if tp2.repllen ≤ tp2.srchlen then Except.ok (table ++ [tp2])
                else Except.error (Fault.assertion "replacement longer than search string")

/-- The loop `while (fgets(line, LINESIZE, fid))` of `read_translations` over
the lines that `fgets` delivers. -/
def read_lines : List (List Nat) → (Nat → Nat) → List translation_t →
    Except Fault (List translation_t)
  | [], _, table => Except.ok table
  | chars :: more, line, table =>
      match process_line (store_line line chars) table with
      | Except.error e => Except.error e
      | Except.ok table1 => read_lines more (store_line line chars) table1

/-- The function `read_translations` on a translations file with the characters
`stream`: the table it stores, or what stops it. `line0` is what the array
`line`, which is not initialised, holds at first. -/
def read_translations (line0 : Nat → Nat) (stream : List Nat) :
    Except Fault (List translation_t) :=
  read_lines (fgets_lines stream) line0 []

/-- The characters of a string, as the bytes of a text file. -/
def chars_of (text : String) : List Nat :=
  text.toList.map Char.toNat

/-- The sum of the `used` counters of a table. -/
def sum_used (table : List translation_t) : Int :=
  (table.map (fun t => t.used)).sum

/-! ## The reference scan of the spec -/

/-- The whole search string of rule `t` occurs in `file` at `offset`. -/
def occurs_at (file : List Nat) (offset : Nat) (t : translation_t) : Bool :=
  decide (offset + t.srchlen ≤ file.length) &&
    (List.range t.srchlen).all (fun (k : Nat) => file.getD (offset + k) 0 == t.srch.getD k 0)

/-- What a substitution of rule `t` puts in the place of its search string: the
replacement followed by `srchlen - repllen` zero bytes. -/
def replacement_bytes (t : translation_t) : List Nat :=
  t.repl.take t.repllen ++ List.replicate (t.srchlen - t.repllen) 0

/-- The reference scan, as the spec words it: the bytes of the result from
`offset` on. Moving left to right, at each offset the first rule in table order
whose whole pattern occurs in the file at that offset replaces that span by
its replacement followed by zero bytes, and the scan resumes just after the
span; where no rule matches the byte is left unchanged and the scan moves on by
one byte. -/
def reference_scan_from (table : List translation_t) (file : List Nat) :
    Nat → Nat → List Nat
  | 0, _ => []
  | fuel + 1, offset =>
      if offset < file.length then
        match table.find? (occurs_at file offset) with
        | some t => replacement_bytes t ++ reference_scan_from table file fuel (offset + t.srchlen)
        | none => file.getD offset 0 :: reference_scan_from table file fuel (offset + 1)
      else []

/-- The reference scan over the whole file, starting at offset 0. -/
def reference_scan (table : List translation_t) (file : List Nat) : List Nat :=
  reference_scan_from table file (file.length + 1) 0

/-- The rule `E2 00 -> "-"`, stored for the line `E200 "-"`. -/
def rule_e2_nul : translation_t :=
  { srch := [0xE2, 0, 0, 0], srchlen := 2, repl := [0x2D, 0, 0, 0], repllen := 1, used := 0 }

/-- The rule `E2 -> "e"`, with a search string of one byte. -/
def rule_e2 : translation_t :=
  { srch := [0xE2, 0, 0, 0], srchlen := 1, repl := [0x65, 0, 0, 0], repllen := 1, used := 0 }

/-- The rule `E2 80 93 41 -> "-"`, with a search string of four bytes. -/
def rule_long : translation_t :=
  { srch := [0xE2, 0x80, 0x93, 0x41], srchlen := 4, repl := [0x2D, 0, 0, 0], repllen := 1,
    used := 0 }

/-- How the buffer lies over a mailbox file of `n` bytes: the first half starts
at a block boundary, the second half and the next read follow it, cut off at
the end of the file, and `bufferlen` is the number of bytes read from
`filepos1st` on. -/
structure Geom (n : Nat) (s : State) : Prop where
  file_len : s.file.length = n
  blk : BLKSIZE ∣ s.filepos1st
  f1_le : s.filepos1st ≤ n
  f2_eq : s.filepos2nd = min (s.filepos1st + BLKSIZE) n
  fn_eq : s.fileposnext = min (s.filepos1st + 2 * BLKSIZE) n
  len_eq : s.bufferlen = (s.fileposnext : Int) - (s.filepos1st : Int)

/-- What holds of the file positions at every loop iteration of a run on a
mailbox file of `n` bytes. -/
def PointInv (n : Nat) : Phase × State → Prop
  | (Phase.scan, s) => Geom n s ∧ (s.bufferpos < s.bufferlen ∨ s.bufferpos < BLKSIZE)
  | (Phase.drain, s) => s.file.length = n ∧ (0 < s.bufferlen → Geom n s)
  | (Phase.done, s) => s.file.length = n

/-- The file position of the scan cursor. -/
def cursor (s : State) : Int :=
  (s.filepos1st : Int) + s.bufferpos

/-- The byte of the mailbox at file offset `i` as the program holds it: the
byte of the buffer where the valid data of the buffer covers `i`, the byte on
disk elsewhere. -/
def cell (s : State) (i : Nat) : Nat :=
  if s.filepos1st ≤ i ∧ (i : Int) < (s.filepos1st : Int) + s.bufferlen then
    s.buffer ((i : Int) - (s.filepos1st : Int))
  else s.file.getD i 0

/-- Where a valid byte of the buffer differs from the byte on disk, the dirty
flag of its half of the buffer is set. -/
def Covered (s : State) : Prop :=
  ∀ i : Nat, s.filepos1st ≤ i → (i : Int) < (s.filepos1st : Int) + s.bufferlen →
    s.buffer ((i : Int) - (s.filepos1st : Int)) ≠ s.file.getD i 0 →
    (i < s.filepos1st + BLKSIZE ∧ s.dirty1st = true) ∨
      (s.filepos1st + BLKSIZE ≤ i ∧ s.dirty2nd = true)

/-- A table as the header comment of the program describes it: search strings
of 1 to `MAX_STR` bytes, replacements that are not longer. -/
def well_formed (table : List translation_t) : Prop :=
  ∀ t ∈ table, 1 ≤ t.srchlen ∧ t.srchlen ≤ MAX_STR ∧ t.repllen ≤ t.srchlen

/-- A rule without its counter. -/
def rule_key (t : translation_t) : List Nat × Nat × List Nat × Nat :=
  (t.srch, t.srchlen, t.repl, t.repllen)

/-- Two tables hold the same rules in the same order; the counters may differ. -/
def same_rules (a b : List translation_t) : Prop :=
  a.map rule_key = b.map rule_key

/-- What holds at the top of the scan loop in a run on `file` with `table`. -/
structure ScanInv (file : List Nat) (table : List translation_t) (s : State) : Prop where
  geom : Geom file.length s
  pos_nonneg : 0 ≤ s.bufferpos
  pos_lt : s.bufferpos < s.bufferlen ∨ s.bufferpos < BLKSIZE
  pos_bound : s.bufferpos < (BLKSIZE : Int) + MAX_STR
  covered : Covered s
  rules : same_rules s.translation table
  ahead : ∀ i : Nat, cursor s ≤ i → cell s i = file.getD i 0

/-- What holds at every loop iteration of a run on `file` with `table`. -/
def RunInv (file : List Nat) (table : List translation_t) : Phase × State → Prop
  | (Phase.scan, s) => ScanInv file table s
  | (Phase.drain, s) =>
      s.file.length = file.length ∧ same_rules s.translation table ∧
        (0 < s.bufferlen → Geom file.length s ∧ Covered s ∧ s.fileposnext = file.length)
  | (Phase.done, s) => s.file.length = file.length ∧ s.bufferlen ≤ 0

/-- The scan is past file offset `i`: the cursor is behind it, or the scan loop
has ended. -/
def consumed : Phase × State → Nat → Prop
  | (Phase.scan, s), i => (i : Int) < cursor s
  | _, _ => True

/-- A bound on the number of loop iterations that are left. -/
def steps_left (n : Nat) : Phase × State → Nat
  | (Phase.scan, s) => ((n : Int) - cursor s).toNat + (2 * BLKSIZE + 2)
  | (Phase.drain, s) => s.bufferlen.toNat + 1
  | (Phase.done, _) => 0

/-- A file of 4098 bytes: 4094 letters `A`, then `E2 80 93 41`, which starts two
bytes before the first block boundary. -/
def cross_file : List Nat :=
  List.replicate 4094 0x41 ++ [0xE2, 0x80, 0x93, 0x41]

/-- No search string of the table holds the byte `b`. -/
def nonpattern (table : List translation_t) (b : Nat) : Prop :=
  ∀ t ∈ table, ∀ k, k < t.srchlen → t.srch.getD k 0 ≠ b

/-- The byte that stands for file offset `i` in the long run: the byte of the
mailbox inside the file; behind the end of the file the byte one block
earlier, which is left over in the buffer, or zero where the buffer was never
filled. -/
def ext_cell (s : State) (i : Nat) : Nat :=
  if i < s.file.length then cell s i
  else if 2 * BLKSIZE ≤ i then cell s (i - BLKSIZE)
  else 0

/-- The search string of `t` stands at file offset `i`, the file being continued
behind its end as in `ext_cell`. -/
def matches_at (s : State) (i : Nat) (t : translation_t) : Prop :=
  ∀ k, k < t.srchlen → ext_cell s (i + k) = t.srch.getD k 0

/-- What holds at the top of the scan loop, besides `ScanInv`, in a run on `file`
with a `table` whose replacement bytes and the zero byte occur in no search
string: a byte that was changed occurs in no search string; a left-over byte
behind the end of the data is an old or the current byte of the offset one
block earlier; and behind the cursor no rule matches any more. -/
structure StableInv (file : List Nat) (table : List translation_t) (s : State) : Prop where
  changed : ∀ i, cell s i = file.getD i 0 ∨ nonpattern table (cell s i)
  stale : ∀ i : Nat, file.length ≤ i → i < file.length + MAX_STR → s.filepos1st ≤ i →
    i < s.filepos1st + 2 * BLKSIZE →
    (2 * BLKSIZE ≤ i ∧
        (s.buffer ((i : Int) - (s.filepos1st : Int)) = file.getD (i - BLKSIZE) 0 ∨
          s.buffer ((i : Int) - (s.filepos1st : Int)) = cell s (i - BLKSIZE))) ∨
      (i < 2 * BLKSIZE ∧ s.buffer ((i : Int) - (s.filepos1st : Int)) = 0)
  behind : ∀ i : Nat, (i : Int) < cursor s → i < file.length →
    nonpattern table (cell s i) ∨ ∀ t ∈ table, ¬ matches_at s i t
  start : s.bufferpos < s.bufferlen ∨ cursor s = 0

/-- What holds at every loop iteration, besides `RunInv`, in a run on `file` with
a `table` whose replacement bytes and the zero byte occur in no search string. -/
def StableRun (file : List Nat) (table : List translation_t) : Phase × State → Prop
  | (Phase.scan, s) => StableInv file table s
  | (_, s) =>
      (∀ i, cell s i = file.getD i 0 ∨ nonpattern table (cell s i)) ∧
      (∀ i, i < file.length →
        nonpattern table (cell s i) ∨ ∀ t ∈ table, ¬ matches_at s i t)

/-- The byte that the comparison sees for file offset `i` in a run that has
changed nothing so far: the byte of the file inside the file; behind its end
the byte one block earlier, or zero where the buffer was never filled. -/
def ext_byte (f : List Nat) (i : Nat) : Nat :=
  if i < f.length then f.getD i 0
  else if 2 * BLKSIZE ≤ i then f.getD (i - BLKSIZE) 0
  else 0

/-- No rule of the table matches at any offset of the file `f` (at offset 0 for
an empty file), the file being continued behind its end as in `ext_byte`. -/
def Stable (table : List translation_t) (f : List Nat) : Prop :=
  ∀ i, i < f.length ∨ i = 0 → ∀ t ∈ table,
    ¬ ∀ k, k < t.srchlen → ext_byte f (i + k) = t.srch.getD k 0

/-- A state of a run on the file `G` in which nothing has been changed so far. -/
def Clean (G : List Nat) (s : State) : Prop :=
  s.total_changes = 0 ∧ s.dirty1st = false ∧ s.dirty2nd = false ∧ s.file = G

/-- The rule `00 -> "x"`. -/
def rule_nul : translation_t :=
  { srch := [0, 0, 0, 0], srchlen := 1, repl := [0x78, 0, 0, 0], repllen := 1, used := 0 }

/-- The byte that the two hex digits `hi` and `lo` denote. -/
def hex_byte (hi lo : Nat) : Nat :=
  16 * (hex_value hi).getD 0 + (hex_value lo).getD 0

/-- A translations file of `n` lines `C2A0 " "`. -/
def nbsp_lines (n : Nat) : List Nat :=
  (List.replicate n (chars_of "C2A0 \" \"\n")).join

/-- A rule line without leading spaces: the hex digits `hex`, `b + 1` spaces,
the delimiter, the replacement `repl`, the delimiter again, and the rest of
the line. -/
def rule_line (hex : List Nat) (b delim : Nat) (repl rest : List Nat) : List Nat :=
  hex ++ (List.replicate (b + 1) 32 ++ (delim :: (repl ++ delim :: rest)))

/-- The function `main` from the call of `read_translations` on, with at most
`fuel` loop iterations: a failed `assert` of `read_translations` ends the
program before the mailbox file is opened; otherwise the mailbox is opened and
scanned with the stored table. -/
def main (fuel : Nat) (line0 : Nat → Nat) (stream : List Nat) (mailbox : List Nat) :
    Except Fault (Option State) :=
  match read_translations line0 stream with
  | Except.error e => Except.error e
  | Except.ok table => Except.ok (run fuel mailbox table)

/-- The rule that is stored for the line made of a space, the hex digit `E`, a
space and two double quotes: a search string of length 0. -/
def rule_odd : translation_t :=
  { srch := [14, 0, 0, 0], srchlen := 0, repl := [0, 0, 0, 0], repllen := 0, used := 0 }

/-- The rule that is stored for the line ` E2809 "-"` with one leading space. -/
def rule_five_digits : translation_t :=
  { srch := [0xE2, 0x80, 0x09, 0], srchlen := 2, repl := [0x2D, 0, 0, 0], repllen := 1, used := 0 }

/-- The substitution that the next loop iteration makes, if it makes one: the
file offset of the first byte it writes and the number of bytes it writes,
which is the length of the search string (replacement and zero padding). -/
def substitutes : Phase × State → Option (Nat × Nat)
  | (Phase.scan, s) =>
      match (chk_buffer false s).translation.find? (fun t =>
          memcmp_eq (chk_buffer false s).buffer (chk_buffer false s).bufferpos t.srch t.srchlen) with
      | some t => some ((cursor (chk_buffer false s)).toNat, t.srchlen)
      | none => none
  | (_, _) => none

/-- Some substitution of the first `k` loop iterations has written the byte at
file offset `i`. -/
def touched (file : List Nat) (table : List translation_t) (k i : Nat) : Prop :=
  ∃ k1 q len, k1 < k ∧ substitutes (program_point file table k1) = some (q, len) ∧
    q ≤ i ∧ i < q + len

/-- What a set dirty flag says: a byte of that half of the buffer that lies
inside the file of `n` bytes is among the bytes `T` that were written. -/
structure DirtyInv (n : Nat) (T : Nat → Prop) (s : State) : Prop where
  first : s.dirty1st = true → 0 < s.bufferlen →
    ∃ i, T i ∧ s.filepos1st ≤ i ∧ i < s.filepos1st + BLKSIZE ∧ i < n
  second : s.dirty2nd = true → (BLKSIZE : Int) < s.bufferlen →
    ∃ i, T i ∧ s.filepos1st + BLKSIZE ≤ i ∧ i < s.filepos1st + 2 * BLKSIZE ∧ i < n

/-- What holds of the dirty flags at every loop iteration. -/
def DirtyRun (n : Nat) (T : Nat → Prop) : Phase × State → Prop
  | (Phase.scan, s) => DirtyInv n T s ∧ (s.bufferpos < s.bufferlen ∨ s.bufferpos = 0)
  | (Phase.drain, s) => DirtyInv n T s
  | (Phase.done, _) => True

/-- What holds of the counters after `k` loop iterations: the sum of the
`used` counters is `total_changes` up to wrap-around, and exactly as long as
fewer than `2^31` iterations were made, when no counter has wrapped. -/
def CountInv (k : Nat) (s : State) : Prop :=
  wrap32 (sum_used s.translation) = s.total_changes ∧
    (k < 2147483648 →
      (∀ t ∈ s.translation, 0 ≤ t.used) ∧ sum_used s.translation = s.total_changes ∧
        0 ≤ s.total_changes ∧ s.total_changes ≤ (k : Int))

/-- The rule `41 -> "a"`. -/
def rule_a : translation_t :=
  { srch := [0x41, 0, 0, 0], srchlen := 1, repl := [0x61, 0, 0, 0], repllen := 1, used := 0 }

/-- The rule `42 -> "b"`. -/
def rule_b : translation_t :=
  { srch := [0x42, 0, 0, 0], srchlen := 1, repl := [0x62, 0, 0, 0], repllen := 1, used := 0 }

/-- A mailbox of `m` letters `A` and one letter `B`. -/
def wrap_file (m : Nat) : List Nat :=
  List.replicate m 0x41 ++ [0x42]

/-! # Theorems -/

/-! ## The substitution step -/

theorem BLKSIZE_eq : BLKSIZE = 4096 := rfl

theorem zero_pad_eq (count : Nat) (buffer : Int → Nat) (pos : Int) :
    zero_pad count (buffer, pos)
      = (fun i => if pos < i ∧ i ≤ pos + count then 0 else buffer i, pos + count) := by
  induction count generalizing buffer pos with
  | zero =>
      refine Prod.ext ?_ ?_
      · funext i
        simp only [zero_pad]
        split_ifs with h
        · exfalso; omega
        · rfl
      · simp [zero_pad]
  | succ c ih =>
      rw [zero_pad, ih]
      refine Prod.ext ?_ ?_
      · funext i
        simp only [Function.update_apply]
        split_ifs <;> first | rfl | (exfalso; omega)
      · simp only; push_cast; omega

/-- The buffer after a substitution: the replacement, then zeros up to the
length of the search string, the rest as before. -/
theorem substitute_buffer (s : State) (xlate : Nat) (t : translation_t) (i : Int) :
    (substitute s xlate t).buffer i
      = if s.bufferpos ≤ i ∧ i < s.bufferpos + t.repllen then
          t.repl.getD (i - s.bufferpos).toNat 0
        else if s.bufferpos + t.repllen ≤ i ∧ i < s.bufferpos + t.srchlen then 0
        else s.buffer i := by
  simp only [substitute, zero_pad_eq, memcpy]
  split_ifs <;> first | rfl | (exfalso; omega)

theorem substitute_bufferpos (s : State) (xlate : Nat) (t : translation_t)
    (h : t.repllen ≤ t.srchlen) :
    (substitute s xlate t).bufferpos = s.bufferpos + t.srchlen - 1 := by
  simp only [substitute, zero_pad_eq]
  omega

theorem incr_used_getElem_self (table : List translation_t) (xlate : Nat) (t : translation_t)
    (h : table[xlate]? = some t) :
    (incr_used xlate table)[xlate]? = some { t with used := wrap32 (t.used + 1) } := by
  induction table generalizing xlate with
  | nil => simp at h
  | cons u rest ih =>
      cases xlate with
      | zero => simp at h; subst h; simp [incr_used]
      | succ x => simp at h; simpa [incr_used] using ih x h

theorem incr_used_getElem_other (table : List translation_t) (xlate j : Nat) (h : j ≠ xlate) :
    (incr_used xlate table)[j]? = table[j]? := by
  induction table generalizing xlate j with
  | nil => simp [incr_used]
  | cons u rest ih =>
      cases xlate with
      | zero =>
          cases j with
          | zero => exact absurd rfl h
          | succ j => simp [incr_used]
      | succ x =>
          cases j with
          | zero => simp [incr_used]
          | succ j => simpa [incr_used] using ih x j (by omega)

theorem wrap32_add_one (a : Int) : wrap32 (wrap32 a + 1) = wrap32 (a + 1) := by
  unfold wrap32
  omega

theorem wrap32_small (a : Int) (h0 : 0 ≤ a) (h1 : a < 2147483647) : wrap32 (a + 1) = a + 1 := by
  unfold wrap32
  omega

theorem sum_used_cons (t : translation_t) (rest : List translation_t) :
    sum_used (t :: rest) = t.used + sum_used rest := by
  simp [sum_used]

theorem sum_used_nonneg (table : List translation_t) (h : ∀ t ∈ table, 0 ≤ t.used) :
    0 ≤ sum_used table := by
  induction table with
  | nil => simp [sum_used]
  | cons u rest ih =>
      rw [sum_used_cons]
      have h1 := h u (by simp)
      have h2 := ih (fun t ht => h t (by simp [ht]))
      omega

/-- An increment of a counter adds one to the sum of the counters, up to the
wrap-around of that counter. -/
theorem sum_used_incr_used (table : List translation_t) (xlate : Nat)
    (h : xlate < table.length) :
    wrap32 (sum_used (incr_used xlate table)) = wrap32 (sum_used table + 1) := by
  induction table generalizing xlate with
  | nil => simp at h
  | cons u rest ih =>
      cases xlate with
      | zero =>
          simp only [incr_used, sum_used_cons]
          unfold wrap32
          omega
      | succ x =>
          have := ih x (by simpa using h)
          simp only [incr_used, sum_used_cons]
          unfold wrap32 at this ⊢
          omega

/-- While the sum of the counters is below the largest `int`, an increment adds
exactly one to it. -/
theorem sum_used_incr_used_small (table : List translation_t) (xlate : Nat)
    (h : xlate < table.length) (hpos : ∀ t ∈ table, 0 ≤ t.used)
    (hsum : sum_used table < 2147483647) :
    sum_used (incr_used xlate table) = sum_used table + 1 ∧
      ∀ t ∈ incr_used xlate table, 0 ≤ t.used := by
  induction table generalizing xlate with
  | nil => simp at h
  | cons u rest ih =>
      have hu := hpos u (by simp)
      have hrest : ∀ t ∈ rest, 0 ≤ t.used := fun t ht => hpos t (by simp [ht])
      have hr := sum_used_nonneg rest hrest
      rw [sum_used_cons] at hsum
      cases xlate with
      | zero =>
          have hw := wrap32_small u.used hu (by omega)
          refine ⟨?_, ?_⟩
          · simp only [incr_used, sum_used_cons]
            rw [hw]; omega
          · intro t ht
            simp only [incr_used, List.mem_cons] at ht
            rcases ht with ht | ht
            · rw [ht]
              show 0 ≤ wrap32 (u.used + 1)
              rw [hw]; omega
            · exact hrest t ht
      | succ x =>
          obtain ⟨h1, h2⟩ := ih x (by simpa using h) hrest (by omega)
          refine ⟨?_, ?_⟩
          · simp only [incr_used, sum_used_cons]
            rw [h1]; omega
          · intro t ht
            simp only [incr_used, List.mem_cons] at ht
            rcases ht with ht | ht
            · rw [ht]; exact hu
            · exact h2 t ht

theorem try_from_first (s : State) (rest : List translation_t) (base xlate : Nat)
    (t : translation_t) (hget : rest[xlate]? = some t)
    (hmatch : memcmp_eq s.buffer s.bufferpos t.srch t.srchlen = true)
    (hfirst : ∀ j u, j < xlate → rest[j]? = some u →
      memcmp_eq s.buffer s.bufferpos u.srch u.srchlen = false) :
    try_from s base rest = substitute s (base + xlate) t := by
  induction rest generalizing base xlate with
  | nil => simp at hget
  | cons u rest ih =>
      cases xlate with
      | zero =>
          simp at hget; subst hget
          simp [try_from, hmatch]
      | succ x =>
          have hu := hfirst 0 u (by omega) (by simp)
          simp at hget
          rw [try_from, hu]
          simp only [Bool.false_eq_true, if_false]
          rw [ih (base + 1) x hget (fun j v hj hv => hfirst (j + 1) v (by omega) (by simpa using hv))]
          congr 1; omega

theorem try_from_none (s : State) (rest : List translation_t) (base : Nat)
    (hnone : ∀ u ∈ rest, memcmp_eq s.buffer s.bufferpos u.srch u.srchlen = false) :
    try_from s base rest = s := by
  induction rest generalizing base with
  | nil => rfl
  | cons u rest ih =>
      rw [try_from, hnone u (by simp)]
      simp only [Bool.false_eq_true, if_false]
      exact ih (base + 1) (fun v hv => hnone v (by simp [hv]))

/-! ## The C library calls -/

theorem getD_append_right_add (A B : List Nat) (j : Nat) :
    (A ++ B).getD (A.length + j) 0 = B.getD j 0 := by
  simp only [List.getD_eq_getElem?_getD]
  rw [List.getElem?_append_right (by omega)]
  congr 2; omega

theorem getD_append_left_lt (A B : List Nat) (j : Nat) (h : j < A.length) :
    (A ++ B).getD j 0 = A.getD j 0 := by
  simp only [List.getD_eq_getElem?_getD]
  rw [List.getElem?_append_left h]

theorem getD_replicate_lt (a j c : Nat) (h : j < a) : (List.replicate a c).getD j 0 = c := by
  simp [List.getD_eq_getElem?_getD, List.getElem?_replicate, h]

theorem getD_mem (A : List Nat) (j : Nat) (h : j < A.length) : A.getD j 0 ∈ A := by
  rw [List.getD_eq_getElem?_getD, List.getElem?_eq_getElem h]
  exact List.getElem_mem h

theorem fread_length (file : List Nat) (pos count : Nat) :
    (fread file pos count).length = min count (file.length - pos) := by
  simp [fread]

theorem fread_getD (file : List Nat) (pos count k : Nat) :
    (fread file pos count).getD k 0 = if k < count then file.getD (pos + k) 0 else 0 := by
  simp only [fread, List.getD_eq_getElem?_getD, List.getElem?_take, List.getElem?_drop]
  split_ifs <;> simp

theorem buffer_bytes_length (buffer : Int → Nat) (count : Nat) :
    (buffer_bytes buffer count).length = count := by
  simp [buffer_bytes]

theorem buffer_bytes_getD (buffer : Int → Nat) (count k : Nat) :
    (buffer_bytes buffer count).getD k 0 = if k < count then buffer k else 0 := by
  simp only [buffer_bytes, List.getD_eq_getElem?_getD]
  by_cases h : k < count
  · simp [h]
  · have h1 : (List.range count)[k]? = none := List.getElem?_eq_none (by simp; omega)
    simp [h, h1]

theorem fwrite_length (file : List Nat) (pos : Nat) (data : List Nat) :
    (fwrite file pos data).length = max file.length (pos + data.length) := by
  simp only [fwrite, List.length_append, List.length_take, List.length_replicate,
    List.length_drop]
  omega

theorem fwrite_getD (file : List Nat) (pos : Nat) (data : List Nat) (i : Nat) :
    (fwrite file pos data).getD i 0
      = if pos ≤ i ∧ i < pos + data.length then data.getD (i - pos) 0 else file.getD i 0 := by
  have hlen : ((file ++ List.replicate (pos - file.length) 0).take pos).length = pos := by
    simp only [List.length_take, List.length_append, List.length_replicate]; omega
  simp only [fwrite, List.getD_eq_getElem?_getD]
  by_cases h1 : i < pos
  · have h2 : ¬ (pos ≤ i ∧ i < pos + data.length) := by omega
    rw [if_neg h2, List.append_assoc, List.getElem?_append_left (by rw [hlen]; exact h1),
      List.getElem?_take_of_lt h1]
    by_cases h3 : i < file.length
    · rw [List.getElem?_append_left h3]
    · have h5 : file[i]? = none := List.getElem?_eq_none (by omega)
      rw [List.getElem?_append_right (by omega), h5]
      simp only [List.getElem?_replicate]
      split_ifs <;> rfl
  · rw [List.append_assoc, List.getElem?_append_right (by rw [hlen]; omega), hlen]
    by_cases h4 : i < pos + data.length
    · rw [if_pos ⟨by omega, h4⟩, List.getElem?_append_left (by omega)]
    · rw [if_neg (by omega), List.getElem?_append_right (by omega), List.getElem?_drop]
      congr 2; omega

/-! ## The file positions -/

theorem try_from_cases (s : State) (rest : List translation_t) (base : Nat) :
    ((∀ u ∈ rest, memcmp_eq s.buffer s.bufferpos u.srch u.srchlen = false) ∧
        try_from s base rest = s) ∨
      ∃ j t, rest[j]? = some t ∧ memcmp_eq s.buffer s.bufferpos t.srch t.srchlen = true ∧
        (∀ i u, i < j → rest[i]? = some u →
          memcmp_eq s.buffer s.bufferpos u.srch u.srchlen = false) ∧
        try_from s base rest = substitute s (base + j) t := by
  induction rest generalizing base with
  | nil => exact Or.inl ⟨by simp, rfl⟩
  | cons u rest ih =>
      rw [try_from]
      by_cases hu : memcmp_eq s.buffer s.bufferpos u.srch u.srchlen = true
      · rw [if_pos hu]
        exact Or.inr ⟨0, u, by simp, hu, by omega, rfl⟩
      · rw [if_neg hu]
        have hu1 : memcmp_eq s.buffer s.bufferpos u.srch u.srchlen = false := by
          simpa using hu
        rcases ih (base + 1) with ⟨hn, h⟩ | ⟨j, t, ht, hm, hf, h⟩
        · refine Or.inl ⟨?_, h⟩
          intro v hv
          rcases List.mem_cons.mp hv with hv | hv
          · rw [hv]; exact hu1
          · exact hn v hv
        · refine Or.inr ⟨j + 1, t, by simpa using ht, hm, ?_, ?_⟩
          · intro i v hi hv
            cases i with
            | zero => simp at hv; rw [← hv]; exact hu1
            | succ i => exact hf i v (by omega) (by simpa using hv)
          · rw [h]; congr 1; omega

theorem try_translations_geom (n : Nat) (s : State) (hg : Geom n s) :
    Geom n (try_translations s) := by
  rcases try_from_cases s s.translation 0 with ⟨_, h⟩ | ⟨x, t, _, _, _, h⟩
  · rw [try_translations, h]; exact hg
  · rw [try_translations, h]
    exact ⟨hg.file_len, hg.blk, hg.f1_le, hg.f2_eq, hg.fn_eq, hg.len_eq⟩

theorem try_translations_bufferlen (s : State) :
    (try_translations s).bufferlen = s.bufferlen := by
  rcases try_from_cases s s.translation 0 with ⟨_, h⟩ | ⟨x, t, _, _, _, h⟩
  · rw [try_translations, h]
  · rw [try_translations, h]; rfl

theorem try_translations_file (s : State) :
    (try_translations s).file = s.file := by
  rcases try_from_cases s s.translation 0 with ⟨_, h⟩ | ⟨x, t, _, _, _, h⟩
  · rw [try_translations, h]
  · rw [try_translations, h]; rfl

theorem geom_shape (n : Nat) (s : State) (hg : Geom n s) :
    s.bufferlen = (s.fileposnext : Int) - (s.filepos1st : Int) ∧
    ((s.fileposnext = s.filepos1st + 2 * BLKSIZE ∧ s.filepos2nd = s.filepos1st + BLKSIZE ∧
        s.filepos1st + 2 * BLKSIZE ≤ n) ∨
      (s.fileposnext = n ∧ s.filepos2nd = s.filepos1st + BLKSIZE ∧
        s.filepos1st + BLKSIZE ≤ n ∧ n < s.filepos1st + 2 * BLKSIZE) ∨
      (s.fileposnext = n ∧ s.filepos2nd = n ∧ s.filepos1st ≤ n ∧
        n < s.filepos1st + BLKSIZE)) := by
  have h2 := hg.fn_eq
  have h4 := hg.f2_eq
  have h5 := hg.f1_le
  refine ⟨hg.len_eq, ?_⟩
  rcases Nat.lt_or_ge n (s.filepos1st + BLKSIZE) with c1 | c1
  · right; right
    rw [Nat.min_eq_right (by omega)] at h2 h4
    exact ⟨h2, h4, h5, c1⟩
  · rw [Nat.min_eq_left c1] at h4
    rcases Nat.lt_or_ge n (s.filepos1st + 2 * BLKSIZE) with c2 | c2
    · right; left
      rw [Nat.min_eq_right (by omega)] at h2
      exact ⟨h2, h4, c1, c2⟩
    · left
      rw [Nat.min_eq_left c2] at h2
      exact ⟨h2, h4, c2⟩

theorem slide_file_length (n : Nat) (s : State) (hg : Geom n s) (h : 0 < s.bufferlen) :
    (slide s).file.length = n := by
  have h1 := hg.file_len
  obtain ⟨h3, hs⟩ := geom_shape n s hg
  show (if s.dirty1st = true then _ else _ : List Nat).length = n
  split_ifs
  · rw [fwrite_length, buffer_bytes_length, h1]
    have : s.filepos1st + (min (BLKSIZE : Int) s.bufferlen).toNat ≤ n := by
      rcases hs with ⟨e1, e2, e3⟩ | ⟨e1, e2, e3, e4⟩ | ⟨e1, e2, e3, e4⟩ <;>
      · rw [h3, e1]; omega
    omega
  · exact h1

theorem slide_shape (n : Nat) (s : State) (hg : Geom n s) (h0 : 0 < s.bufferlen) :
    ∃ nb : Nat, (fread (slide s).file s.fileposnext BLKSIZE).length = nb ∧
      s.bufferlen = (s.fileposnext : Int) - (s.filepos1st : Int) ∧
      ((s.fileposnext = s.filepos1st + 2 * BLKSIZE ∧ s.filepos2nd = s.filepos1st + BLKSIZE ∧
          nb ≤ BLKSIZE ∧ s.fileposnext + nb ≤ n ∧ (nb < BLKSIZE → s.fileposnext + nb = n)) ∨
        (s.fileposnext = n ∧ nb = 0 ∧ s.filepos2nd = s.filepos1st + BLKSIZE ∧
          s.filepos1st + BLKSIZE ≤ n ∧ n < s.filepos1st + 2 * BLKSIZE) ∨
        (s.fileposnext = n ∧ nb = 0 ∧ s.filepos2nd = n ∧ s.filepos1st < n ∧
          n < s.filepos1st + BLKSIZE)) := by
  have hf := slide_file_length n s hg h0
  obtain ⟨h3, hs⟩ := geom_shape n s hg
  have hlen : (fread (slide s).file s.fileposnext BLKSIZE).length
      = min BLKSIZE (n - s.fileposnext) := by rw [fread_length, hf]
  refine ⟨_, rfl, h3, ?_⟩
  rw [hlen]
  rcases hs with ⟨e1, e2, e3⟩ | ⟨e1, e2, e3, e4⟩ | ⟨e1, e2, e3, e4⟩
  · left
    refine ⟨e1, e2, Nat.min_le_left _ _, ?_, ?_⟩
    · have := Nat.min_le_right BLKSIZE (n - s.fileposnext); omega
    · intro hlt
      rcases Nat.lt_or_ge (n - s.fileposnext) BLKSIZE with c | c
      · rw [Nat.min_eq_right (by omega)]; omega
      · rw [Nat.min_eq_left c] at hlt; omega
  · right; left
    exact ⟨e1, by rw [e1]; simp, e2, e3, e4⟩
  · right; right
    refine ⟨e1, by rw [e1]; simp, e2, ?_, e4⟩
    rw [h3, e1] at h0; omega

theorem slide_filepos1st (s : State) : (slide s).filepos1st = s.filepos2nd := rfl

theorem slide_filepos2nd (s : State) : (slide s).filepos2nd = s.fileposnext := rfl

theorem slide_fileposnext (s : State) :
    (slide s).fileposnext
      = s.fileposnext + (fread (slide s).file s.fileposnext BLKSIZE).length := rfl

theorem slide_bufferlen (s : State) :
    (slide s).bufferlen = s.bufferlen - (BLKSIZE : Int)
      + ((fread (slide s).file s.fileposnext BLKSIZE).length : Int) := rfl

theorem slide_geom (n : Nat) (s : State) (hg : Geom n s) (h : (BLKSIZE : Int) < s.bufferlen) :
    Geom n (slide s) := by
  have hB := BLKSIZE_eq
  have h0 := slide_file_length n s hg (by omega)
  obtain ⟨nb, hnb, h3, hshape⟩ := slide_shape n s hg (by omega)
  have hblk := hg.blk
  refine ⟨h0, ?_, ?_, ?_, ?_, ?_⟩
  · rw [slide_filepos1st]
    have : s.filepos2nd = s.filepos1st + BLKSIZE := by
      rcases hshape with ⟨e1, e2, e3, e4, e5⟩ | ⟨e1, e2, e3, e4, e5⟩ | ⟨e1, e2, e3, e4, e5⟩ <;> omega
    rw [this]
    exact Dvd.dvd.add hblk (dvd_refl _)
  · rw [slide_filepos1st]
    rcases hshape with ⟨e1, e2, e3, e4, e5⟩ | ⟨e1, e2, e3, e4, e5⟩ | ⟨e1, e2, e3, e4, e5⟩ <;> omega
  · rw [slide_filepos1st, slide_filepos2nd]
    rcases hshape with ⟨e1, e2, e3, e4, e5⟩ | ⟨e1, e2, e3, e4, e5⟩ | ⟨e1, e2, e3, e4, e5⟩
    · rw [Nat.min_eq_left (by omega)]; omega
    · rw [Nat.min_eq_right (by omega)]; omega
    · omega
  · rw [slide_filepos1st, slide_fileposnext, hnb]
    rcases hshape with ⟨e1, e2, e3, e4, e5⟩ | ⟨e1, e2, e3, e4, e5⟩ | ⟨e1, e2, e3, e4, e5⟩
    · rcases Nat.lt_or_ge nb BLKSIZE with c | c
      · rw [Nat.min_eq_right (by omega)]; omega
      · rw [Nat.min_eq_left (by omega)]; omega
    · rw [Nat.min_eq_right (by omega)]; omega
    · omega
  · rw [slide_filepos1st, slide_fileposnext, slide_bufferlen, hnb]
    rcases hshape with ⟨e1, e2, e3, e4, e5⟩ | ⟨e1, e2, e3, e4, e5⟩ | ⟨e1, e2, e3, e4, e5⟩ <;>
    · push_cast; omega

theorem slide_bufferlen_last (n : Nat) (s : State) (hg : Geom n s) (h0 : 0 < s.bufferlen)
    (h : s.bufferlen ≤ (BLKSIZE : Int)) : (slide s).bufferlen ≤ 0 := by
  have hB := BLKSIZE_eq
  obtain ⟨nb, hnb, h3, hshape⟩ := slide_shape n s hg h0
  rw [slide_bufferlen, hnb]
  rcases hshape with ⟨e1, e2, e3, e4, e5⟩ | ⟨e1, e2, e3, e4, e5⟩ | ⟨e1, e2, e3, e4, e5⟩ <;> omega

theorem prime_geom (file : List Nat) (table : List translation_t) :
    Geom file.length (prime file table) := by
  have hB := BLKSIZE_eq
  have e1 : (fread file 0 BLKSIZE).length = min BLKSIZE file.length := by
    rw [fread_length]; simp
  have e2 : (fread file (fread file 0 BLKSIZE).length BLKSIZE).length
      = min BLKSIZE (file.length - min BLKSIZE file.length) := by
    rw [fread_length, e1]
  refine ⟨rfl, ?_, ?_, ?_, ?_, ?_⟩
  · show BLKSIZE ∣ 0
    exact dvd_zero _
  · show 0 ≤ file.length
    omega
  · show (fread file 0 BLKSIZE).length = min (0 + BLKSIZE) file.length
    rw [e1, Nat.zero_add]
  · show (fread file 0 BLKSIZE).length + (fread file (fread file 0 BLKSIZE).length BLKSIZE).length
      = min (0 + 2 * BLKSIZE) file.length
    rw [e2, e1]; omega
  · show ((fread file 0 BLKSIZE).length : Int) + ((fread file (fread file 0 BLKSIZE).length BLKSIZE).length : Int)
      = (((fread file 0 BLKSIZE).length + (fread file (fread file 0 BLKSIZE).length BLKSIZE).length : Nat) : Int) - ((0 : Nat) : Int)
    push_cast; omega

theorem chk_buffer_false_geom (n : Nat) (s : State) (hg : Geom n s)
    (hp : s.bufferpos < s.bufferlen ∨ s.bufferpos < BLKSIZE) :
    Geom n (chk_buffer false s) := by
  unfold chk_buffer
  by_cases h : (BLKSIZE : Int) ≤ s.bufferpos
  · simp only [Bool.false_or, decide_eq_true_eq, h, if_true]
    exact slide_geom n s hg (by omega)
  · simp only [Bool.false_or, decide_eq_true_eq, h, if_false]
    exact hg

theorem scan_body_geom (n : Nat) (s : State) (hg : Geom n s)
    (hp : s.bufferpos < s.bufferlen ∨ s.bufferpos < BLKSIZE) :
    Geom n (scan_body s) := by
  have h := try_translations_geom n _ (chk_buffer_false_geom n s hg hp)
  exact ⟨h.file_len, h.blk, h.f1_le, h.f2_eq, h.fn_eq, h.len_eq⟩

theorem step_point_inv (n : Nat) (ps : Phase × State) (h : PointInv n ps) :
    PointInv n (step ps) := by
  obtain ⟨ph, s⟩ := ps
  cases ph with
  | scan =>
      obtain ⟨hg, hp⟩ := h
      have hg1 := scan_body_geom n s hg hp
      simp only [step]
      split_ifs with h1
      · exact ⟨hg1, Or.inl h1⟩
      · exact ⟨hg1.file_len, fun _ => hg1⟩
  | drain =>
      obtain ⟨hf, hg⟩ := h
      simp only [step]
      split_ifs with h1
      · have hg1 := hg h1
        refine ⟨?_, fun h2 => ?_⟩
        · simp only [chk_buffer, Bool.true_or, if_true]
          exact slide_file_length n s hg1 h1
        · simp only [chk_buffer, Bool.true_or, if_true] at h2 ⊢
          by_cases h3 : (BLKSIZE : Int) < s.bufferlen
          · exact slide_geom n s hg1 h3
          · have := slide_bufferlen_last n s hg1 h1 (by omega)
            omega
      · exact hf
  | done => exact h

theorem program_point_inv (file : List Nat) (table : List translation_t) (k : Nat) :
    PointInv file.length (program_point file table k) := by
  induction k with
  | zero =>
      refine ⟨prime_geom file table, Or.inr ?_⟩
      show (0 : Int) < BLKSIZE
      rw [BLKSIZE_eq]; omega
  | succ k ih => exact step_point_inv _ _ ih

/-! ## The counters -/

theorem chk_buffer_translation (b : Bool) (s : State) :
    (chk_buffer b s).translation = s.translation := by
  unfold chk_buffer; split_ifs <;> rfl

theorem chk_buffer_total_changes (b : Bool) (s : State) :
    (chk_buffer b s).total_changes = s.total_changes := by
  unfold chk_buffer; split_ifs <;> rfl

theorem try_translations_counters (k : Nat) (s : State) (h : CountInv k s) :
    CountInv (k + 1) (try_translations s) := by
  obtain ⟨h1, h2⟩ := h
  rcases try_from_cases s s.translation 0 with ⟨_, htry⟩ | ⟨j, t, hj, _, _, htry⟩
  · rw [try_translations, htry]
    refine ⟨h1, fun hk => ?_⟩
    obtain ⟨a, b, c, d⟩ := h2 (by omega)
    exact ⟨a, b, c, by omega⟩
  · have hlt : j < s.translation.length := by
      by_contra hc
      rw [List.getElem?_eq_none (by omega)] at hj
      cases hj
    rw [try_translations, htry, Nat.zero_add]
    refine ⟨?_, fun hk => ?_⟩
    · show wrap32 (sum_used (incr_used j s.translation)) = wrap32 (s.total_changes + 1)
      rw [sum_used_incr_used _ _ hlt, ← h1, wrap32_add_one]
    · obtain ⟨a, b, c, d⟩ := h2 (by omega)
      obtain ⟨e1, e2⟩ := sum_used_incr_used_small _ j hlt a (by omega)
      have hw := wrap32_small s.total_changes c (by omega)
      refine ⟨e2, ?_, ?_, ?_⟩
      · show sum_used (incr_used j s.translation) = wrap32 (s.total_changes + 1)
        rw [e1, hw, b]
      · show 0 ≤ wrap32 (s.total_changes + 1)
        rw [hw]; omega
      · show wrap32 (s.total_changes + 1) ≤ ((k + 1 : Nat) : Int)
        rw [hw]; push_cast; omega

theorem count_inv_congr (k : Nat) (s1 s : State) (ht : s1.translation = s.translation)
    (hc : s1.total_changes = s.total_changes) (h : CountInv k s) : CountInv k s1 := by
  unfold CountInv at h ⊢
  rw [ht, hc]
  exact h

theorem count_inv_mono (k : Nat) (s : State) (h : CountInv k s) : CountInv (k + 1) s := by
  obtain ⟨h1, h2⟩ := h
  refine ⟨h1, fun hk => ?_⟩
  obtain ⟨a, b, c, d⟩ := h2 (by omega)
  exact ⟨a, b, c, by omega⟩

theorem step_counters (k : Nat) (ps : Phase × State) (h : CountInv k ps.2) :
    CountInv (k + 1) (step ps).2 := by
  obtain ⟨ph, s⟩ := ps
  change CountInv k s at h
  cases ph with
  | scan =>
      have h1 : CountInv k (chk_buffer false s) :=
        count_inv_congr k _ s (chk_buffer_translation false s) (chk_buffer_total_changes false s) h
      have h2 := try_translations_counters k _ h1
      have h3 : CountInv (k + 1) (scan_body s) :=
        count_inv_congr (k + 1) (scan_body s) (try_translations (chk_buffer false s)) rfl rfl h2
      simp only [step]
      split_ifs <;> exact h3
  | drain =>
      simp only [step]
      split_ifs
      · exact count_inv_congr (k + 1) _ s (chk_buffer_translation true s)
          (chk_buffer_total_changes true s) (count_inv_mono k s h)
      · exact count_inv_mono k s h
  | done => exact count_inv_mono k s h

/-! ## The bytes of the mailbox during the run -/

theorem slide_buffer (s : State) (j : Int) :
    (slide s).buffer j
      = if (BLKSIZE : Int) ≤ j ∧
            j < (BLKSIZE : Int) + ((fread (slide s).file s.fileposnext BLKSIZE).length : Int) then
          (slide s).file.getD (s.fileposnext + (j - (BLKSIZE : Int)).toNat) 0
        else if 0 ≤ j ∧ j < (BLKSIZE : Int) then s.buffer ((BLKSIZE : Int) + j)
        else s.buffer j := by
  show memcpy (memcpy s.buffer 0 (fun (k : Nat) => s.buffer ((BLKSIZE : Int) + (k : Int))) BLKSIZE)
      BLKSIZE (fun k => (fread (slide s).file s.fileposnext BLKSIZE).getD k 0)
      (fread (slide s).file s.fileposnext BLKSIZE).length j = _
  simp only [memcpy]
  by_cases h1 : (BLKSIZE : Int) ≤ j ∧
      j < (BLKSIZE : Int) + ((fread (slide s).file s.fileposnext BLKSIZE).length : Int)
  · rw [if_pos h1, if_pos h1, fread_getD, if_pos]
    have := fread_length (slide s).file s.fileposnext BLKSIZE
    omega
  · rw [if_neg h1, if_neg h1]
    by_cases h2 : 0 ≤ j ∧ j < (BLKSIZE : Int)
    · rw [if_pos h2, if_pos (by omega)]
      congr 1; omega
    · rw [if_neg h2, if_neg (by omega)]

theorem slide_file_getD (s : State) (i : Nat) :
    (slide s).file.getD i 0
      = if s.dirty1st = true ∧ s.filepos1st ≤ i ∧
            (i : Int) < (s.filepos1st : Int) + min (BLKSIZE : Int) s.bufferlen then
          s.buffer ((i : Int) - (s.filepos1st : Int))
        else s.file.getD i 0 := by
  show (if s.dirty1st = true then
      fwrite s.file s.filepos1st
        (buffer_bytes s.buffer (min (BLKSIZE : Int) s.bufferlen).toNat)
    else s.file).getD i 0 = _
  by_cases hd : s.dirty1st = true
  · rw [if_pos hd, fwrite_getD, buffer_bytes_length, buffer_bytes_getD]
    by_cases h1 : s.filepos1st ≤ i ∧ i < s.filepos1st + (min (BLKSIZE : Int) s.bufferlen).toNat
    · rw [if_pos h1, if_pos (by omega), if_pos ⟨hd, h1.1, by omega⟩]
      congr 1; omega
    · rw [if_neg h1, if_neg]
      intro hc; apply h1; omega
  · rw [if_neg hd, if_neg]
    intro hc; exact hd hc.1

theorem slide_cell (n : Nat) (s : State) (hg : Geom n s) (hc : Covered s)
    (h0 : 0 < s.bufferlen) (i : Nat) :
    cell (slide s) i = cell s i := by
  have hB := BLKSIZE_eq
  obtain ⟨nb, hnb, h3, hshape⟩ := slide_shape n s hg h0
  have hcov := hc i
  unfold cell
  rw [slide_buffer, slide_file_getD, slide_file_getD, slide_filepos1st, slide_bufferlen, hnb]
  rcases hshape with ⟨e1, e2, e3, e4, e5⟩ | ⟨e1, e2, e3, e4, e5⟩ | ⟨e1, e2, e3, e4, e5⟩ <;>
  · by_cases hv : s.filepos1st ≤ i ∧ (i : Int) < (s.filepos1st : Int) + s.bufferlen
    · rw [if_pos hv]
      by_cases hh : i < s.filepos1st + BLKSIZE
      · -- first half
        rw [if_neg (by omega)]
        by_cases hd : s.dirty1st = true
        · rw [if_pos ⟨hd, hv.1, by omega⟩]
        · rw [if_neg (fun hx => hd hx.1)]
          by_contra hne
          rcases hcov hv.1 hv.2 (fun hx => hne hx.symm) with h | h
          · exact hd h.2
          · omega
      · -- second half
        rw [if_pos (by omega), if_neg (by omega), if_pos (by omega)]
        congr 1; omega
    · rw [if_neg hv]
      by_cases hnew : s.filepos2nd ≤ i ∧ (i : Int) < (s.filepos2nd : Int)
          + (s.bufferlen - (BLKSIZE : Int) + (nb : Int))
      · rw [if_pos hnew, if_pos (by omega), if_neg (by omega)]
        congr 1; omega
      · rw [if_neg hnew, if_neg (by omega)]

theorem slide_covered (n : Nat) (s : State) (hg : Geom n s) (hc : Covered s)
    (h0 : (BLKSIZE : Int) < s.bufferlen) : Covered (slide s) := by
  have hB := BLKSIZE_eq
  obtain ⟨nb, hnb, h3, hshape⟩ := slide_shape n s hg (by omega)
  intro i hi1 hi2 hne
  have hcov := hc i
  rw [slide_filepos1st] at hi1 hi2 hne
  rw [slide_bufferlen, hnb] at hi2
  rw [slide_buffer, hnb] at hne
  rw [slide_filepos1st]
  show (i < s.filepos2nd + BLKSIZE ∧ s.dirty2nd = true) ∨ (s.filepos2nd + BLKSIZE ≤ i ∧ false = true)
  rcases hshape with ⟨e1, e2, e3, e4, e5⟩ | ⟨e1, e2, e3, e4, e5⟩ | ⟨e1, e2, e3, e4, e5⟩ <;>
  · by_cases hh : i < s.filepos2nd + BLKSIZE
    · rw [if_neg (by omega), if_pos (by omega), slide_file_getD, if_neg (by omega)] at hne
      have hne1 : s.buffer ((i : Int) - (s.filepos1st : Int)) ≠ s.file.getD i 0 := by
        intro hx; apply hne; rw [← hx]; congr 1; omega
      rcases hcov (by omega) (by omega) hne1 with h | h
      · omega
      · exact Or.inl ⟨hh, h.2⟩
    · exfalso
      rw [if_pos (by omega)] at hne
      apply hne
      congr 1; omega

theorem memcmp_eq_iff (buffer : Int → Nat) (pos : Int) (pat : List Nat) (n : Nat) :
    memcmp_eq buffer pos pat n = true ↔ ∀ k : Nat, k < n → buffer (pos + (k : Int)) = pat.getD k 0 := by
  simp [memcmp_eq, List.all_eq_true]

theorem same_rules_getElem (a b : List translation_t) (h : same_rules a b) (j : Nat)
    (t : translation_t) (ht : a[j]? = some t) :
    ∃ u, b[j]? = some u ∧ rule_key t = rule_key u := by
  have h1 : (a.map rule_key)[j]? = (b.map rule_key)[j]? := by rw [h]
  rw [List.getElem?_map, List.getElem?_map, ht] at h1
  cases hb : b[j]? with
  | none => rw [hb] at h1; simp at h1
  | some u =>
      rw [hb] at h1
      simp only [Option.map_some'] at h1
      exact ⟨u, rfl, Option.some.inj h1⟩

theorem same_rules_symm (a b : List translation_t) (h : same_rules a b) : same_rules b a :=
  Eq.symm h

theorem rule_key_incr_used (xlate : Nat) (table : List translation_t) :
    (incr_used xlate table).map rule_key = table.map rule_key := by
  induction table generalizing xlate with
  | nil => simp [incr_used]
  | cons u rest ih =>
      cases xlate with
      | zero => simp [incr_used, rule_key]
      | succ x => simp [incr_used, ih x]

theorem well_formed_of_same_rules (a b : List translation_t) (h : same_rules a b)
    (hw : well_formed b) : well_formed a := by
  intro t ht
  obtain ⟨j, hj, hget⟩ := List.getElem_of_mem ht
  have hget1 : a[j]? = some t := by rw [List.getElem?_eq_getElem hj, hget]
  obtain ⟨u, hu, hk⟩ := same_rules_getElem a b h j t hget1
  have hmem : u ∈ b := List.getElem?_mem hu
  have := hw u hmem
  simp only [rule_key, Prod.mk.injEq] at hk
  obtain ⟨k1, k2, k3, k4⟩ := hk
  rw [k2, k4]; exact this


theorem substitute_cell_outside (s : State) (xlate : Nat) (t : translation_t)
    (ht : t.repllen ≤ t.srchlen) (i : Nat)
    (hi : ¬ (cursor s ≤ (i : Int) ∧ (i : Int) < cursor s + (t.srchlen : Int))) :
    cell (substitute s xlate t) i = cell s i := by
  unfold cell
  show (if s.filepos1st ≤ i ∧ (i : Int) < (s.filepos1st : Int) + s.bufferlen then
      (substitute s xlate t).buffer ((i : Int) - (s.filepos1st : Int)) else s.file.getD i 0) = _
  rw [substitute_buffer]
  unfold cursor at hi
  by_cases hv : s.filepos1st ≤ i ∧ (i : Int) < (s.filepos1st : Int) + s.bufferlen
  · rw [if_pos hv, if_pos hv, if_neg (by omega), if_neg (by omega)]
  · rw [if_neg hv, if_neg hv]

theorem substitute_cell_inside (s : State) (xlate : Nat) (t : translation_t) (i : Nat)
    (hv : s.filepos1st ≤ i ∧ (i : Int) < (s.filepos1st : Int) + s.bufferlen)
    (hi : cursor s ≤ (i : Int) ∧ (i : Int) < cursor s + (t.srchlen : Int)) :
    cell (substitute s xlate t) i
      = if (i : Int) < cursor s + (t.repllen : Int) then
          t.repl.getD ((i : Int) - cursor s).toNat 0
        else 0 := by
  unfold cell
  show (if s.filepos1st ≤ i ∧ (i : Int) < (s.filepos1st : Int) + s.bufferlen then
      (substitute s xlate t).buffer ((i : Int) - (s.filepos1st : Int)) else s.file.getD i 0) = _
  rw [substitute_buffer, if_pos hv]
  unfold cursor at hi ⊢
  by_cases h1 : (i : Int) < (s.filepos1st : Int) + s.bufferpos + (t.repllen : Int)
  · rw [if_pos h1, if_pos (by omega)]
    congr 2; omega
  · rw [if_neg h1, if_neg (by omega), if_pos (by omega)]

theorem substitute_covered (s : State) (xlate : Nat) (t : translation_t)
    (ht : t.repllen ≤ t.srchlen) (hp : s.bufferpos < (BLKSIZE : Int)) (hc : Covered s) :
    Covered (substitute s xlate t) := by
  intro i hi1 hi2 hne
  change s.filepos1st ≤ i at hi1
  change (i : Int) < (s.filepos1st : Int) + s.bufferlen at hi2
  change (substitute s xlate t).buffer ((i : Int) - (s.filepos1st : Int)) ≠ s.file.getD i 0 at hne
  have hd1 : (substitute s xlate t).dirty1st = true := by
    show (if s.bufferpos < (BLKSIZE : Int) then true else s.dirty1st) = true
    rw [if_pos hp]
  have hpos := substitute_bufferpos s xlate t ht
  have hd2 : (substitute s xlate t).dirty2nd
      = if (BLKSIZE : Int) ≤ (substitute s xlate t).bufferpos then true else s.dirty2nd := by
    show (if (BLKSIZE : Int) ≤ (substitute s xlate t).bufferpos then true
      else (if s.bufferpos < (BLKSIZE : Int) then s.dirty2nd else true)) = _
    rw [if_pos hp]
  show (i < s.filepos1st + BLKSIZE ∧ (substitute s xlate t).dirty1st = true) ∨
    (s.filepos1st + BLKSIZE ≤ i ∧ (substitute s xlate t).dirty2nd = true)
  rw [hd1, hd2, hpos]
  by_cases hh : i < s.filepos1st + BLKSIZE
  · exact Or.inl ⟨hh, rfl⟩
  · right
    refine ⟨by omega, ?_⟩
    rw [substitute_buffer] at hne
    by_cases hin : s.bufferpos ≤ (i : Int) - (s.filepos1st : Int) ∧
        (i : Int) - (s.filepos1st : Int) < s.bufferpos + (t.srchlen : Int)
    · rw [if_pos (by omega)]
    · rw [if_neg (by omega), if_neg (by omega)] at hne
      rcases hc i hi1 hi2 hne with h | h
      · omega
      · rw [h.2]; split_ifs <;> rfl


theorem chk_buffer_false_of_lt (s : State) (h : s.bufferpos < (BLKSIZE : Int)) :
    chk_buffer false s = s := by
  unfold chk_buffer
  rw [if_neg]
  simp only [Bool.false_or, decide_eq_true_eq]
  omega

theorem chk_buffer_false_of_ge (s : State) (h : (BLKSIZE : Int) ≤ s.bufferpos) :
    chk_buffer false s = slide s := by
  unfold chk_buffer
  rw [if_pos]
  simp only [Bool.false_or, decide_eq_true_eq]
  exact h

theorem chk_buffer_true (s : State) : chk_buffer true s = slide s := by
  unfold chk_buffer
  rw [if_pos]
  simp

theorem chk_buffer_false_inv (file : List Nat) (table : List translation_t) (s : State)
    (h : ScanInv file table s) :
    ScanInv file table (chk_buffer false s) ∧ (chk_buffer false s).bufferpos < (BLKSIZE : Int) ∧
      cursor (chk_buffer false s) = cursor s ∧
      (∀ i, cell (chk_buffer false s) i = cell s i) := by
  have hB := BLKSIZE_eq
  have hM : MAX_STR = 4 := rfl
  have hpb := h.pos_bound
  by_cases hc : (BLKSIZE : Int) ≤ s.bufferpos
  · rw [chk_buffer_false_of_ge s hc]
    have hlt : (BLKSIZE : Int) < s.bufferlen := by
      rcases h.pos_lt with h1 | h1 <;> omega
    have hg := slide_geom _ s h.geom hlt
    have hcell := slide_cell _ s h.geom h.covered (by omega)
    obtain ⟨h3, hs⟩ := geom_shape _ s h.geom
    have hf2 : s.filepos2nd = s.filepos1st + BLKSIZE := by
      rcases hs with ⟨e1, e2, e3⟩ | ⟨e1, e2, e3, e4⟩ | ⟨e1, e2, e3, e4⟩ <;> omega
    have hcur : cursor (slide s) = cursor s := by
      show ((s.filepos2nd : Nat) : Int) + (s.bufferpos - (BLKSIZE : Int)) = (s.filepos1st : Int) + s.bufferpos
      rw [hf2]; push_cast; omega
    have hpos : (slide s).bufferpos = s.bufferpos - (BLKSIZE : Int) := rfl
    refine ⟨⟨hg, ?_, ?_, ?_, slide_covered _ s h.geom h.covered hlt, h.rules, ?_⟩, ?_, hcur, hcell⟩
    · rw [hpos]; omega
    · right; rw [hpos]; omega
    · rw [hpos]; omega
    · intro i hi
      rw [hcell, h.ahead i (by rw [← hcur]; exact hi)]
    · rw [hpos]; omega
  · rw [chk_buffer_false_of_lt s (by omega)]
    exact ⟨h, by omega, rfl, fun _ => rfl⟩

theorem prime_buffer (file : List Nat) (table : List translation_t) (j : Int)
    (h0 : 0 ≤ j) (h1 : j < (prime file table).bufferlen) :
    (prime file table).buffer j = file.getD j.toNat 0 := by
  have hB := BLKSIZE_eq
  have e1 : (fread file 0 BLKSIZE).length = min BLKSIZE file.length := by
    rw [fread_length]; simp
  have e2 : (fread file (fread file 0 BLKSIZE).length BLKSIZE).length
      = min BLKSIZE (file.length - (fread file 0 BLKSIZE).length) := by
    rw [fread_length]
  change j < ((fread file 0 BLKSIZE).length : Int)
    + ((fread file (fread file 0 BLKSIZE).length BLKSIZE).length : Int) at h1
  show memcpy (memcpy (fun _ => 0) 0 (fun k => (fread file 0 BLKSIZE).getD k 0)
      (fread file 0 BLKSIZE).length) BLKSIZE
      (fun k => (fread file (fread file 0 BLKSIZE).length BLKSIZE).getD k 0)
      (fread file (fread file 0 BLKSIZE).length BLKSIZE).length j = _
  simp only [memcpy]
  generalize hb : (fread file (fread file 0 BLKSIZE).length BLKSIZE).length = b at e2 h1 ⊢
  rw [fread_getD, fread_getD]
  generalize ha : (fread file 0 BLKSIZE).length = a at e1 e2 h1 ⊢
  rcases Nat.lt_or_ge file.length BLKSIZE with c | c
  · rw [Nat.min_eq_right (by omega)] at e1
    rw [e1, Nat.sub_self, Nat.min_eq_right (by omega)] at e2
    rw [if_neg (by omega), if_pos (by omega), if_pos (by omega)]
    congr 1; omega
  · rw [Nat.min_eq_left c] at e1
    have hb1 : b ≤ BLKSIZE := by rw [e2]; exact Nat.min_le_left _ _
    have hb2 : b ≤ file.length - a := by rw [e2]; exact Nat.min_le_right _ _
    by_cases hj : (BLKSIZE : Int) ≤ j
    · rw [if_pos ⟨hj, by omega⟩, if_pos (by omega)]
      congr 1; omega
    · rw [if_neg (by omega), if_pos (by omega), if_pos (by omega)]
      congr 1; omega

theorem prime_cell (file : List Nat) (table : List translation_t) (i : Nat) :
    cell (prime file table) i = file.getD i 0 := by
  unfold cell
  split_ifs with h
  · rw [prime_buffer file table _ (by
      show (0 : Int) ≤ (i : Int) - ((0 : Nat) : Int)
      omega) (by
      have := h.2
      change (i : Int) < ((0 : Nat) : Int) + (prime file table).bufferlen at this
      show (i : Int) - ((0 : Nat) : Int) < (prime file table).bufferlen
      omega)]
    congr 1
  · rfl

theorem prime_scan_inv (file : List Nat) (table : List translation_t) :
    ScanInv file table (prime file table) := by
  have hB := BLKSIZE_eq
  have hM : MAX_STR = 4 := rfl
  refine ⟨prime_geom file table, le_refl _, Or.inr ?_, ?_, ?_, rfl, fun i _ => prime_cell file table i⟩
  · show (0 : Int) < (BLKSIZE : Int)
    omega
  · show (0 : Int) < (BLKSIZE : Int) + (MAX_STR : Int)
    omega
  · intro i hi1 hi2 hne
    exfalso
    apply hne
    have := prime_cell file table i
    unfold cell at this
    rw [if_pos ⟨hi1, hi2⟩] at this
    exact this


theorem advance_cell (s : State) (i : Nat) : cell (advance s) i = cell s i := rfl

theorem advance_cursor (s : State) : cursor (advance s) = cursor s + 1 := by
  show (s.filepos1st : Int) + (s.bufferpos + 1) = (s.filepos1st : Int) + s.bufferpos + 1
  omega

theorem advance_covered (s : State) (h : Covered s) : Covered (advance s) := h

theorem advance_geom (n : Nat) (s : State) (h : Geom n s) : Geom n (advance s) :=
  ⟨h.file_len, h.blk, h.f1_le, h.f2_eq, h.fn_eq, h.len_eq⟩

/-- What the loop over the table does to a state that satisfies the invariant
of the scan loop, the pointer being in the first half of the buffer. -/
theorem try_translations_inv (file : List Nat) (table : List translation_t) (s : State)
    (hw : well_formed table) (h : ScanInv file table s) (hp : s.bufferpos < (BLKSIZE : Int)) :
    Geom file.length (try_translations s) ∧ Covered (try_translations s) ∧
      same_rules (try_translations s).translation table ∧
      cursor s ≤ cursor (try_translations s) ∧
      cursor (try_translations s) < cursor s + MAX_STR ∧
      (try_translations s).bufferpos < (BLKSIZE : Int) + MAX_STR - 1 ∧
      0 ≤ (try_translations s).bufferpos + 1 ∧
      (∀ i : Nat, cursor (try_translations s) < i → cell (try_translations s) i = cell s i) ∧
      (∀ i : Nat, (i : Int) < cursor s → cell (try_translations s) i = cell s i) := by
  have hB := BLKSIZE_eq
  have hM : MAX_STR = 4 := rfl
  have hpn := h.pos_nonneg
  rcases try_from_cases s s.translation 0 with ⟨_, hno⟩ | ⟨j, t, hj, _, _, hsub⟩
  · rw [try_translations, hno]
    exact ⟨h.geom, h.covered, h.rules, le_refl _, by omega, by omega, by omega,
      fun _ _ => rfl, fun _ _ => rfl⟩
  · rw [try_translations, hsub]
    have htw := well_formed_of_same_rules _ _ h.rules hw t (List.getElem?_mem hj)
    obtain ⟨w1, w2, w3⟩ := htw
    have hpos := substitute_bufferpos s (0 + j) t w3
    have hcur : cursor (substitute s (0 + j) t) = cursor s + (t.srchlen : Int) - 1 := by
      show (s.filepos1st : Int) + (substitute s (0 + j) t).bufferpos = _
      rw [hpos]; unfold cursor; omega
    refine ⟨⟨h.geom.file_len, h.geom.blk, h.geom.f1_le, h.geom.f2_eq, h.geom.fn_eq,
      h.geom.len_eq⟩, substitute_covered s _ t w3 hp h.covered, ?_, ?_, ?_, ?_, ?_, ?_, ?_⟩
    · show same_rules (incr_used (0 + j) s.translation) table
      unfold same_rules
      rw [rule_key_incr_used]
      exact h.rules
    · rw [hcur]; omega
    · rw [hcur]; omega
    · rw [hpos]; omega
    · rw [hpos]; omega
    · intro i hi
      rw [hcur] at hi
      exact substitute_cell_outside s _ t w3 i (by omega)
    · intro i hi
      exact substitute_cell_outside s _ t w3 i (by omega)

/-- What one pass through the body of the scan loop does to a state that
satisfies the invariant of the loop. -/
theorem scan_body_inv (file : List Nat) (table : List translation_t) (s : State)
    (hw : well_formed table) (h : ScanInv file table s) :
    Geom file.length (scan_body s) ∧ 0 ≤ (scan_body s).bufferpos ∧
      (scan_body s).bufferpos < (BLKSIZE : Int) + MAX_STR ∧ Covered (scan_body s) ∧
      same_rules (scan_body s).translation table ∧
      (∀ i : Nat, cursor (scan_body s) ≤ i → cell (scan_body s) i = file.getD i 0) ∧
      cursor s < cursor (scan_body s) ∧ cursor (scan_body s) ≤ cursor s + MAX_STR ∧
      (∀ i : Nat, (i : Int) < cursor s → cell (scan_body s) i = cell s i) := by
  have hM : MAX_STR = 4 := rfl
  obtain ⟨h1, hp1, hcur1, hcell1⟩ := chk_buffer_false_inv file table s h
  obtain ⟨g2, c2, r2, k1, k2, p1, p2, o1, o2⟩ :=
    try_translations_inv file table (chk_buffer false s) hw h1 hp1
  unfold scan_body
  refine ⟨advance_geom _ _ g2, p2, ?_, advance_covered _ c2, r2, ?_, ?_, ?_, ?_⟩
  · show (try_translations (chk_buffer false s)).bufferpos + 1 < _
    omega
  · intro i hi
    rw [advance_cursor] at hi
    rw [advance_cell, o1 i (by omega), h1.ahead i (by omega)]
  · rw [advance_cursor]; omega
  · rw [advance_cursor]; omega
  · intro i hi
    rw [advance_cell, o2 i (by omega), hcell1]

theorem step_run_inv (file : List Nat) (table : List translation_t) (hw : well_formed table)
    (ps : Phase × State) (h : RunInv file table ps) : RunInv file table (step ps) := by
  have hB := BLKSIZE_eq
  have hM : MAX_STR = 4 := rfl
  obtain ⟨ph, s⟩ := ps
  cases ph with
  | scan =>
      obtain ⟨g, p0, pb, c, r, a, _, _, _⟩ := scan_body_inv file table s hw h
      simp only [step]
      split_ifs with h1
      · exact ⟨g, p0, Or.inl h1, pb, c, r, a⟩
      · refine ⟨g.file_len, r, fun h2 => ⟨g, c, ?_⟩⟩
        obtain ⟨h3, hs⟩ := geom_shape _ _ g
        rcases hs with ⟨e1, e2, e3⟩ | ⟨e1, e2, e3, e4⟩ | ⟨e1, e2, e3, e4⟩ <;> omega
  | drain =>
      obtain ⟨hf, hr, hg⟩ := h
      simp only [step]
      split_ifs with h1
      · obtain ⟨g, c, hn⟩ := hg h1
        rw [chk_buffer_true]
        refine ⟨slide_file_length _ s g h1, hr, fun h2 => ?_⟩
        obtain ⟨nb, hnb, h3, hshape⟩ := slide_shape _ s g h1
        rw [slide_bufferlen, hnb] at h2
        have hlt : (BLKSIZE : Int) < s.bufferlen := by
          rcases hshape with ⟨e1, e2, e3, e4, e5⟩ | ⟨e1, e2, e3, e4, e5⟩ | ⟨e1, e2, e3, e4, e5⟩ <;>
            omega
        refine ⟨slide_geom _ s g hlt, slide_covered _ s g c hlt, ?_⟩
        rw [slide_fileposnext, hnb]
        rcases hshape with ⟨e1, e2, e3, e4, e5⟩ | ⟨e1, e2, e3, e4, e5⟩ | ⟨e1, e2, e3, e4, e5⟩ <;>
          omega
      · exact ⟨hf, by omega⟩
  | done => exact h

theorem run_inv (file : List Nat) (table : List translation_t) (hw : well_formed table)
    (k : Nat) : RunInv file table (program_point file table k) := by
  induction k with
  | zero => exact prime_scan_inv file table
  | succ k ih => exact step_run_inv file table hw _ ih

/-- Behind the cursor nothing changes any more. -/
theorem step_frame (file : List Nat) (table : List translation_t) (hw : well_formed table)
    (ps : Phase × State) (h : RunInv file table ps) (i : Nat) (hc : consumed ps i) :
    cell (step ps).2 i = cell ps.2 i ∧ consumed (step ps) i := by
  obtain ⟨ph, s⟩ := ps
  cases ph with
  | scan =>
      obtain ⟨_, _, _, _, _, _, k1, _, o⟩ := scan_body_inv file table s hw h
      change (i : Int) < cursor s at hc
      simp only [step]
      split_ifs with h1
      · exact ⟨o i hc, show (i : Int) < cursor (scan_body s) by omega⟩
      · exact ⟨o i hc, trivial⟩
  | drain =>
      obtain ⟨hf, hr, hg⟩ := h
      simp only [step]
      split_ifs with h1
      · obtain ⟨g, c, hn⟩ := hg h1
        rw [chk_buffer_true]
        exact ⟨slide_cell _ s g c h1 i, trivial⟩
      · exact ⟨rfl, trivial⟩
  | done => exact ⟨rfl, trivial⟩

theorem program_point_add (file : List Nat) (table : List translation_t) (k j : Nat) :
    program_point file table (k + j) = step^[j] (program_point file table k) := by
  induction j with
  | zero => rfl
  | succ j ih =>
      rw [Function.iterate_succ_apply', ← ih]
      rfl

theorem frame_along (file : List Nat) (table : List translation_t) (hw : well_formed table)
    (k j i : Nat) (hc : consumed (program_point file table k) i) :
    cell (program_point file table (k + j)).2 i = cell (program_point file table k).2 i ∧
      consumed (program_point file table (k + j)) i := by
  induction j with
  | zero => exact ⟨rfl, hc⟩
  | succ j ih =>
      have := step_frame file table hw _ (run_inv file table hw (k + j)) i ih.2
      exact ⟨by rw [← ih.1, ← this.1]; rfl, this.2⟩

theorem done_cell (file : List Nat) (table : List translation_t) (s : State)
    (h : RunInv file table (Phase.done, s)) (i : Nat) : cell s i = s.file.getD i 0 := by
  unfold cell
  rw [if_neg]
  have := h.2
  omega


theorem steps_left_step (file : List Nat) (table : List translation_t) (hw : well_formed table)
    (ps : Phase × State) (h : RunInv file table ps) (hnd : ps.1 ≠ Phase.done) :
    steps_left file.length (step ps) < steps_left file.length ps := by
  have hB := BLKSIZE_eq
  obtain ⟨ph, s⟩ := ps
  cases ph with
  | scan =>
      obtain ⟨g, p0, pb, c, r, a, k1, k2, o⟩ := scan_body_inv file table s hw h
      obtain ⟨h3, hs⟩ := geom_shape _ _ g
      simp only [step]
      split_ifs with h1
      · show ((file.length : Int) - cursor (scan_body s)).toNat + (2 * BLKSIZE + 2)
          < ((file.length : Int) - cursor s).toNat + (2 * BLKSIZE + 2)
        have : cursor (scan_body s) < file.length := by
          unfold cursor
          rcases hs with ⟨e1, e2, e3⟩ | ⟨e1, e2, e3, e4⟩ | ⟨e1, e2, e3, e4⟩ <;> omega
        omega
      · show (scan_body s).bufferlen.toNat + 1
          < ((file.length : Int) - cursor s).toNat + (2 * BLKSIZE + 2)
        rcases hs with ⟨e1, e2, e3⟩ | ⟨e1, e2, e3, e4⟩ | ⟨e1, e2, e3, e4⟩ <;> omega
  | drain =>
      obtain ⟨hf, hr, hg⟩ := h
      simp only [step]
      split_ifs with h1
      · obtain ⟨g, c, hn⟩ := hg h1
        rw [chk_buffer_true]
        obtain ⟨nb, hnb, h3, hshape⟩ := slide_shape _ s g h1
        show (slide s).bufferlen.toNat + 1 < s.bufferlen.toNat + 1
        rw [slide_bufferlen, hnb]
        rcases hshape with ⟨e1, e2, e3, e4, e5⟩ | ⟨e1, e2, e3, e4, e5⟩ | ⟨e1, e2, e3, e4, e5⟩ <;>
          omega
      · show 0 < s.bufferlen.toNat + 1
        omega
  | done => exact absurd rfl hnd

theorem step_done (ps : Phase × State) (h : ps.1 = Phase.done) : step ps = ps := by
  obtain ⟨ph, s⟩ := ps
  cases ph with
  | scan => cases h
  | drain => cases h
  | done => rfl

theorem done_stays (file : List Nat) (table : List translation_t) (k j : Nat)
    (h : (program_point file table k).1 = Phase.done) :
    program_point file table (k + j) = program_point file table k := by
  induction j with
  | zero => rfl
  | succ j ih =>
      show step (program_point file table (k + j)) = _
      rw [ih, step_done _ h]

theorem steps_left_bound (file : List Nat) (table : List translation_t) (hw : well_formed table)
    (k : Nat) :
    (program_point file table k).1 = Phase.done ∨
      steps_left file.length (program_point file table k) + k
        ≤ steps_left file.length (program_point file table 0) := by
  induction k with
  | zero => right; omega
  | succ k ih =>
      by_cases hd : (program_point file table k).1 = Phase.done
      · left
        have := done_stays file table k 1 hd
        rw [this]; exact hd
      · rcases ih with h | h
        · exact absurd h hd
        · right
          have := steps_left_step file table hw _ (run_inv file table hw k) hd
          show steps_left file.length (step (program_point file table k)) + (k + 1) ≤ _
          omega

theorem run_of_done (file : List Nat) (table : List translation_t) (K : Nat)
    (h : (program_point file table K).1 = Phase.done) :
    run K file table = some (program_point file table K).2 := by
  unfold run
  generalize program_point file table K = ps at h
  obtain ⟨ph, s⟩ := ps
  cases ph with
  | scan => cases h
  | drain => cases h
  | done => rfl

/-- The run ends, for every mailbox file and every well-formed table. -/
theorem run_terminates (file : List Nat) (table : List translation_t) (hw : well_formed table)
    (K : Nat) (hK : file.length + 2 * BLKSIZE + 3 ≤ K) :
    (program_point file table K).1 = Phase.done := by
  have hB := BLKSIZE_eq
  have h0 : steps_left file.length (program_point file table 0)
      = file.length + (2 * BLKSIZE + 2) := by
    show ((file.length : Int) - (((0 : Nat) : Int) + 0)).toNat + (2 * BLKSIZE + 2) = _
    omega
  rcases steps_left_bound file table hw K with h | h
  · exact h
  · omega

/-! ## A match across a block boundary -/

theorem try_translations_filepos1st (s : State) :
    (try_translations s).filepos1st = s.filepos1st := by
  rcases try_from_cases s s.translation 0 with ⟨_, h⟩ | ⟨x, t, _, _, _, h⟩
  · rw [try_translations, h]
  · rw [try_translations, h]; rfl

theorem try_translations_dirty1st (s : State) (h : s.dirty1st = true) :
    (try_translations s).dirty1st = true := by
  rcases try_from_cases s s.translation 0 with ⟨_, h1⟩ | ⟨x, t, _, _, _, h1⟩
  · rw [try_translations, h1]; exact h
  · rw [try_translations, h1]
    show (if s.bufferpos < (BLKSIZE : Int) then true else s.dirty1st) = true
    split_ifs
    · rfl
    · exact h

theorem step_state_scan (s : State) : (step (Phase.scan, s)).2 = scan_body s := by
  simp only [step]
  split_ifs <;> rfl

/-- A first half that is marked dirty is written back: from an iteration at
which the first half of the buffer starts at `b`, inside the file, with
`dirty1st` set, the run reaches an iteration at which `chk_buffer` writes the
block at `b`. -/
theorem eventually_written (file : List Nat) (table : List translation_t)
    (hw : well_formed table) (b : Nat) (hb : b < file.length) (N : Nat) :
    ∀ k, steps_left file.length (program_point file table k) ≤ N →
      (program_point file table k).2.filepos1st = b →
      (program_point file table k).2.dirty1st = true →
      (program_point file table k).1 ≠ Phase.done →
      ((program_point file table k).1 = Phase.drain →
        0 < (program_point file table k).2.bufferlen) →
      ∃ k2, k ≤ k2 ∧
        writes_back (program_point file table k2) = some (b, min BLKSIZE (file.length - b)) := by
  have hB := BLKSIZE_eq
  induction N with
  | zero =>
      intro k hN _ _ hnd _
      exfalso
      generalize program_point file table k = ps at hN hnd
      obtain ⟨ph, s⟩ := ps
      cases ph with
      | scan => simp only [steps_left] at hN; omega
      | drain => simp only [steps_left] at hN; omega
      | done => exact hnd rfl
  | succ N ih =>
      intro k hN hf1 hd hnd hdr
      have hinv := run_inv file table hw k
      have hdec := steps_left_step file table hw _ hinv hnd
      have hnext : program_point file table (k + 1) = step (program_point file table k) := rfl
      generalize hps : program_point file table k = ps at hN hf1 hd hnd hdr hinv hdec hnext
      obtain ⟨ph, s⟩ := ps
      change s.filepos1st = b at hf1
      change s.dirty1st = true at hd
      cases ph with
      | scan =>
          obtain ⟨h3, hs⟩ := geom_shape _ s hinv.geom
          have hcount : (min (BLKSIZE : Int) s.bufferlen).toNat = min BLKSIZE (file.length - b) := by
            rcases hs with ⟨e1, e2, e3⟩ | ⟨e1, e2, e3, e4⟩ | ⟨e1, e2, e3, e4⟩ <;> omega
          by_cases hp : (BLKSIZE : Int) ≤ s.bufferpos
          · refine ⟨k, le_refl _, ?_⟩
            rw [hps]
            simp only [writes_back]
            rw [if_pos ⟨hp, hd⟩, hf1, hcount]
          · -- the pointer is still in the first half: one more pass
            have hbody : (program_point file table (k + 1)).2 = scan_body s := by
              rw [hnext, step_state_scan]
            have hchk : chk_buffer false s = s := chk_buffer_false_of_lt s (by omega)
            have hf1' : (scan_body s).filepos1st = b := by
              show (try_translations (chk_buffer false s)).filepos1st = b
              rw [try_translations_filepos1st, hchk, hf1]
            have hd' : (scan_body s).dirty1st = true := by
              show (try_translations (chk_buffer false s)).dirty1st = true
              rw [hchk]; exact try_translations_dirty1st s hd
            obtain ⟨g, _⟩ := scan_body_inv file table s hw hinv
            obtain ⟨h3', hs'⟩ := geom_shape _ _ g
            have hlen' : 0 < (scan_body s).bufferlen := by
              rcases hs' with ⟨e1, e2, e3⟩ | ⟨e1, e2, e3, e4⟩ | ⟨e1, e2, e3, e4⟩ <;> omega
            have hnd' : (program_point file table (k + 1)).1 ≠ Phase.done := by
              rw [hnext]; simp only [step]; split_ifs <;> simp
            obtain ⟨k2, hk2, hw2⟩ := ih (k + 1) (by rw [hnext]; omega) (by rw [hbody]; exact hf1')
              (by rw [hbody]; exact hd') hnd' (fun _ => by rw [hbody]; exact hlen')
            exact ⟨k2, by omega, hw2⟩
      | drain =>
          have hl := hdr rfl
          change 0 < s.bufferlen at hl
          obtain ⟨g, c, hn⟩ := hinv.2.2 hl
          obtain ⟨h3, hs⟩ := geom_shape _ s g
          have hcount : (min (BLKSIZE : Int) s.bufferlen).toNat = min BLKSIZE (file.length - b) := by
            rcases hs with ⟨e1, e2, e3⟩ | ⟨e1, e2, e3, e4⟩ | ⟨e1, e2, e3, e4⟩ <;> omega
          refine ⟨k, le_refl _, ?_⟩
          rw [hps]
          simp only [writes_back]
          rw [if_pos ⟨hl, hd⟩, hf1, hcount]
      | done => exact absurd rfl hnd


theorem occurs_at_iff (file : List Nat) (q : Nat) (t : translation_t) :
    occurs_at file q t = true ↔
      q + t.srchlen ≤ file.length ∧
        ∀ k : Nat, k < t.srchlen → file.getD (q + k) 0 = t.srch.getD k 0 := by
  simp [occurs_at, List.all_eq_true]

theorem occurs_at_congr (file : List Nat) (q : Nat) (a b : translation_t)
    (h : rule_key a = rule_key b) : occurs_at file q a = occurs_at file q b := by
  simp only [rule_key, Prod.mk.injEq] at h
  obtain ⟨k1, k2, _, _⟩ := h
  unfold occurs_at
  rw [k1, k2]

/-- At the top of the scan loop, with the pointer in the first half of the
buffer, the comparison of a search string that ends inside the file sees the
bytes of the original file. -/
theorem memcmp_eq_occurs (file : List Nat) (table : List translation_t) (s : State)
    (h : ScanInv file table s) (hp : s.bufferpos < (BLKSIZE : Int)) (q : Nat)
    (hq : cursor s = (q : Int)) (t : translation_t) (hlen : t.srchlen ≤ MAX_STR)
    (hin : q + t.srchlen ≤ file.length) :
    memcmp_eq s.buffer s.bufferpos t.srch t.srchlen = occurs_at file q t := by
  have hB := BLKSIZE_eq
  have hM : MAX_STR = 4 := rfl
  have hpn := h.pos_nonneg
  obtain ⟨h3, hs⟩ := geom_shape _ s h.geom
  have hbuf : ∀ k : Nat, k < t.srchlen →
      s.buffer (s.bufferpos + (k : Int)) = file.getD (q + k) 0 := by
    intro k hk
    have ha := h.ahead (q + k) (by rw [hq]; push_cast; omega)
    unfold cell at ha
    unfold cursor at hq
    rw [if_pos (by
      rcases hs with ⟨e1, e2, e3⟩ | ⟨e1, e2, e3, e4⟩ | ⟨e1, e2, e3, e4⟩ <;>
        (constructor <;> (push_cast; omega)))] at ha
    rw [← ha]
    congr 1; push_cast; omega
  rw [Bool.eq_iff_iff, memcmp_eq_iff, occurs_at_iff]
  constructor
  · intro hm
    exact ⟨hin, fun k hk => by rw [← hbuf k hk]; exact hm k hk⟩
  · intro ho k hk
    rw [hbuf k hk]; exact ho.2 k hk

theorem replacement_bytes_getD (t : translation_t) (j : Nat) :
    (replacement_bytes t).getD j 0 = if j < t.repllen then t.repl.getD j 0 else 0 := by
  unfold replacement_bytes
  simp only [List.getD_eq_getElem?_getD]
  by_cases h1 : j < (t.repl.take t.repllen).length
  · rw [List.getElem?_append_left h1]
    have h2 : j < t.repllen := by
      rw [List.length_take] at h1; omega
    rw [List.getElem?_take_of_lt h2, if_pos h2]
  · rw [List.getElem?_append_right (by omega)]
    have hz : ((List.replicate (t.srchlen - t.repllen) 0)[j - (t.repl.take t.repllen).length]?).getD 0
        = 0 := by
      rw [List.getElem?_replicate]; split_ifs <;> rfl
    rw [hz]
    split_ifs with h2
    · rw [List.length_take] at h1
      have h3 : t.repl[j]? = none := List.getElem?_eq_none (by omega)
      rw [h3]; rfl
    · rfl


/-- The rule the scan loop applies at a file offset whose next `MAX_STR` bytes
lie inside the file: the first rule of the table that occurs there. -/
theorem scan_body_match (file : List Nat) (table : List translation_t)
    (hw : well_formed table) (s : State) (h : ScanInv file table s) (q x : Nat)
    (t : translation_t) (hcur : cursor s = (q : Int)) (ht : table[x]? = some t)
    (hocc : occurs_at file q t = true)
    (hfirst : ∀ j u, j < x → table[j]? = some u → occurs_at file q u = false)
    (hroom : q + MAX_STR ≤ file.length) :
    ∃ t1, rule_key t1 = rule_key t ∧ (chk_buffer false s).translation[x]? = some t1 ∧
      try_translations (chk_buffer false s) = substitute (chk_buffer false s) x t1 := by
  obtain ⟨h1, hp1, hcur1, hcell1⟩ := chk_buffer_false_inv file table s h
  generalize chk_buffer false s = s1 at h1 hp1 hcur1 hcell1
  have hwf1 := well_formed_of_same_rules _ _ h1.rules hw
  obtain ⟨t1, ht1, hk1⟩ := same_rules_getElem table s1.translation (same_rules_symm _ _ h1.rules)
    x t ht
  have hm1 : memcmp_eq s1.buffer s1.bufferpos t1.srch t1.srchlen = true := by
    have hw1 := hwf1 t1 (List.getElem?_mem ht1)
    rw [memcmp_eq_occurs file table s1 h1 hp1 q (by rw [hcur1, hcur]) t1 hw1.2.1 (by omega),
      occurs_at_congr file q t1 t hk1.symm]
    exact hocc
  refine ⟨t1, hk1.symm, ht1, ?_⟩
  rw [try_translations, try_from_first s1 s1.translation 0 x t1 ht1 hm1 ?_, Nat.zero_add]
  intro j u hj hu
  obtain ⟨v, hv, hkv⟩ := same_rules_getElem s1.translation table h1.rules j u hu
  have hwu := hwf1 u (List.getElem?_mem hu)
  rw [memcmp_eq_occurs file table s1 h1 hp1 q (by rw [hcur1, hcur]) u hwu.2.1 (by omega),
    occurs_at_congr file q u v hkv]
  exact hfirst j v hj hv

/-- The pass of the scan loop that replaces a 4-byte pattern which starts `d`
bytes before a block boundary. -/
theorem cross_step (file : List Nat) (table : List translation_t) (hw : well_formed table)
    (s : State) (h : ScanInv file table s) (m d q x : Nat) (t : translation_t)
    (hd1 : 1 ≤ d) (hd3 : d ≤ 3) (hq : q + d = m * BLKSIZE) (hin : q + 4 ≤ file.length)
    (hcur : cursor s = (q : Int)) (ht : table[x]? = some t) (hlen : t.srchlen = 4)
    (hocc : occurs_at file q t = true)
    (hfirst : ∀ j u, j < x → table[j]? = some u → occurs_at file q u = false) :
    (scan_body s).dirty1st = true ∧ (scan_body s).dirty2nd = true ∧
      (scan_body s).total_changes = wrap32 (s.total_changes + 1) ∧
      (scan_body s).filepos1st + BLKSIZE = q + d ∧
      (BLKSIZE : Int) ≤ (scan_body s).bufferpos ∧
      cursor (scan_body s) = (q : Int) + 4 ∧
      (∀ j, j < 4 → cell (scan_body s) (q + j) = (replacement_bytes t).getD j 0) := by
  have hB := BLKSIZE_eq
  have hM : MAX_STR = 4 := rfl
  obtain ⟨t1, hk1, ht1, htry⟩ := scan_body_match file table hw s h q x t hcur ht hocc hfirst
    (by omega)
  obtain ⟨h1, hp1, hcur1, hcell1⟩ := chk_buffer_false_inv file table s h
  have htot : (chk_buffer false s).total_changes = s.total_changes :=
    chk_buffer_total_changes false s
  have hbody : scan_body s = advance (substitute (chk_buffer false s) x t1) := by
    unfold scan_body; rw [htry]
  generalize chk_buffer false s = s1 at h1 hp1 hcur1 hcell1 htot hbody ht1
  simp only [rule_key, Prod.mk.injEq] at hk1
  obtain ⟨k1, k2, k3, k4⟩ := hk1
  have hw1 := hw t (List.getElem?_mem ht)
  have hrl : t1.repllen ≤ t1.srchlen := by rw [k2, k4]; exact hw1.2.2
  have hpos := substitute_bufferpos s1 x t1 hrl
  have hpn := h1.pos_nonneg
  obtain ⟨c, hc⟩ := h1.geom.blk
  rw [hcur] at hcur1
  unfold cursor at hcur1
  rw [hB] at hc hq
  have hf1 : s1.filepos1st + 4096 = q + d := by omega
  obtain ⟨h3, hs⟩ := geom_shape _ s1 h1.geom
  rw [hbody]
  refine ⟨?_, ?_, ?_, ?_, ?_, ?_, ?_⟩
  · show (if s1.bufferpos < (BLKSIZE : Int) then true else s1.dirty1st) = true
    rw [if_pos hp1]
  · show (if (BLKSIZE : Int) ≤ (substitute s1 x t1).bufferpos then true
      else (if s1.bufferpos < (BLKSIZE : Int) then s1.dirty2nd else true)) = true
    rw [if_pos (by rw [hpos, k2, hlen]; push_cast; omega)]
  · show wrap32 (s1.total_changes + 1) = wrap32 (s.total_changes + 1)
    rw [htot]
  · show s1.filepos1st + BLKSIZE = q + d
    omega
  · show (BLKSIZE : Int) ≤ (substitute s1 x t1).bufferpos + 1
    rw [hpos, k2, hlen]; push_cast; omega
  · rw [advance_cursor]
    show (s1.filepos1st : Int) + (substitute s1 x t1).bufferpos + 1 = _
    rw [hpos, k2, hlen]; push_cast; omega
  · intro j hj
    rw [advance_cell, substitute_cell_inside s1 x t1 (q + j) (by
        rcases hs with ⟨e1, e2, e3⟩ | ⟨e1, e2, e3, e4⟩ | ⟨e1, e2, e3, e4⟩ <;>
          (constructor <;> (push_cast; omega))) (by
        unfold cursor; rw [k2, hlen]; push_cast; omega),
      replacement_bytes_getD, k3, k4]
    unfold cursor
    by_cases hj2 : j < t.repllen
    · rw [if_pos hj2, if_pos (by push_cast; omega)]
      congr 1; push_cast; omega
    · rw [if_neg hj2, if_neg (by push_cast; omega)]


/-- When the second half of the buffer is marked dirty and the pointer has left
the first half, the next loop iteration slides it to the first half and keeps
the mark. -/
theorem second_half_slides (file : List Nat) (table : List translation_t)
    (hw : well_formed table) (k : Nat) (ph : Phase) (s : State)
    (hps : program_point file table k = (ph, s)) (hnd : ph ≠ Phase.done)
    (hg : Geom file.length s) (hd : s.dirty2nd = true)
    (hp : (BLKSIZE : Int) ≤ s.bufferpos) (hb : s.filepos1st + BLKSIZE < file.length) :
    (program_point file table (k + 1)).2.filepos1st = s.filepos1st + BLKSIZE ∧
      (program_point file table (k + 1)).2.dirty1st = true ∧
      (program_point file table (k + 1)).1 ≠ Phase.done ∧
      0 < (program_point file table (k + 1)).2.bufferlen := by
  have hB := BLKSIZE_eq
  have hinv := run_inv file table hw k
  have hnext : program_point file table (k + 1) = step (program_point file table k) := rfl
  rw [hps] at hinv hnext
  obtain ⟨h3, hs⟩ := geom_shape _ s hg
  have hf2 : s.filepos2nd = s.filepos1st + BLKSIZE := by
    rcases hs with ⟨e1, e2, e3⟩ | ⟨e1, e2, e3, e4⟩ | ⟨e1, e2, e3, e4⟩ <;> omega
  have hlen : (BLKSIZE : Int) < s.bufferlen := by
    rcases hs with ⟨e1, e2, e3⟩ | ⟨e1, e2, e3, e4⟩ | ⟨e1, e2, e3, e4⟩ <;> omega
  have hgs := slide_geom _ s hg hlen
  obtain ⟨h3s, hss⟩ := geom_shape _ _ hgs
  have hsl : 0 < (slide s).bufferlen := by
    have e : (slide s).filepos1st = s.filepos1st + BLKSIZE := by rw [slide_filepos1st, hf2]
    rcases hss with ⟨e1, e2, e3⟩ | ⟨e1, e2, e3, e4⟩ | ⟨e1, e2, e3, e4⟩ <;> omega
  cases ph with
  | scan =>
      have hst : (program_point file table (k + 1)).2 = scan_body s := by
        rw [hnext, step_state_scan]
      have hchk := chk_buffer_false_of_ge s hp
      have e1 : (scan_body s).filepos1st = s.filepos1st + BLKSIZE := by
        show (try_translations (chk_buffer false s)).filepos1st = _
        rw [try_translations_filepos1st, hchk, slide_filepos1st, hf2]
      have e2 : (scan_body s).dirty1st = true := by
        show (try_translations (chk_buffer false s)).dirty1st = true
        rw [hchk]
        exact try_translations_dirty1st _ hd
      have e3 : (scan_body s).bufferlen = (slide s).bufferlen := by
        show (try_translations (chk_buffer false s)).bufferlen = _
        rw [try_translations_bufferlen, hchk]
      refine ⟨by rw [hst]; exact e1, by rw [hst]; exact e2, ?_, by rw [hst, e3]; exact hsl⟩
      rw [hnext]; simp only [step]; split_ifs <;> simp
  | drain =>
      have hstep : step (Phase.drain, s) = (Phase.drain, slide s) := by
        simp only [step]
        rw [if_pos (by omega), chk_buffer_true]
      rw [hnext, hstep]
      exact ⟨by rw [slide_filepos1st, hf2], hd, by simp, hsl⟩
  | done => exact absurd rfl hnd


/-- With a table as the header comment describes it (`well_formed`): let a rule
with a 4-byte pattern occur in the file at offset `q`, wholly
inside the file, starting `d` = 1, 2 or 3 bytes before the block boundary
`m * BLKSIZE`; let the scan cursor reach `q` (no earlier substitution has
consumed a byte of the occurrence) and let no earlier rule occur at `q`. Then
the next pass of the scan loop makes the substitution and sets both `dirty1st`
and `dirty2nd`; later `chk_buffer` writes back the block before the boundary
and the block behind it; and the run ends with the replacement followed by
zero padding at the file offsets `q .. q + 3`. -/
theorem cross_window_match (file : List Nat) (table : List translation_t)
    (hw : well_formed table) (k m d q x : Nat) (s : State) (t : translation_t)
    (hd1 : 1 ≤ d) (hd3 : d ≤ 3) (hq : q + d = m * BLKSIZE) (hin : q + 4 ≤ file.length)
    (ht : table[x]? = some t) (hlen : t.srchlen = 4) (hocc : occurs_at file q t = true)
    (hfirst : ∀ j u, j < x → table[j]? = some u → occurs_at file q u = false)
    (hreach : program_point file table k = (Phase.scan, s)) (hcur : cursor s = (q : Int)) :
    (program_point file table (k + 1)).2.dirty1st = true ∧
    (program_point file table (k + 1)).2.dirty2nd = true ∧
    (program_point file table (k + 1)).2.total_changes = wrap32 (s.total_changes + 1) ∧
    (∃ k1, k < k1 ∧
      writes_back (program_point file table k1) = some (q + d - BLKSIZE, BLKSIZE)) ∧
    (∃ k2, k < k2 ∧
      writes_back (program_point file table k2)
        = some (q + d, min BLKSIZE (file.length - (q + d)))) ∧
    ∃ K sf, run K file table = some sf ∧
      ∀ j, j < 4 → sf.file.getD (q + j) 0 = (replacement_bytes t).getD j 0 := by
  have hB := BLKSIZE_eq
  have hinv : ScanInv file table s := by
    have := run_inv file table hw k
    rw [hreach] at this
    exact this
  obtain ⟨c1, c2, c3, c4, c5, c6, c7⟩ :=
    cross_step file table hw s hinv m d q x t hd1 hd3 hq hin hcur ht hlen hocc hfirst
  obtain ⟨g, _⟩ := scan_body_inv file table s hw hinv
  have hnext : program_point file table (k + 1) = step (Phase.scan, s) := by
    show step (program_point file table k) = _
    rw [hreach]
  have hst : (program_point file table (k + 1)).2 = scan_body s := by
    rw [hnext, step_state_scan]
  have hnd : (program_point file table (k + 1)).1 ≠ Phase.done := by
    rw [hnext]; simp only [step]; split_ifs <;> simp
  obtain ⟨h3, hs⟩ := geom_shape _ _ g
  have hlenpos : (BLKSIZE : Int) < (scan_body s).bufferlen := by
    rcases hs with ⟨e1, e2, e3⟩ | ⟨e1, e2, e3, e4⟩ | ⟨e1, e2, e3, e4⟩ <;> omega
  refine ⟨by rw [hst]; exact c1, by rw [hst]; exact c2, by rw [hst]; exact c3, ?_, ?_, ?_⟩
  · -- the block before the boundary
    obtain ⟨k1, hk1, hw1⟩ := eventually_written file table hw (q + d - BLKSIZE) (by omega)
      (steps_left file.length (program_point file table (k + 1))) (k + 1) (le_refl _)
      (by rw [hst]; omega) (by rw [hst]; exact c1) hnd (fun _ => by rw [hst]; omega)
    refine ⟨k1, by omega, ?_⟩
    rw [hw1, Nat.min_eq_left (by omega)]
  · -- the block behind the boundary
    generalize hps : program_point file table (k + 1) = ps at hst hnd
    obtain ⟨ph, s1⟩ := ps
    change s1 = scan_body s at hst
    subst hst
    obtain ⟨f1, f2, f3, f4⟩ := second_half_slides file table hw (k + 1) ph _ hps hnd g c2 c5
      (by omega)
    obtain ⟨k2, hk2, hw2⟩ := eventually_written file table hw (q + d) (by omega)
      (steps_left file.length (program_point file table (k + 1 + 1))) (k + 1 + 1) (le_refl _)
      (by rw [f1]; exact c4) f2 f3 (fun _ => f4)
    exact ⟨k2, by omega, hw2⟩
  · -- the end of the run
    obtain ⟨K, hK⟩ : ∃ K, K = file.length + 2 * BLKSIZE + 3 := ⟨_, rfl⟩
    have hdone := run_terminates file table hw (k + 1 + K) (by omega)
    refine ⟨_, _, run_of_done file table _ hdone, ?_⟩
    intro j hj
    have hcons : consumed (program_point file table (k + 1)) (q + j) := by
      rw [hnext]
      simp only [step]
      split_ifs
      · show ((q + j : Nat) : Int) < cursor (scan_body s)
        rw [c6]; push_cast; omega
      · trivial
    have hfr := (frame_along file table hw (k + 1) K (q + j) hcons).1
    have hri := run_inv file table hw (k + 1 + K)
    generalize program_point file table (k + 1 + K) = pf at hdone hfr hri
    obtain ⟨pf1, sf⟩ := pf
    change pf1 = Phase.done at hdone
    subst hdone
    rw [← done_cell file table sf hri (q + j)]
    show cell sf (q + j) = _
    rw [hfr, hst]
    exact c7 j hj


/-- While no rule starts with the byte under the cursor, the scan moves on by
one byte per pass: through a stretch of such bytes at the start of the file
the cursor is at offset `k` after `k` passes. -/
theorem scan_plain_prefix (file : List Nat) (table : List translation_t)
    (hw : well_formed table) (q : Nat) (hq : q < file.length)
    (hplain : ∀ p, p < q → ∀ t ∈ table, file.getD p 0 ≠ t.srch.getD 0 0) :
    ∀ k, k ≤ q → (program_point file table k).1 = Phase.scan ∧
      cursor (program_point file table k).2 = (k : Int) := by
  have hB := BLKSIZE_eq
  intro k
  induction k with
  | zero =>
      intro _
      exact ⟨rfl, by show ((0 : Nat) : Int) + 0 = ((0 : Nat) : Int); omega⟩
  | succ k ih =>
      intro hk
      obtain ⟨hph, hcur⟩ := ih (by omega)
      have hinv := run_inv file table hw k
      have hnext : program_point file table (k + 1) = step (program_point file table k) := rfl
      generalize program_point file table k = ps at hph hcur hinv hnext
      obtain ⟨ph, s⟩ := ps
      change ph = Phase.scan at hph
      subst hph
      change cursor s = (k : Int) at hcur
      obtain ⟨h1, hp1, hcur1, hcell1⟩ := chk_buffer_false_inv file table s hinv
      have hbody : scan_body s = advance (try_translations (chk_buffer false s)) := rfl
      generalize chk_buffer false s = s1 at h1 hp1 hcur1 hcell1 hbody
      have hpn := h1.pos_nonneg
      obtain ⟨h3, hs⟩ := geom_shape _ s1 h1.geom
      rw [hcur] at hcur1
      have hc1 := hcur1
      unfold cursor at hc1
      have hno : ∀ u ∈ s1.translation,
          memcmp_eq s1.buffer s1.bufferpos u.srch u.srchlen = false := by
        intro u hu
        by_contra hm
        have hm1 : memcmp_eq s1.buffer s1.bufferpos u.srch u.srchlen = true := by
          simpa using hm
        rw [memcmp_eq_iff] at hm1
        obtain ⟨j, hj⟩ := List.getElem?_of_mem hu
        obtain ⟨v, hv, hkv⟩ := same_rules_getElem s1.translation table h1.rules j u hj
        have hwu := well_formed_of_same_rules _ _ h1.rules hw u hu
        have h0 := hm1 0 (by omega)
        have ha := h1.ahead k (by rw [hcur1])
        unfold cell at ha
        rw [if_pos (by
          rcases hs with ⟨e1, e2, e3⟩ | ⟨e1, e2, e3, e4⟩ | ⟨e1, e2, e3, e4⟩ <;>
            (constructor <;> omega))] at ha
        simp only [rule_key, Prod.mk.injEq] at hkv
        apply hplain k (by omega) v (List.getElem?_mem hv)
        rw [← hkv.1, ← ha, ← h0]
        congr 1; push_cast; omega
      have htry : try_translations s1 = s1 := try_from_none s1 s1.translation 0 hno
      rw [htry] at hbody
      have hcur2 : cursor (scan_body s) = ((k + 1 : Nat) : Int) := by
        rw [hbody, advance_cursor, hcur1]; push_cast; rfl
      have hlt : (scan_body s).bufferpos < (scan_body s).bufferlen := by
        rw [hbody]
        show s1.bufferpos + 1 < s1.bufferlen
        rcases hs with ⟨e1, e2, e3⟩ | ⟨e1, e2, e3, e4⟩ | ⟨e1, e2, e3, e4⟩ <;> omega
      rw [hnext]
      simp only [step]
      rw [if_pos hlt]
      exact ⟨rfl, hcur2⟩

/-- The match across a block boundary at a concrete file: 4094 letters `A` and
then `E2 80 93 41` across the first block boundary, with the rules
`C2 A0 -> " "` and `E2 80 93 41 -> "-"`. -/
theorem cross_window_match_witness :
    well_formed [rule_nbsp, rule_long] ∧ occurs_at cross_file 4094 rule_long = true ∧
    (∃ k1, 4094 < k1 ∧
      writes_back (program_point cross_file [rule_nbsp, rule_long] k1) = some (0, BLKSIZE)) ∧
    (∃ k2, 4094 < k2 ∧
      writes_back (program_point cross_file [rule_nbsp, rule_long] k2) = some (4096, 2)) ∧
    ∃ K sf, run K cross_file [rule_nbsp, rule_long] = some sf ∧
      ∀ j, j < 4 → sf.file.getD (4094 + j) 0 = [0x2D, 0, 0, 0].getD j 0 := by
  have hw : well_formed [rule_nbsp, rule_long] := by
    intro t ht
    simp only [List.mem_cons, List.mem_singleton, List.not_mem_nil, or_false] at ht
    rcases ht with rfl | rfl <;> decide
  have hlen : cross_file.length = 4098 := by
    unfold cross_file
    rw [List.length_append, List.length_replicate]
    rfl
  have hget : ∀ j, j < 4 → cross_file.getD (4094 + j) 0 = [0xE2, 0x80, 0x93, 0x41].getD j 0 := by
    intro j _
    have := getD_append_right_add (List.replicate 4094 0x41) [0xE2, 0x80, 0x93, 0x41] j
    rw [List.length_replicate] at this
    exact this
  have hocc : occurs_at cross_file 4094 rule_long = true := by
    rw [occurs_at_iff, hlen]
    refine ⟨by decide, fun j hj => ?_⟩
    rw [hget j hj]; rfl
  have hplain : ∀ p, p < 4094 → ∀ t ∈ [rule_nbsp, rule_long],
      cross_file.getD p 0 ≠ t.srch.getD 0 0 := by
    intro p hp t ht
    have : cross_file.getD p 0 = 0x41 := by
      unfold cross_file
      rw [getD_append_left_lt _ _ _ (by rw [List.length_replicate]; exact hp),
        getD_replicate_lt _ _ _ hp]
    rw [this]
    simp only [List.mem_cons, List.mem_singleton, List.not_mem_nil, or_false] at ht
    rcases ht with rfl | rfl <;> decide
  have hreach := scan_plain_prefix cross_file [rule_nbsp, rule_long] hw 4094
    (by rw [hlen]; decide) hplain 4094 (le_refl _)
  have hreach1 : program_point cross_file [rule_nbsp, rule_long] 4094
      = (Phase.scan, (program_point cross_file [rule_nbsp, rule_long] 4094).2) := by
    have h1 := hreach.1
    generalize program_point cross_file [rule_nbsp, rule_long] 4094 = ps at h1 ⊢
    obtain ⟨ph, s⟩ := ps
    change ph = Phase.scan at h1
    subst h1
    rfl
  have h := cross_window_match cross_file [rule_nbsp, rule_long] hw 4094 1 2 4094 1
    (program_point cross_file [rule_nbsp, rule_long] 4094).2 rule_long
    (by decide) (by decide) (by decide) (by rw [hlen]) rfl rfl hocc
    (by
      intro j u hj hu
      have hj0 : j = 0 := by omega
      subst hj0
      simp only [List.getElem?_cons_zero, Option.some.injEq] at hu
      subst hu
      rw [Bool.eq_false_iff]
      intro hc
      rw [occurs_at_iff] at hc
      have h0 := hc.2 0 (by decide)
      have h1 := hget 0 (by decide)
      rw [Nat.add_zero] at h0 h1
      rw [h1] at h0
      exact absurd h0 (by decide))
    hreach1 hreach.2
  refine ⟨hw, hocc, ?_, ?_, ?_⟩
  · exact h.2.2.2.1
  · obtain ⟨k2, hk2, hw2⟩ := h.2.2.2.2.1
    refine ⟨k2, hk2, ?_⟩
    rw [hw2, hlen]
    decide
  · obtain ⟨K, sf, hrun, hfile⟩ := h.2.2.2.2.2
    exact ⟨K, sf, hrun, fun j hj => by rw [hfile j hj]; interval_cases j <;> rfl⟩

/-! ## The file that a run leaves -/

theorem ext_cell_congr (s1 s : State) (hlen : s1.file.length = s.file.length)
    (hcell : ∀ i, cell s1 i = cell s i) (i : Nat) : ext_cell s1 i = ext_cell s i := by
  unfold ext_cell
  rw [hlen, hcell, hcell]

theorem matches_at_congr (s1 s : State) (hlen : s1.file.length = s.file.length)
    (hcell : ∀ i, cell s1 i = cell s i) (i : Nat) (t : translation_t) :
    matches_at s1 i t ↔ matches_at s i t := by
  unfold matches_at
  constructor
  · intro h k hk
    rw [← ext_cell_congr s1 s hlen hcell]; exact h k hk
  · intro h k hk
    rw [ext_cell_congr s1 s hlen hcell]; exact h k hk

theorem cell_valid (s : State) (i : Nat) (h1 : s.filepos1st ≤ i)
    (h2 : (i : Int) < (s.filepos1st : Int) + s.bufferlen) :
    cell s i = s.buffer ((i : Int) - (s.filepos1st : Int)) := by
  unfold cell
  rw [if_pos ⟨h1, h2⟩]

theorem buffer_congr (s : State) (a b : Int) (h : a = b) : s.buffer a = s.buffer b := by
  rw [h]

theorem chk_buffer_false_stable (file : List Nat) (table : List translation_t) (s : State)
    (h : ScanInv file table s) (hs : StableInv file table s) :
    StableInv file table (chk_buffer false s) := by
  have hB := BLKSIZE_eq
  have hM : MAX_STR = 4 := rfl
  have hpb := h.pos_bound
  have hpn := h.pos_nonneg
  by_cases hc : (BLKSIZE : Int) ≤ s.bufferpos
  · obtain ⟨h1, hp1, hcur1, hcell1⟩ := chk_buffer_false_inv file table s h
    rw [chk_buffer_false_of_ge s hc] at h1 hp1 hcur1 hcell1 ⊢
    have hlt : (BLKSIZE : Int) < s.bufferlen := by
      rcases h.pos_lt with h1 | h1 <;> omega
    obtain ⟨nb, hnb, h3, hshape⟩ := slide_shape _ s h.geom (by omega)
    have hflen : (slide s).file.length = s.file.length := by
      rw [h1.geom.file_len, h.geom.file_len]
    refine ⟨?_, ?_, ?_, ?_⟩
    · intro i
      rw [hcell1]; exact hs.changed i
    · intro i hi1 hi2 hi3 hi4
      rw [slide_filepos1st] at hi3 hi4 ⊢
      rw [slide_buffer, hnb, hcell1]
      rcases hshape with ⟨e1, e2, e3, e4, e5⟩ | ⟨e1, e2, e3, e4, e5⟩ | ⟨e1, e2, e3, e4, e5⟩
      · -- the file goes on behind the buffer
        rw [if_neg (by omega)]
        by_cases hj : (i : Int) - (s.filepos2nd : Int) < (BLKSIZE : Int)
        · rw [if_pos (by omega)]
          have q1 : s.filepos1st ≤ i := by omega
          have q2 : i < s.filepos1st + 2 * BLKSIZE := by omega
          have := hs.stale i hi1 hi2 q1 q2
          rw [show (BLKSIZE : Int) + ((i : Int) - (s.filepos2nd : Int))
            = (i : Int) - (s.filepos1st : Int) by omega]
          exact this
        · rw [if_neg (by omega)]
          left
          refine ⟨by omega, Or.inr ?_⟩
          rw [cell_valid s (i - BLKSIZE) (by omega) (by omega)]
          exact buffer_congr s _ _ (by omega)
      · rw [if_neg (by omega)]
        by_cases hj : (i : Int) - (s.filepos2nd : Int) < (BLKSIZE : Int)
        · rw [if_pos (by omega)]
          have q1 : s.filepos1st ≤ i := by omega
          have q2 : i < s.filepos1st + 2 * BLKSIZE := by omega
          have := hs.stale i hi1 hi2 q1 q2
          rw [show (BLKSIZE : Int) + ((i : Int) - (s.filepos2nd : Int))
            = (i : Int) - (s.filepos1st : Int) by omega]
          exact this
        · rw [if_neg (by omega)]
          left
          refine ⟨by omega, Or.inr ?_⟩
          rw [cell_valid s (i - BLKSIZE) (by omega) (by omega)]
          exact buffer_congr s _ _ (by omega)
      · omega
    · intro i hi1 hi2
      rw [hcur1] at hi1
      rw [hcell1]
      rcases hs.behind i hi1 hi2 with hb | hb
      · exact Or.inl hb
      · exact Or.inr (fun t ht hm => hb t ht ((matches_at_congr _ s hflen hcell1 i t).mp hm))
    · left
      show s.bufferpos - (BLKSIZE : Int) < (slide s).bufferlen
      rw [slide_bufferlen, hnb]
      rcases h.pos_lt with h4 | h4 <;> omega
  · rw [chk_buffer_false_of_lt s (by omega)]
    exact hs


theorem nonpattern_congr (a b : List translation_t) (h : same_rules a b) (x : Nat)
    (hb : nonpattern b x) : nonpattern a x := by
  intro t ht k hk
  obtain ⟨j, hj⟩ := List.getElem?_of_mem ht
  obtain ⟨u, hu, hku⟩ := same_rules_getElem a b h j t hj
  simp only [rule_key, Prod.mk.injEq] at hku
  rw [hku.1]
  exact hb u (List.getElem?_mem hu) k (by rw [← hku.2.1]; exact hk)

/-- A substitution leaves a byte of the mailbox as it is or puts a byte of the
replacement or a zero byte in its place. -/
theorem substitute_cell_mono (table : List translation_t) (s : State) (xlate : Nat)
    (t : translation_t) (ht : t.repllen ≤ t.srchlen)
    (hrepl : ∀ j, j < t.repllen → nonpattern table (t.repl.getD j 0))
    (hzero : nonpattern table 0) (hpn : 0 ≤ s.bufferpos) (i : Nat) :
    cell (substitute s xlate t) i = cell s i ∨ nonpattern table (cell (substitute s xlate t) i) := by
  by_cases hin : cursor s ≤ (i : Int) ∧ (i : Int) < cursor s + (t.srchlen : Int)
  · by_cases hv : s.filepos1st ≤ i ∧ (i : Int) < (s.filepos1st : Int) + s.bufferlen
    · right
      rw [substitute_cell_inside s xlate t i hv hin]
      split_ifs with h1
      · exact hrepl _ (by unfold cursor at hin h1 ⊢; omega)
      · exact hzero
    · left
      unfold cell
      show (if s.filepos1st ≤ i ∧ (i : Int) < (s.filepos1st : Int) + s.bufferlen then
        (substitute s xlate t).buffer ((i : Int) - (s.filepos1st : Int)) else s.file.getD i 0) = _
      rw [if_neg hv, if_neg hv]
  · left
    exact substitute_cell_outside s xlate t ht i hin

theorem ext_cell_mono (table : List translation_t) (s2 s1 : State)
    (hlen : s2.file.length = s1.file.length) (hzero : nonpattern table 0)
    (hmono : ∀ i, cell s2 i = cell s1 i ∨ nonpattern table (cell s2 i)) (y : Nat) :
    ext_cell s2 y = ext_cell s1 y ∨ nonpattern table (ext_cell s2 y) := by
  unfold ext_cell
  rw [hlen]
  split_ifs
  · exact hmono y
  · exact hmono (y - BLKSIZE)
  · exact Or.inl rfl

theorem matches_at_mono (table : List translation_t) (s2 s1 : State)
    (hlen : s2.file.length = s1.file.length) (hzero : nonpattern table 0)
    (hmono : ∀ i, cell s2 i = cell s1 i ∨ nonpattern table (cell s2 i)) (i : Nat)
    (t : translation_t) (ht : t ∈ table) (hm : matches_at s2 i t) : matches_at s1 i t := by
  intro k hk
  rcases ext_cell_mono table s2 s1 hlen hzero hmono (i + k) with h | h
  · rw [← h]; exact hm k hk
  · exact absurd (hm k hk).symm (h t ht k hk)

/-- At the top of the scan loop, with the pointer in the first half of the
buffer: when a search string of the table stands at the cursor, continued
behind the end of the file as in `ext_cell`, the comparison finds it in the
buffer. -/
theorem window_of_match (file : List Nat) (table : List translation_t) (s : State)
    (h : ScanInv file table s) (hs : StableInv file table s) (hw : well_formed table)
    (hp : s.bufferpos < (BLKSIZE : Int)) (c : Nat) (hc : cursor s = (c : Int))
    (t : translation_t) (ht : t ∈ table) (hm : matches_at s c t) (k : Nat) (hk : k < t.srchlen) :
    s.buffer (s.bufferpos + (k : Int)) = t.srch.getD k 0 := by
  have hB := BLKSIZE_eq
  have hM : MAX_STR = 4 := rfl
  have hpn := h.pos_nonneg
  have hwt := hw t ht
  obtain ⟨h3, hsh⟩ := geom_shape _ s h.geom
  have hflen := h.geom.file_len
  have hmk := hm k hk
  have hcu := hc
  unfold cursor at hcu
  have hstart : c < file.length ∨ c = 0 := by
    rcases hs.start with h1 | h1
    · left
      rcases hsh with ⟨e1, e2, e3⟩ | ⟨e1, e2, e3, e4⟩ | ⟨e1, e2, e3, e4⟩ <;> omega
    · right; rw [hc] at h1; omega
  have hidx : s.bufferpos + (k : Int) = ((c + k : Nat) : Int) - (s.filepos1st : Int) := by
    push_cast; omega
  rw [hidx]
  unfold ext_cell at hmk
  rw [hflen] at hmk
  by_cases hv : c + k < file.length
  · rw [if_pos hv] at hmk
    rw [← hmk, cell_valid s (c + k) (by omega) (by
      rcases hsh with ⟨e1, e2, e3⟩ | ⟨e1, e2, e3, e4⟩ | ⟨e1, e2, e3, e4⟩ <;> omega)]
  · rw [if_neg hv] at hmk
    rcases hs.stale (c + k) (by omega) (by omega) (by omega) (by omega) with ⟨g1, g2⟩ | ⟨g1, g2⟩
    · rw [if_pos g1] at hmk
      rcases g2 with g2 | g2
      · rcases hs.changed (c + k - BLKSIZE) with g3 | g3
        · rw [g2, ← g3]; exact hmk
        · exact absurd hmk.symm (g3 t ht k hk)
      · rw [g2]; exact hmk
    · rw [if_neg (by omega)] at hmk
      rw [g2]; exact hmk


theorem substitute_cell_span (table : List translation_t) (s : State) (xlate : Nat)
    (t : translation_t)
    (hrepl : ∀ j, j < t.repllen → nonpattern table (t.repl.getD j 0))
    (hzero : nonpattern table 0) (i : Nat)
    (hv : s.filepos1st ≤ i ∧ (i : Int) < (s.filepos1st : Int) + s.bufferlen)
    (hin : cursor s ≤ (i : Int) ∧ (i : Int) < cursor s + (t.srchlen : Int)) :
    nonpattern table (cell (substitute s xlate t) i) := by
  rw [substitute_cell_inside s xlate t i hv hin]
  split_ifs with h1
  · exact hrepl _ (by unfold cursor at hin h1 ⊢; omega)
  · exact hzero

theorem substitute_buffer_outside (s : State) (xlate : Nat) (t : translation_t)
    (ht : t.repllen ≤ t.srchlen) (j : Int)
    (hj : ¬ (s.bufferpos ≤ j ∧ j < s.bufferpos + (t.srchlen : Int))) :
    (substitute s xlate t).buffer j = s.buffer j := by
  rw [substitute_buffer, if_neg (by omega), if_neg (by omega)]

/-- One pass through the body of the scan loop keeps what `StableInv` says. -/
theorem scan_body_stable (file : List Nat) (table : List translation_t) (s : State)
    (hw : well_formed table)
    (hdisj : ∀ t ∈ table, ∀ j, j < t.repllen → nonpattern table (t.repl.getD j 0))
    (hzero : nonpattern table 0) (h : ScanInv file table s) (hs : StableInv file table s) :
    (∀ i, cell (scan_body s) i = file.getD i 0 ∨ nonpattern table (cell (scan_body s) i)) ∧
    (∀ i : Nat, (i : Int) < cursor (scan_body s) → i < file.length →
      nonpattern table (cell (scan_body s) i) ∨ ∀ t ∈ table, ¬ matches_at (scan_body s) i t) ∧
    ((scan_body s).bufferpos < (scan_body s).bufferlen →
      StableInv file table (scan_body s)) := by
  have hB := BLKSIZE_eq
  have hM : MAX_STR = 4 := rfl
  obtain ⟨h1, hp1, hcur1, hcell1⟩ := chk_buffer_false_inv file table s h
  have hs1 := chk_buffer_false_stable file table s h hs
  have hbody : scan_body s = advance (try_translations (chk_buffer false s)) := rfl
  generalize chk_buffer false s = s1 at h1 hp1 hcur1 hcell1 hs1 hbody
  have hpn := h1.pos_nonneg
  obtain ⟨c, hc⟩ : ∃ c : Nat, cursor s1 = (c : Int) :=
    ⟨(cursor s1).toNat, by unfold cursor; omega⟩
  have hcu := hc
  unfold cursor at hcu
  obtain ⟨h3, hsh⟩ := geom_shape _ s1 h1.geom
  have hflen := h1.geom.file_len
  rw [hbody]
  rcases try_from_cases s1 s1.translation 0 with ⟨hno, htry⟩ | ⟨j, t1, hj, hm1, _, hsub⟩
  · -- no rule matches
    rw [try_translations, htry]
    have hbeh : ∀ i : Nat, (i : Int) < cursor (advance s1) → i < file.length →
        nonpattern table (cell (advance s1) i) ∨ ∀ t ∈ table, ¬ matches_at (advance s1) i t := by
      intro i hi hin
      rw [advance_cursor, hc] at hi
      rw [advance_cell]
      have hiff : ∀ t, matches_at (advance s1) i t ↔ matches_at s1 i t :=
        fun t => matches_at_congr (advance s1) s1 rfl (fun _ => rfl) i t
      by_cases hlt : i < c
      · rcases hs1.behind i (by rw [hc]; omega) hin with hb | hb
        · exact Or.inl hb
        · exact Or.inr (fun t ht hm => hb t ht ((hiff t).mp hm))
      · right
        have hic : i = c := by omega
        subst hic
        intro t ht hm
        have hm' := (hiff t).mp hm
        obtain ⟨x, hx⟩ := List.getElem?_of_mem ht
        obtain ⟨u, hu, hku⟩ := same_rules_getElem table s1.translation
          (same_rules_symm _ _ h1.rules) x t hx
        simp only [rule_key, Prod.mk.injEq] at hku
        have hfalse := hno u (List.getElem?_mem hu)
        have htrue : memcmp_eq s1.buffer s1.bufferpos u.srch u.srchlen = true := by
          rw [memcmp_eq_iff]
          intro k hk
          rw [← hku.1]
          exact window_of_match file table s1 h1 hs1 hw hp1 i hc t ht hm' k
            (by rw [hku.2.1]; exact hk)
        rw [htrue] at hfalse
        cases hfalse
    refine ⟨fun i => by rw [advance_cell]; exact hs1.changed i, hbeh, fun hlt => ?_⟩
    exact ⟨fun i => by rw [advance_cell]; exact hs1.changed i, hs1.stale, hbeh, Or.inl hlt⟩
  · -- the rule at index j is applied
    rw [try_translations, hsub]
    obtain ⟨t, htj, hk⟩ := same_rules_getElem s1.translation table h1.rules j t1 hj
    simp only [rule_key, Prod.mk.injEq] at hk
    obtain ⟨k1, k2, k3, k4⟩ := hk
    have htm : t ∈ table := List.getElem?_mem htj
    obtain ⟨w1, w2, w3⟩ := hw t htm
    have hrl : t1.repllen ≤ t1.srchlen := by rw [k2, k4]; exact w3
    have hrepl1 : ∀ j, j < t1.repllen → nonpattern table (t1.repl.getD j 0) := by
      intro j hj
      rw [k3]; exact hdisj t htm j (by rw [← k4]; exact hj)
    have hmono := substitute_cell_mono table s1 (0 + j) t1 hrl hrepl1 hzero hpn
    have hpos := substitute_bufferpos s1 (0 + j) t1 hrl
    have hcur2 : cursor (advance (substitute s1 (0 + j) t1)) = (c : Int) + (t1.srchlen : Int) := by
      rw [advance_cursor]
      show (s1.filepos1st : Int) + (substitute s1 (0 + j) t1).bufferpos + 1 = _
      rw [hpos]; omega
    have hch : ∀ i, cell (substitute s1 (0 + j) t1) i = file.getD i 0 ∨
        nonpattern table (cell (substitute s1 (0 + j) t1) i) := by
      intro i
      rcases hmono i with g | g
      · rw [g]; exact hs1.changed i
      · exact Or.inr g
    have hbeh : ∀ i : Nat, (i : Int) < cursor (advance (substitute s1 (0 + j) t1)) →
        i < file.length →
        nonpattern table (cell (advance (substitute s1 (0 + j) t1)) i) ∨
          ∀ t ∈ table, ¬ matches_at (advance (substitute s1 (0 + j) t1)) i t := by
      intro i hi hin
      rw [hcur2] at hi
      rw [advance_cell]
      have hiff : ∀ t, matches_at (advance (substitute s1 (0 + j) t1)) i t
          ↔ matches_at (substitute s1 (0 + j) t1) i t :=
        fun t => matches_at_congr _ _ rfl (fun _ => rfl) i t
      by_cases hlt : i < c
      · rcases hs1.behind i (by rw [hc]; omega) hin with hb | hb
        · left
          rw [substitute_cell_outside s1 _ t1 hrl i (by rw [hc]; omega)]
          exact hb
        · right
          intro t2 ht2 hm
          exact hb t2 ht2 (matches_at_mono table (substitute s1 (0 + j) t1) s1 rfl hzero hmono i t2
            ht2 ((hiff t2).mp hm))
      · left
        exact substitute_cell_span table s1 _ t1 hrepl1 hzero i (by
          rcases hsh with ⟨e1, e2, e3⟩ | ⟨e1, e2, e3, e4⟩ | ⟨e1, e2, e3, e4⟩ <;>
            (constructor <;> omega)) (by rw [hc]; omega)
    refine ⟨fun i => by rw [advance_cell]; exact hch i, hbeh, fun hlt => ?_⟩
    change (substitute s1 (0 + j) t1).bufferpos + 1 < s1.bufferlen at hlt
    rw [hpos] at hlt
    refine ⟨fun i => by rw [advance_cell]; exact hch i, ?_, hbeh, Or.inl (by
      show (substitute s1 (0 + j) t1).bufferpos + 1 < s1.bufferlen
      rw [hpos]; exact hlt)⟩
    intro i hi1 hi2 hi3 hi4
    change s1.filepos1st ≤ i at hi3
    change i < s1.filepos1st + 2 * BLKSIZE at hi4
    show (2 * BLKSIZE ≤ i ∧
        ((substitute s1 (0 + j) t1).buffer ((i : Int) - (s1.filepos1st : Int))
            = file.getD (i - BLKSIZE) 0 ∨
          (substitute s1 (0 + j) t1).buffer ((i : Int) - (s1.filepos1st : Int))
            = cell (substitute s1 (0 + j) t1) (i - BLKSIZE))) ∨
      (i < 2 * BLKSIZE ∧
        (substitute s1 (0 + j) t1).buffer ((i : Int) - (s1.filepos1st : Int)) = 0)
    have hbuf : (substitute s1 (0 + j) t1).buffer ((i : Int) - (s1.filepos1st : Int))
        = s1.buffer ((i : Int) - (s1.filepos1st : Int)) :=
      substitute_buffer_outside s1 _ t1 hrl _ (by
        rcases hsh with ⟨e1, e2, e3⟩ | ⟨e1, e2, e3, e4⟩ | ⟨e1, e2, e3, e4⟩ <;> omega)
    rw [hbuf]
    rcases hs1.stale i hi1 hi2 hi3 hi4 with ⟨g1, g2⟩ | ⟨g1, g2⟩
    · left
      refine ⟨g1, ?_⟩
      rcases g2 with g2 | g2
      · exact Or.inl g2
      · by_cases hin : cursor s1 ≤ ((i - BLKSIZE : Nat) : Int) ∧
            ((i - BLKSIZE : Nat) : Int) < cursor s1 + (t1.srchlen : Int)
        · left
          rw [g2]
          exact h1.ahead (i - BLKSIZE) hin.1
        · right
          rw [substitute_cell_outside s1 _ t1 hrl (i - BLKSIZE) hin]
          exact g2
    · exact Or.inr ⟨g1, g2⟩


theorem prime_buffer_beyond (file : List Nat) (table : List translation_t) (j : Int)
    (h1 : (prime file table).bufferlen ≤ j) : (prime file table).buffer j = 0 := by
  have hB := BLKSIZE_eq
  have e1 : (fread file 0 BLKSIZE).length = min BLKSIZE file.length := by
    rw [fread_length]; simp
  have e2 : (fread file (fread file 0 BLKSIZE).length BLKSIZE).length
      = min BLKSIZE (file.length - (fread file 0 BLKSIZE).length) := by
    rw [fread_length]
  change ((fread file 0 BLKSIZE).length : Int)
    + ((fread file (fread file 0 BLKSIZE).length BLKSIZE).length : Int) ≤ j at h1
  show memcpy (memcpy (fun _ => 0) 0 (fun k => (fread file 0 BLKSIZE).getD k 0)
      (fread file 0 BLKSIZE).length) BLKSIZE
      (fun k => (fread file (fread file 0 BLKSIZE).length BLKSIZE).getD k 0)
      (fread file (fread file 0 BLKSIZE).length BLKSIZE).length j = _
  simp only [memcpy]
  generalize hb : (fread file (fread file 0 BLKSIZE).length BLKSIZE).length = b at e2 h1 ⊢
  generalize ha : (fread file 0 BLKSIZE).length = a at e1 e2 h1 ⊢
  rcases Nat.lt_or_ge file.length BLKSIZE with c | c
  · rw [Nat.min_eq_right (by omega)] at e1
    rw [e1, Nat.sub_self, Nat.min_eq_right (by omega)] at e2
    rw [if_neg (by omega), if_neg (by omega)]
  · rw [Nat.min_eq_left c] at e1
    rw [if_neg (by omega), if_neg (by omega)]

theorem prime_stable (file : List Nat) (table : List translation_t) :
    StableInv file table (prime file table) := by
  have hB := BLKSIZE_eq
  have hg := prime_geom file table
  obtain ⟨h3, hsh⟩ := geom_shape _ _ hg
  refine ⟨fun i => Or.inl (prime_cell file table i), ?_, ?_, Or.inr ?_⟩
  · intro i hi1 hi2 hi3 hi4
    change i < 0 + 2 * BLKSIZE at hi4
    right
    refine ⟨by omega, prime_buffer_beyond file table _ ?_⟩
    have hf1 : (prime file table).filepos1st = 0 := rfl
    rw [hf1] at h3 hsh ⊢
    rcases hsh with ⟨e1, e2, e3⟩ | ⟨e1, e2, e3, e4⟩ | ⟨e1, e2, e3, e4⟩ <;> omega
  · intro i hi
    change (i : Int) < ((0 : Nat) : Int) + 0 at hi
    omega
  · show ((0 : Nat) : Int) + 0 = 0
    omega

theorem step_stable_run (file : List Nat) (table : List translation_t)
    (hw : well_formed table)
    (hdisj : ∀ t ∈ table, ∀ j, j < t.repllen → nonpattern table (t.repl.getD j 0))
    (hzero : nonpattern table 0) (ps : Phase × State) (h : RunInv file table ps)
    (hs : StableRun file table ps) : StableRun file table (step ps) := by
  have hB := BLKSIZE_eq
  have hM : MAX_STR = 4 := rfl
  obtain ⟨ph, s⟩ := ps
  cases ph with
  | scan =>
      obtain ⟨p1, p2, p3⟩ := scan_body_stable file table s hw hdisj hzero h hs
      obtain ⟨g, p0, pb, _⟩ := scan_body_inv file table s hw h
      simp only [step]
      split_ifs with h1
      · exact p3 h1
      · refine ⟨p1, fun i hi => p2 i ?_ hi⟩
        obtain ⟨h3, hsh⟩ := geom_shape _ _ g
        unfold cursor
        rcases hsh with ⟨e1, e2, e3⟩ | ⟨e1, e2, e3, e4⟩ | ⟨e1, e2, e3, e4⟩ <;> omega
  | drain =>
      obtain ⟨hf, hr, hg⟩ := h
      simp only [step]
      split_ifs with h1
      · obtain ⟨g, c, hn⟩ := hg h1
        rw [chk_buffer_true]
        have hcell := slide_cell _ s g c h1
        have hlen : (slide s).file.length = s.file.length := by
          rw [slide_file_length _ s g h1, hf]
        refine ⟨fun i => by rw [hcell]; exact hs.1 i, fun i hi => ?_⟩
        rw [hcell]
        rcases hs.2 i hi with hb | hb
        · exact Or.inl hb
        · exact Or.inr (fun t ht hm => hb t ht ((matches_at_congr _ s hlen hcell i t).mp hm))
      · exact hs
  | done => exact hs

theorem stable_run (file : List Nat) (table : List translation_t) (hw : well_formed table)
    (hdisj : ∀ t ∈ table, ∀ j, j < t.repllen → nonpattern table (t.repl.getD j 0))
    (hzero : nonpattern table 0) (k : Nat) :
    StableRun file table (program_point file table k) := by
  induction k with
  | zero => exact prime_stable file table
  | succ k ih => exact step_stable_run file table hw hdisj hzero _ (run_inv file table hw k) ih

/-- The file that a run leaves is stable. -/
theorem run_result_stable (file : List Nat) (table : List translation_t)
    (hw : well_formed table)
    (hdisj : ∀ t ∈ table, ∀ j, j < t.repllen → nonpattern table (t.repl.getD j 0))
    (hzero : nonpattern table 0) (K : Nat) (sf : State)
    (hrun : program_point file table K = (Phase.done, sf)) :
    Stable table sf.file := by
  have hB := BLKSIZE_eq
  have hri := run_inv file table hw K
  have hsr := stable_run file table hw hdisj hzero K
  rw [hrun] at hri hsr
  have hlen : sf.file.length = file.length := hri.1
  have hcell := done_cell file table sf hri
  have hext : ∀ y, ext_cell sf y = ext_byte sf.file y := by
    intro y
    unfold ext_cell ext_byte
    rw [hcell, hcell]
  intro i hi t ht hm
  obtain ⟨w1, w2, w3⟩ := hw t ht
  by_cases hin : i < sf.file.length
  · rcases hsr.2 i (by omega) with hb | hb
    · have h0 := hm 0 (by omega)
      rw [Nat.add_zero, ← hext] at h0
      unfold ext_cell at h0
      rw [if_pos hin] at h0
      exact hb t ht 0 (by omega) h0.symm
    · exact hb t ht (fun k hk => by rw [hext]; exact hm k hk)
  · have hi0 : i = 0 := by omega
    subst hi0
    have h0 := hm 0 (by omega)
    unfold ext_byte at h0
    rw [if_neg (by omega), if_neg (by omega)] at h0
    exact hzero t ht 0 (by omega) h0.symm


theorem clean_cell (G : List Nat) (table : List translation_t) (ps : Phase × State)
    (h : RunInv G table ps) (hc : Clean G ps.2) (i : Nat) : cell ps.2 i = G.getD i 0 := by
  obtain ⟨ph, s⟩ := ps
  obtain ⟨_, d1, d2, hf⟩ := hc
  change s.dirty1st = false at d1
  change s.dirty2nd = false at d2
  change s.file = G at hf
  show cell s i = G.getD i 0
  have key : Covered s → cell s i = G.getD i 0 := by
    intro hcov
    unfold cell
    split_ifs with hv
    · by_contra hne
      rw [← hf] at hne
      rcases hcov i hv.1 hv.2 hne with g | g
      · rw [d1] at g; cases g.2
      · rw [d2] at g; cases g.2
    · rw [hf]
  cases ph with
  | scan => exact key h.covered
  | drain =>
      by_cases hl : 0 < s.bufferlen
      · exact key (h.2.2 hl).2.1
      · unfold cell
        rw [if_neg (by omega), hf]
  | done =>
      unfold cell
      have := h.2
      rw [if_neg (by omega), hf]

theorem slide_clean (G : List Nat) (s : State) (hc : Clean G s) : Clean G (slide s) := by
  obtain ⟨c0, d1, d2, hf⟩ := hc
  refine ⟨c0, d2, rfl, ?_⟩
  show (if s.dirty1st = true then _ else s.file) = G
  rw [if_neg (by rw [d1]; simp), hf]

theorem chk_buffer_clean (G : List Nat) (b : Bool) (s : State) (hc : Clean G s) :
    Clean G (chk_buffer b s) := by
  unfold chk_buffer
  split_ifs
  · exact slide_clean G s hc
  · exact hc

/-- In a run on a stable file no rule is ever applied. -/
theorem step_clean (G : List Nat) (table : List translation_t) (hw : well_formed table)
    (hst : Stable table G) (ps : Phase × State) (hri : RunInv G table ps)
    (hsr : StableRun G table ps) (hc : Clean G ps.2) : Clean G (step ps).2 := by
  have hB := BLKSIZE_eq
  have hM : MAX_STR = 4 := rfl
  obtain ⟨ph, s⟩ := ps
  change Clean G s at hc
  cases ph with
  | scan =>
      rw [step_state_scan]
      obtain ⟨h1, hp1, hcur1, hcell1⟩ := chk_buffer_false_inv G table s hri
      have hs1 := chk_buffer_false_stable G table s hri hsr
      have hc1 := chk_buffer_clean G false s hc
      have hbody : scan_body s = advance (try_translations (chk_buffer false s)) := rfl
      generalize chk_buffer false s = s1 at h1 hp1 hcur1 hcell1 hs1 hc1 hbody
      have hpn := h1.pos_nonneg
      obtain ⟨c, hcc⟩ : ∃ c : Nat, cursor s1 = (c : Int) :=
        ⟨(cursor s1).toNat, by unfold cursor; omega⟩
      have hcu := hcc
      unfold cursor at hcu
      obtain ⟨h3, hsh⟩ := geom_shape _ s1 h1.geom
      have hcl := clean_cell G table (Phase.scan, s1) h1 hc1
      change ∀ i, cell s1 i = G.getD i 0 at hcl
      have hstart : c < G.length ∨ c = 0 := by
        rcases hs1.start with g | g
        · left
          rcases hsh with ⟨e1, e2, e3⟩ | ⟨e1, e2, e3, e4⟩ | ⟨e1, e2, e3, e4⟩ <;> omega
        · right; rw [hcc] at g; omega
      have hno : ∀ u ∈ s1.translation,
          memcmp_eq s1.buffer s1.bufferpos u.srch u.srchlen = false := by
        intro u hu
        by_contra hm
        have hm1 : memcmp_eq s1.buffer s1.bufferpos u.srch u.srchlen = true := by
          simpa using hm
        rw [memcmp_eq_iff] at hm1
        obtain ⟨x, hx⟩ := List.getElem?_of_mem hu
        obtain ⟨t, ht, hk⟩ := same_rules_getElem s1.translation table h1.rules x u hx
        simp only [rule_key, Prod.mk.injEq] at hk
        have htm := List.getElem?_mem ht
        obtain ⟨w1, w2, w3⟩ := hw t htm
        apply hst c hstart t htm
        intro k hk1
        rw [← hk.1, ← hm1 k (by rw [hk.2.1]; exact hk1)]
        have hidx : s1.bufferpos + (k : Int) = ((c + k : Nat) : Int) - (s1.filepos1st : Int) := by
          push_cast; omega
        rw [hidx]
        unfold ext_byte
        by_cases hv : c + k < G.length
        · rw [if_pos hv, ← hcl (c + k), cell_valid s1 (c + k) (by omega) (by
            rcases hsh with ⟨e1, e2, e3⟩ | ⟨e1, e2, e3, e4⟩ | ⟨e1, e2, e3, e4⟩ <;> omega)]
        · rw [if_neg hv]
          rcases hs1.stale (c + k) (by omega) (by omega) (by omega) (by omega)
            with ⟨g1, g2⟩ | ⟨g1, g2⟩
          · rw [if_pos g1]
            rcases g2 with g2 | g2
            · exact g2.symm
            · rw [g2, hcl]
          · rw [if_neg (by omega), g2]
      have htry : try_translations s1 = s1 := try_from_none s1 s1.translation 0 hno
      rw [hbody, htry]
      exact hc1
  | drain =>
      simp only [step]
      split_ifs
      · exact chk_buffer_clean G true s hc
      · exact hc
  | done => exact hc

theorem clean_run (G : List Nat) (table : List translation_t) (hw : well_formed table)
    (hdisj : ∀ t ∈ table, ∀ j, j < t.repllen → nonpattern table (t.repl.getD j 0))
    (hzero : nonpattern table 0) (hst : Stable table G) (k : Nat) :
    Clean G (program_point G table k).2 := by
  induction k with
  | zero => exact ⟨rfl, rfl, rfl, rfl⟩
  | succ k ih =>
      exact step_clean G table hw hst _ (run_inv G table hw k)
        (stable_run G table hw hdisj hzero k) ih

theorem run_eq_some (file : List Nat) (table : List translation_t) (K : Nat) (s : State)
    (h : run K file table = some s) : program_point file table K = (Phase.done, s) := by
  unfold run at h
  generalize program_point file table K = ps at h
  obtain ⟨ph, s1⟩ := ps
  cases ph with
  | scan => cases h
  | drain => cases h
  | done => cases h; rfl

/-! ## Claim C1: the run against the reference scan -/

/-- C1 fails on the file of the one byte `E2` with the rule `E2 00 -> "-"`: the
pattern does not occur in the file, so the reference scan leaves the file as
it is, but the run compares the pattern with the byte of the file and the
zero byte that lies behind it in the buffer, makes a substitution and writes
`2D` over the byte of the file. -/
theorem run_matches_past_end_of_file :
    (run 5 [0xE2] [rule_e2_nul]).map (fun s => (s.file, s.total_changes)) = some ([0x2D], 1) ∧
    read_translations (fun _ => 0) (chars_of "E200 \"-\"\n") = Except.ok [rule_e2_nul] ∧
    reference_scan [rule_e2_nul] [0xE2] = [0xE2] := by
  decide

/-- The reference scan on the concrete scenario of the spec. -/
theorem reference_scan_hello :
    reference_scan [rule_en_dash, rule_nbsp] hello_file
      = [0x48, 0x65, 0x6C, 0x6C, 0x6F, 0x2D, 0, 0, 0x77, 0x6F, 0x72, 0x6C, 0x64, 0x20, 0, 0x21] := by
  decide

/-! ## Claims C2 and C3: the concrete scenario -/

/-- C2, as the spec states it: the expected bytes of the scenario are 14 bytes,
without the two zero bytes that pad the replaced en dash. The run does not
produce them. -/
theorem hello_run_not_spec_bytes :
    (run 20 hello_file [rule_en_dash, rule_nbsp]).map (fun s => s.file)
      ≠ some [0x48, 0x65, 0x6C, 0x6C, 0x6F, 0x2D, 0x77, 0x6F, 0x72, 0x6C, 0x64, 0x20, 0, 0x21] := by
  decide

/-- C2, amended: with the rules `E2 80 93 -> "-"` and `C2 A0 -> " "`, the run on
the 16 bytes `48 65 6C 6C 6F E2 80 93 77 6F 72 6C 64 C2 A0 21` ends and leaves
the 16 bytes `48 65 6C 6C 6F 2D 00 00 77 6F 72 6C 64 20 00 21` in the file: the
en dash becomes `2D` and two zero bytes, the no-break space `20` and one zero
byte. -/
theorem hello_run_file :
    (run 20 hello_file [rule_en_dash, rule_nbsp]).map (fun s => s.file)
      = some [0x48, 0x65, 0x6C, 0x6C, 0x6F, 0x2D, 0, 0, 0x77, 0x6F, 0x72, 0x6C, 0x64, 0x20, 0, 0x21] := by
  decide

/-- C3: in the same scenario the run ends with `total_changes = 2` and with the
`used` counter of each of the two rules equal to 1. -/
theorem hello_run_counters :
    (run 20 hello_file [rule_en_dash, rule_nbsp]).map
        (fun s => (s.total_changes, s.translation.map (fun t => t.used)))
      = some (2, [1, 1]) := by
  decide

/-! ## Claim C4: the file keeps its length -/

/-- C4: at every loop iteration of a run, for every mailbox file and every
table, the file has the length it had before the run, and when `chk_buffer`
writes back in the next iteration it writes `min(BLKSIZE, bufferlen)` bytes at
`filepos1st`, a range that lies inside the original file. Hence the file has
its original length when the run has ended. -/
theorem file_length_unchanged (file : List Nat) (table : List translation_t) (k : Nat) :
    (program_point file table k).2.file.length = file.length ∧
    (∀ pos count, writes_back (program_point file table k) = some (pos, count) →
      pos = (program_point file table k).2.filepos1st ∧
      (count : Int) = min (BLKSIZE : Int) (program_point file table k).2.bufferlen ∧
      pos + count ≤ file.length) ∧
    (∀ s, run k file table = some s → s.file.length = file.length) := by
  have hinv := program_point_inv file table k
  have hB := BLKSIZE_eq
  have hlen : (program_point file table k).2.file.length = file.length := by
    generalize program_point file table k = ps at hinv
    obtain ⟨ph, s⟩ := ps
    cases ph with
    | scan => exact hinv.1.file_len
    | drain => exact hinv.1
    | done => exact hinv
  refine ⟨hlen, ?_, ?_⟩
  · intro pos count hw
    generalize program_point file table k = ps at hinv hw
    obtain ⟨ph, s⟩ := ps
    cases ph with
    | scan =>
        obtain ⟨hg, hp⟩ := hinv
        obtain ⟨h3, hs⟩ := geom_shape _ s hg
        simp only [writes_back] at hw
        split_ifs at hw with hc
        simp only [Option.some.injEq, Prod.mk.injEq] at hw
        obtain ⟨h4, h5⟩ := hw
        subst h4 h5
        dsimp only
        refine ⟨rfl, ?_, ?_⟩
        · omega
        · rcases hs with ⟨e1, e2, e3⟩ | ⟨e1, e2, e3, e4⟩ | ⟨e1, e2, e3, e4⟩ <;> omega
    | drain =>
        obtain ⟨hf, hg⟩ := hinv
        simp only [writes_back] at hw
        split_ifs at hw with hc
        obtain ⟨h3, hs⟩ := geom_shape _ s (hg hc.1)
        simp only [Option.some.injEq, Prod.mk.injEq] at hw
        obtain ⟨h4, h5⟩ := hw
        subst h4 h5
        dsimp only
        refine ⟨rfl, ?_, ?_⟩
        · omega
        · rcases hs with ⟨e1, e2, e3⟩ | ⟨e1, e2, e3, e4⟩ | ⟨e1, e2, e3, e4⟩ <;> omega
    | done => simp [writes_back] at hw
  · intro s hs
    unfold run at hs
    generalize program_point file table k = ps at hlen hs
    obtain ⟨ph, s1⟩ := ps
    cases ph with
    | scan => simp at hs
    | drain => simp at hs
    | done =>
        simp only [Option.some.injEq] at hs
        rw [← hs]; exact hlen

/-! ## Claim C6: the counters -/

theorem count_inv_run (file : List Nat) (table : List translation_t) (k : Nat)
    (h0 : ∀ t ∈ table, t.used = 0) : CountInv k (program_point file table k).2 := by
  induction k with
  | zero =>
      have hs : sum_used table = 0 := by
        unfold sum_used
        have : table.map (fun t => t.used) = table.map (fun _ => (0 : Int)) :=
          List.map_congr_left (fun t ht => h0 t ht)
        rw [this]
        simp
      refine ⟨?_, fun _ => ⟨fun t ht => ?_, ?_, ?_, ?_⟩⟩
      · show wrap32 (sum_used table) = 0
        rw [hs]; rfl
      · show 0 ≤ t.used
        rw [h0 t ht]
      · show sum_used table = 0
        exact hs
      · show (0 : Int) ≤ 0
        omega
      · show (0 : Int) ≤ ((0 : Nat) : Int)
        omega
  | succ k ih => exact step_counters k _ ih

/-- C6, amended: at every loop iteration of a run (and so at its end), for
every mailbox file and every table whose `used` counters start at 0, the sum
of the `used` counters of all rules equals `total_changes` up to the
wrap-around of the 32-bit counters, that is modulo `2^32`; and the two are
equal at every point that is reached in fewer than `2^31` loop iterations. -/
theorem used_sum_wraps_to_total_changes (file : List Nat) (table : List translation_t)
    (k : Nat) (h0 : ∀ t ∈ table, t.used = 0) :
    wrap32 (sum_used (program_point file table k).2.translation)
      = (program_point file table k).2.total_changes ∧
    (k < 2147483648 →
      sum_used (program_point file table k).2.translation
        = (program_point file table k).2.total_changes) := by
  obtain ⟨h1, h2⟩ := count_inv_run file table k h0
  exact ⟨h1, fun hk => (h2 hk).2.1⟩

/-- C6, amended, at the concrete scenario, after the run has ended. -/
theorem used_sum_wraps_to_total_changes_witness :
    (∀ t ∈ [rule_en_dash, rule_nbsp], t.used = 0) ∧
    (program_point hello_file [rule_en_dash, rule_nbsp] 20).1 = Phase.done ∧
    sum_used (program_point hello_file [rule_en_dash, rule_nbsp] 20).2.translation
      = (program_point hello_file [rule_en_dash, rule_nbsp] 20).2.total_changes ∧
    (program_point hello_file [rule_en_dash, rule_nbsp] 20).2.total_changes = 2 :=
  ⟨by decide, by decide,
    (used_sum_wraps_to_total_changes hello_file [rule_en_dash, rule_nbsp] 20 (by decide)).2
      (by decide),
    by decide⟩

theorem wrap_file_length (m : Nat) : (wrap_file m).length = m + 1 := by
  simp [wrap_file]

theorem wrap_file_getD_lt (m i : Nat) (h : i < m) : (wrap_file m).getD i 0 = 0x41 := by
  unfold wrap_file
  rw [getD_append_left_lt _ _ _ (by rw [List.length_replicate]; exact h),
    getD_replicate_lt _ _ _ h]

theorem wrap_file_getD_last (m : Nat) : (wrap_file m).getD m 0 = 0x42 := by
  unfold wrap_file
  have := getD_append_right_add (List.replicate m 0x41) [0x42] 0
  rw [List.length_replicate, Nat.add_zero] at this
  rw [this]
  rfl

theorem well_formed_a_b : well_formed [rule_a, rule_b] := by
  unfold well_formed
  decide

/-- The comparison of a rule with a search string of one byte, at a cursor
inside the file. -/
theorem memcmp_eq_one_byte (file : List Nat) (table : List translation_t) (s : State)
    (h : ScanInv file table s) (hp : s.bufferpos < (BLKSIZE : Int)) (q : Nat)
    (hq : cursor s = (q : Int)) (hin : q < file.length) (t : translation_t)
    (hlen : t.srchlen = 1) :
    memcmp_eq s.buffer s.bufferpos t.srch t.srchlen
      = decide (file.getD q 0 = t.srch.getD 0 0) := by
  have hM : MAX_STR = 4 := rfl
  rw [memcmp_eq_occurs file table s h hp q hq t (by omega) (by omega), Bool.eq_iff_iff,
    occurs_at_iff, decide_eq_true_iff, hlen]
  constructor
  · intro ho
    have := ho.2 0 (by omega)
    rwa [Nat.add_zero] at this
  · intro he
    refine ⟨by omega, fun j hj => ?_⟩
    have hj0 : j = 0 := by omega
    rw [hj0, Nat.add_zero]
    exact he

/-- One pass of the scan loop on `wrap_file m` with the rules `41 -> "a"` and
`42 -> "b"`: the rule of the letter under the cursor is applied. -/
theorem letter_step (m k : Nat) (u v : Int) (s : State)
    (hk : program_point (wrap_file m) [rule_a, rule_b] k = (Phase.scan, s))
    (hcur : cursor s = (k : Int)) (hle : k ≤ m)
    (htr : s.translation = [{ rule_a with used := u }, { rule_b with used := v }]) :
    cursor (scan_body s) = ((k + 1 : Nat) : Int) ∧
    (scan_body s).total_changes = wrap32 (s.total_changes + 1) ∧
    (scan_body s).translation
      = (if k < m then [{ rule_a with used := wrap32 (u + 1) }, { rule_b with used := v }]
         else [{ rule_a with used := u }, { rule_b with used := wrap32 (v + 1) }]) ∧
    ((scan_body s).bufferpos < (scan_body s).bufferlen ↔ k < m) := by
  have hB := BLKSIZE_eq
  have hn := wrap_file_length m
  have hinv : ScanInv (wrap_file m) [rule_a, rule_b] s := by
    have := run_inv (wrap_file m) [rule_a, rule_b] well_formed_a_b k
    rw [hk] at this
    exact this
  obtain ⟨h1, hp1, hcur1, _⟩ := chk_buffer_false_inv _ _ s hinv
  have htr1 : (chk_buffer false s).translation
      = [{ rule_a with used := u }, { rule_b with used := v }] := by
    rw [chk_buffer_translation, htr]
  have htot1 := chk_buffer_total_changes false s
  have hbody : scan_body s = advance (try_translations (chk_buffer false s)) := rfl
  rw [hcur] at hcur1
  generalize chk_buffer false s = s1 at h1 hp1 hcur1 htr1 htot1 hbody
  have hpn := h1.pos_nonneg
  obtain ⟨h3, hs⟩ := geom_shape _ s1 h1.geom
  have hc1 := hcur1
  unfold cursor at hc1
  have hma := memcmp_eq_one_byte _ _ s1 h1 hp1 k hcur1 (by omega) { rule_a with used := u } rfl
  have hmb := memcmp_eq_one_byte _ _ s1 h1 hp1 k hcur1 (by omega) { rule_b with used := v } rfl
  have hposadv : ∀ x (t : translation_t), t.srchlen = 1 → t.repllen = 1 →
      cursor (advance (substitute s1 x t)) = ((k + 1 : Nat) : Int) ∧
      ((advance (substitute s1 x t)).bufferpos < (advance (substitute s1 x t)).bufferlen
        ↔ k < m) := by
    intro x t e1 e2
    have hbp : (advance (substitute s1 x t)).bufferpos = s1.bufferpos + 1 := by
      show (substitute s1 x t).bufferpos + 1 = _
      rw [substitute_bufferpos s1 x t (by omega), e1]
      push_cast
      omega
    have hbl : (advance (substitute s1 x t)).bufferlen = s1.bufferlen := rfl
    have hf : (advance (substitute s1 x t)).filepos1st = s1.filepos1st := rfl
    refine ⟨?_, ?_⟩
    · unfold cursor
      rw [hbp, hf]
      push_cast
      omega
    · rw [hbp, hbl]
      rcases hs with ⟨e1, e2, e3⟩ | ⟨e1, e2, e3, e4⟩ | ⟨e1, e2, e3, e4⟩ <;>
        (constructor <;> intro <;> omega)
  by_cases hlt : k < m
  · have hm : memcmp_eq s1.buffer s1.bufferpos ({ rule_a with used := u } : translation_t).srch
        ({ rule_a with used := u } : translation_t).srchlen = true := by
      rw [hma, wrap_file_getD_lt m k hlt]
      rfl
    have htry : try_translations s1 = substitute s1 0 { rule_a with used := u } := by
      rw [try_translations, htr1, try_from, if_pos hm]
    rw [hbody, htry, if_pos hlt]
    obtain ⟨c1, c2⟩ := hposadv 0 { rule_a with used := u } rfl rfl
    refine ⟨c1, ?_, ?_, c2⟩
    · show wrap32 (s1.total_changes + 1) = _
      rw [htot1]
    · show incr_used 0 s1.translation = _
      rw [htr1]
      rfl
  · have hkm : k = m := by omega
    have hm : memcmp_eq s1.buffer s1.bufferpos ({ rule_a with used := u } : translation_t).srch
        ({ rule_a with used := u } : translation_t).srchlen = false := by
      rw [hma, hkm, wrap_file_getD_last m]
      rfl
    have hm2 : memcmp_eq s1.buffer s1.bufferpos ({ rule_b with used := v } : translation_t).srch
        ({ rule_b with used := v } : translation_t).srchlen = true := by
      rw [hmb, hkm, wrap_file_getD_last m]
      rfl
    have htry : try_translations s1 = substitute s1 1 { rule_b with used := v } := by
      rw [try_translations, htr1, try_from, if_neg (by rw [hm]; simp), try_from, if_pos hm2]
    rw [hbody, htry, if_neg hlt]
    obtain ⟨c1, c2⟩ := hposadv 1 { rule_b with used := v } rfl rfl
    refine ⟨c1, ?_, ?_, c2⟩
    · show wrap32 (s1.total_changes + 1) = _
      rw [htot1]
    · show incr_used 1 s1.translation = _
      rw [htr1]
      rfl

/-- The scan over the letters `A` of `wrap_file m`: after `k <= m` loop
iterations the first rule was applied `k` times. -/
theorem letters_scan (m : Nat) :
    ∀ k, k ≤ m → ∃ s, program_point (wrap_file m) [rule_a, rule_b] k = (Phase.scan, s) ∧
      cursor s = (k : Int) ∧ s.total_changes = wrap32 (k : Int) ∧
      s.translation = [{ rule_a with used := wrap32 (k : Int) }, rule_b] := by
  intro k
  induction k with
  | zero =>
      intro _
      exact ⟨prime (wrap_file m) [rule_a, rule_b], rfl, rfl, rfl, rfl⟩
  | succ k ih =>
      intro hk
      obtain ⟨s, hs, hcur, htot, htr⟩ := ih (by omega)
      obtain ⟨c1, c2, c3, c4⟩ := letter_step m k (wrap32 (k : Int)) 0 s hs hcur (by omega) htr
      rw [if_pos (by omega)] at c3
      refine ⟨scan_body s, ?_, c1, ?_, ?_⟩
      · show step (program_point (wrap_file m) [rule_a, rule_b] k) = _
        rw [hs]
        simp only [step]
        rw [if_pos (c4.mpr (by omega))]
      · rw [c2, htot, wrap32_add_one]
        push_cast
        rfl
      · rw [c3, wrap32_add_one]
        push_cast
        rfl

/-- Behind the scan loop the counters stay as they are. -/
theorem counters_after_scan (file : List Nat) (table : List translation_t) (k : Nat)
    (h : (program_point file table k).1 ≠ Phase.scan) (j : Nat) :
    (program_point file table (k + j)).1 ≠ Phase.scan ∧
      (program_point file table (k + j)).2.translation
        = (program_point file table k).2.translation ∧
      (program_point file table (k + j)).2.total_changes
        = (program_point file table k).2.total_changes := by
  induction j with
  | zero => exact ⟨h, rfl, rfl⟩
  | succ j ih =>
      obtain ⟨h1, h2, h3⟩ := ih
      have hnext : program_point file table (k + (j + 1))
          = step (program_point file table (k + j)) := rfl
      rw [hnext, ← h2, ← h3]
      generalize program_point file table (k + j) = ps at h1
      obtain ⟨ph, s⟩ := ps
      cases ph with
      | scan => exact absurd rfl h1
      | drain =>
          simp only [step]
          split_ifs
          · exact ⟨by simp, chk_buffer_translation true s, chk_buffer_total_changes true s⟩
          · exact ⟨by simp, rfl, rfl⟩
      | done => exact ⟨by simp [step], rfl, rfl⟩

/-- The run on `wrap_file m` ends with the first rule used `m` times and the
second once, the counters being 32-bit. -/
theorem wrap_file_run (m : Nat) :
    ∃ K sf, run K (wrap_file m) [rule_a, rule_b] = some sf ∧
      sf.total_changes = wrap32 (wrap32 (m : Int) + 1) ∧
      sf.translation
        = [{ rule_a with used := wrap32 (m : Int) }, { rule_b with used := wrap32 (0 + 1) }] := by
  obtain ⟨s, hs, hcur, htot, htr⟩ := letters_scan m m (le_refl _)
  obtain ⟨c1, c2, c3, c4⟩ := letter_step m m (wrap32 (m : Int)) 0 s hs hcur (le_refl _) htr
  rw [if_neg (by omega)] at c3
  have hnext : program_point (wrap_file m) [rule_a, rule_b] (m + 1) = (Phase.drain, scan_body s) := by
    show step (program_point (wrap_file m) [rule_a, rule_b] m) = _
    rw [hs]
    simp only [step]
    rw [if_neg (fun h => absurd (c4.mp h) (by omega))]
  obtain ⟨J, hJ⟩ : ∃ J, J = (wrap_file m).length + 2 * BLKSIZE + 3 := ⟨_, rfl⟩
  have hdone := run_terminates (wrap_file m) [rule_a, rule_b] well_formed_a_b (m + 1 + J)
    (by omega)
  obtain ⟨_, d2, d3⟩ := counters_after_scan (wrap_file m) [rule_a, rule_b] (m + 1)
    (by rw [hnext]; simp) J
  rw [hnext] at d2 d3
  refine ⟨m + 1 + J, _, run_of_done _ _ _ hdone, ?_, ?_⟩
  · rw [d3]
    show (scan_body s).total_changes = _
    rw [c2, htot]
  · rw [d2]
    exact c3

/-- C6 as stated fails at the wrap-around of the 32-bit counters: on a mailbox
of `2^31 - 1` letters `A` and one letter `B`, with the rules `41 -> "a"` and
`42 -> "b"` whose counters start at 0, the run ends with the `used` counters
`2147483647` and `1`, whose sum is `2147483648`, and with
`total_changes = -2147483648`. -/
theorem used_sum_differs_at_wrap :
    (∀ t ∈ [rule_a, rule_b], t.used = 0) ∧
    ∃ K sf, run K (wrap_file 2147483647) [rule_a, rule_b] = some sf ∧
      sf.translation.map (fun t => t.used) = [2147483647, 1] ∧
      sum_used sf.translation = 2147483648 ∧
      sf.total_changes = -2147483648 ∧
      sum_used sf.translation ≠ sf.total_changes := by
  refine ⟨by decide, ?_⟩
  obtain ⟨K, sf, hrun, htot, htr⟩ := wrap_file_run 2147483647
  have e1 : wrap32 (((2147483647 : Nat) : Int)) = 2147483647 := by decide
  have e2 : wrap32 ((2147483647 : Int) + 1) = -2147483648 := by decide
  have e3 : wrap32 ((0 : Int) + 1) = 1 := by decide
  rw [e1] at htot htr
  rw [e2] at htot
  rw [e3] at htr
  refine ⟨K, sf, hrun, ?_, ?_, htot, ?_⟩
  · rw [htr]; rfl
  · rw [htr]; decide
  · rw [htr, htot]; decide

/-! ## Claim C7: the replacement is not longer than the search string -/

theorem store_line_lt (line : Nat → Nat) (chars : List Nat) (i : Nat) (h : i < chars.length) :
    store_line line chars i = chars.getD i 0 := by
  simp [store_line, h]

theorem skip_spaces_run (line : Nat → Nat) (a : Nat) :
    ∀ fuel i, a < fuel → (∀ j, j < a → line (i + j) = 32) → line (i + a) ≠ 32 →
      skip_spaces line fuel i = i + a := by
  induction a with
  | zero =>
      intro fuel i hf _ hn
      cases fuel with
      | zero => omega
      | succ f =>
          rw [skip_spaces, if_neg (by simpa using hn)]
          rfl
  | succ a ih =>
      intro fuel i hf hs hn
      cases fuel with
      | zero => omega
      | succ f =>
          rw [skip_spaces, if_pos (by simpa using hs 0 (by omega))]
          rw [ih f (i + 1) (by omega) (fun j hj => by
            have := hs (j + 1) (by omega)
            rwa [show i + 1 + j = i + (j + 1) by omega]) (by
            rwa [show i + 1 + a = i + (a + 1) by omega])]
          omega

theorem hex_value_space : hex_value 32 = none := by decide

/-- C8 fails on the line made of one space, the hex digit `E`, a space and two
double quotes: its hex string does not denote whole bytes, yet
`read_translations` ends normally and stores a rule whose search string has
length 0. -/
theorem read_translations_stores_empty_search (line0 : Nat → Nat) :
    read_translations line0 (chars_of " E \"\"\n")
      = Except.ok [{ srch := [14, 0, 0, 0], srchlen := 0, repl := [0, 0, 0, 0],
                     repllen := 0, used := 0 }] := by
  have h : fgets_lines (chars_of " E \"\"\n") = [[32, 69, 32, 34, 34, 10]] := by decide
  rw [read_translations, h]
  simp [read_lines, process_line, skip_spaces, parse_hex, parse_repl, store_line, hex_value,
    zero_translation, MAX_STR, LINESIZE, MAX_TRANSLATIONS]

/-! ## Claim C9: the first matching rule wins -/

/-- C9: when the rule at index `xlate` matches at the buffer position and no
rule before it does, whatever the rules after it are, the loop over the table
does the substitution of that rule and no other: its replacement and zero
padding are written and nothing else in the buffer changes, its `used` counter
goes up by one, every other entry of the table is unchanged, and
`total_changes` goes up by one (both as 32-bit `int` increments). -/
theorem first_matching_rule_wins (s : State) (xlate : Nat) (t : translation_t)
    (hget : s.translation[xlate]? = some t)
    (hmatch : memcmp_eq s.buffer s.bufferpos t.srch t.srchlen = true)
    (hfirst : ∀ j u, j < xlate → s.translation[j]? = some u →
      memcmp_eq s.buffer s.bufferpos u.srch u.srchlen = false) :
    try_translations s = substitute s xlate t ∧
    (∀ i, (try_translations s).buffer i
      = if s.bufferpos ≤ i ∧ i < s.bufferpos + t.repllen then
          t.repl.getD (i - s.bufferpos).toNat 0
        else if s.bufferpos + t.repllen ≤ i ∧ i < s.bufferpos + t.srchlen then 0
        else s.buffer i) ∧
    (try_translations s).translation[xlate]? = some { t with used := wrap32 (t.used + 1) } ∧
    (∀ j, j ≠ xlate → (try_translations s).translation[j]? = s.translation[j]?) ∧
    (try_translations s).total_changes = wrap32 (s.total_changes + 1) := by
  have h : try_translations s = substitute s xlate t := by
    rw [try_translations, try_from_first s s.translation 0 xlate t hget hmatch hfirst,
      Nat.zero_add]
  rw [h]
  refine ⟨rfl, fun i => substitute_buffer s xlate t i, ?_, ?_, rfl⟩
  · exact incr_used_getElem_self _ _ _ hget
  · intro j hj
    exact incr_used_getElem_other _ _ _ hj

/-- C9 at a concrete state: the file starts with `E2 80 93 41`, the first rule
does not match, the second (`E2`, one byte) and the third (`E2 80 93 41`) both
match; the second is applied and only its counter goes up. -/
theorem first_matching_rule_wins_witness :
    memcmp_eq (prime [0xE2, 0x80, 0x93, 0x41] [rule_nbsp, rule_e2, rule_long]).buffer 0
      rule_e2.srch rule_e2.srchlen = true ∧
    memcmp_eq (prime [0xE2, 0x80, 0x93, 0x41] [rule_nbsp, rule_e2, rule_long]).buffer 0
      rule_long.srch rule_long.srchlen = true ∧
    (try_translations (prime [0xE2, 0x80, 0x93, 0x41] [rule_nbsp, rule_e2, rule_long])).translation
      = [rule_nbsp, { rule_e2 with used := 1 }, rule_long] ∧
    (List.range 4).map (fun (k : Nat) =>
      (try_translations (prime [0xE2, 0x80, 0x93, 0x41] [rule_nbsp, rule_e2, rule_long])).buffer
        (k : Int)) = [0x65, 0x80, 0x93, 0x41] ∧
    (try_translations (prime [0xE2, 0x80, 0x93, 0x41] [rule_nbsp, rule_e2, rule_long])).total_changes
      = wrap32
          ((prime [0xE2, 0x80, 0x93, 0x41] [rule_nbsp, rule_e2, rule_long]).total_changes + 1) :=
  ⟨by decide, by decide, by decide, by decide,
    (first_matching_rule_wins (prime [0xE2, 0x80, 0x93, 0x41] [rule_nbsp, rule_e2, rule_long])
      1 rule_e2 (by decide) (by decide) (by
        intro j u hj hu
        have hj0 : j = 0 := by omega
        subst hj0
        simp [prime] at hu
        subst hu
        decide)).2.2.2.2⟩

/-! ## Claim C10: a second run on the output of the first -/

/-- C10, amended: for every mailbox file and every well-formed table whose
replacement bytes and the zero byte occur in no search string, the run ends,
and a second run with the same table on the file that the first run has left
ends too, makes no substitution (`total_changes = 0`) and leaves the file
unchanged. -/
theorem second_run_changes_nothing (file : List Nat) (table : List translation_t)
    (hw : well_formed table)
    (hdisj : ∀ t ∈ table, ∀ j, j < t.repllen → nonpattern table (t.repl.getD j 0))
    (hzero : nonpattern table 0) :
    (∃ K1 s1, run K1 file table = some s1) ∧
    ∀ K1 s1, run K1 file table = some s1 →
      ∃ K2 s2, run K2 s1.file table = some s2 ∧ s2.total_changes = 0 ∧ s2.file = s1.file := by
  constructor
  · obtain ⟨K, hK⟩ : ∃ K, K = file.length + 2 * BLKSIZE + 3 := ⟨_, rfl⟩
    exact ⟨K, _, run_of_done file table K (run_terminates file table hw K (by omega))⟩
  · intro K1 s1 h1
    have hst := run_result_stable file table hw hdisj hzero K1 s1 (run_eq_some _ _ _ _ h1)
    obtain ⟨K, hK⟩ : ∃ K, K = s1.file.length + 2 * BLKSIZE + 3 := ⟨_, rfl⟩
    have hdone := run_terminates s1.file table hw K (by omega)
    have hcl := clean_run s1.file table hw hdisj hzero hst K
    exact ⟨K, _, run_of_done s1.file table K hdone, hcl.1, hcl.2.2.2⟩

/-- C10 as stated fails: with the rules `E2 80 93 -> "-"` and `00 -> "x"` no
replacement byte (`2D`, `78`) occurs in a search string (`E2 80 93`, `00`), the
run on the file `E2 80 93` leaves `2D 00 00`, and the second run on that file
makes two substitutions and leaves `2D 78 78`: the zero bytes that pad a
shortened replacement are matched by the second rule. -/
theorem second_run_changes_zero_bytes :
    (∀ t ∈ [rule_en_dash, rule_nul], ∀ j, j < t.repllen →
      ∀ u ∈ [rule_en_dash, rule_nul], ∀ k, k < u.srchlen →
        u.srch.getD k 0 ≠ t.repl.getD j 0) ∧
    (run 10 [0xE2, 0x80, 0x93] [rule_en_dash, rule_nul]).map (fun s => s.file)
      = some [0x2D, 0, 0] ∧
    (run 10 [0x2D, 0, 0] [rule_en_dash, rule_nul]).map (fun s => (s.total_changes, s.file))
      = some (2, [0x2D, 0x78, 0x78]) := by
  decide

/-- C10, amended, at the rules `E2 80 93 -> "-"` and `C2 A0 -> " "` and the
sixteen bytes of `hello_file`. -/
theorem second_run_changes_nothing_witness :
    well_formed [rule_en_dash, rule_nbsp] ∧
    (∀ t ∈ [rule_en_dash, rule_nbsp], ∀ j, j < t.repllen →
      nonpattern [rule_en_dash, rule_nbsp] (t.repl.getD j 0)) ∧
    nonpattern [rule_en_dash, rule_nbsp] 0 ∧
    ((∃ K1 s1, run K1 hello_file [rule_en_dash, rule_nbsp] = some s1) ∧
      ∀ K1 s1, run K1 hello_file [rule_en_dash, rule_nbsp] = some s1 →
        ∃ K2 s2, run K2 s1.file [rule_en_dash, rule_nbsp] = some s2 ∧
          s2.total_changes = 0 ∧ s2.file = s1.file) :=
  ⟨by unfold well_formed; decide, by unfold nonpattern; decide, by unfold nonpattern; decide,
    second_run_changes_nothing hello_file [rule_en_dash, rule_nbsp]
      (by unfold well_formed; decide) (by unfold nonpattern; decide)
      (by unfold nonpattern; decide)⟩

/-! ## Claim C11: an invalid rule line and the mailbox -/

/-- The translations file of the one line ` E2809 "-"`, with a leading space. -/
theorem read_translations_five_digits (line0 : Nat → Nat) :
    read_translations line0 (chars_of " E2809 \"-\"\n") = Except.ok [rule_five_digits] := by
  have h : fgets_lines (chars_of " E2809 \"-\"\n") = [chars_of " E2809 \"-\"\n"] := by decide
  rw [read_translations, h]
  simp [read_lines, process_line, skip_spaces, parse_hex, parse_repl, store_line, hex_value,
    zero_translation, MAX_STR, LINESIZE, MAX_TRANSLATIONS, chars_of, rule_five_digits]

/-- C11 fails on the translations file of the one line ` E2809 "-"` (a leading
space, five hex digits) and the mailbox `E2 80 93`: the line has an odd number
of hex digits, yet `read_translations` ends normally, `main` opens the mailbox
and the run leaves `2D 00 93` in it. -/
theorem main_changes_mailbox_after_odd_hex (line0 : Nat → Nat) :
    (main 10 line0 (chars_of " E2809 \"-\"\n") [0xE2, 0x80, 0x93]).map
        (fun r => r.map (fun s => s.file))
      = Except.ok (some [0x2D, 0, 0x93]) := by
  rw [main, read_translations_five_digits]
  decide

/-! ## Claim C12: the rule that a rule line stores -/

theorem hex_value_lt (c v : Nat) (h : hex_value c = some v) : v < 16 := by
  unfold hex_value at h
  split_ifs at h <;> simp at h <;> omega

theorem nibbles_byte : ∀ v1, v1 < 16 → ∀ v2, v2 < 16 →
    (((((0 <<< 4) ||| v1) % 256) <<< 4) ||| v2) % 256 = 16 * v1 + v2 := by
  decide

theorem getD_set_self (l : List Nat) (i x : Nat) (h : i < l.length) :
    (l.set i x).getD i 0 = x := by
  simp [List.getD_eq_getElem?_getD, List.getElem?_set, h]

theorem getD_set_other (l : List Nat) (i j x : Nat) (h : i ≠ j) :
    (l.set i x).getD j 0 = l.getD j 0 := by
  simp [List.getD_eq_getElem?_getD, List.getElem?_set, h]

theorem hex_value_ne_space (c v : Nat) (h : hex_value c = some v) : c ≠ 32 := by
  intro hc
  rw [hc, hex_value_space] at h
  cases h

/-- Two hex digits fill one byte of `srch`. -/
theorem parse_hex_two (line : Nat → Nat) (fuel i chrndx v1 v2 : Nat) (tp : translation_t)
    (hv1 : hex_value (line chrndx) = some v1) (hv2 : hex_value (line (chrndx + 1)) = some v2)
    (hi : i < MAX_STR) (hlen : tp.srch.length = MAX_STR) (hz : tp.srch.getD i 0 = 0) :
    parse_hex line (fuel + 2) (2 * i) chrndx tp
      = parse_hex line fuel (2 * (i + 1)) (chrndx + 2)
          { tp with srch := tp.srch.set i (16 * v1 + v2), srchlen := tp.srchlen + 1 } := by
  have hM : MAX_STR = 4 := rfl
  have e1 : (2 * i) >>> 1 = i := by rw [Nat.shiftRight_eq_div_pow]; omega
  have e2 : (2 * i + 1) >>> 1 = i := by rw [Nat.shiftRight_eq_div_pow]; omega
  have e3 : (2 * i) &&& 1 = 0 := by rw [Nat.and_one_is_mod]; omega
  have e4 : (2 * i + 1) &&& 1 = 1 := by rw [Nat.and_one_is_mod]; omega
  rw [parse_hex, if_neg (hex_value_ne_space _ _ hv1), hv1]
  simp only
  rw [if_pos (by omega), parse_hex, if_neg (hex_value_ne_space _ _ hv2), hv2]
  simp only
  rw [if_pos (by omega), e1, e2, e3, e4, hz, getD_set_self _ _ _ (by omega), List.set_set,
    nibbles_byte v1 (hex_value_lt _ _ hv1) v2 (hex_value_lt _ _ hv2)]
  simp only [if_pos, if_neg, Nat.zero_ne_one, if_false, if_true]
  rfl

/-- The hex loop on `2 * k` hex digits and a space: it ends at the space, with
`k` more bytes in `srch`. -/
theorem parse_hex_pairs (line : Nat → Nat) (k : Nat) :
    ∀ fuel i chrndx tp, 2 * k < fuel → i + k ≤ MAX_STR → tp.srch.length = MAX_STR →
      (∀ j, i ≤ j → tp.srch.getD j 0 = 0) →
      (∀ j, j < 2 * k → hex_value (line (chrndx + j)) ≠ none) → line (chrndx + 2 * k) = 32 →
      ∃ tp1, parse_hex line fuel (2 * i) chrndx tp = Except.ok (chrndx + 2 * k + 1, tp1) ∧
        tp1.srch.length = MAX_STR ∧ tp1.srchlen = tp.srchlen + k ∧
        (∀ j, j < i → tp1.srch.getD j 0 = tp.srch.getD j 0) ∧
        (∀ j, j < k → tp1.srch.getD (i + j) 0
            = hex_byte (line (chrndx + 2 * j)) (line (chrndx + 2 * j + 1))) ∧
        tp1.repl = tp.repl ∧ tp1.repllen = tp.repllen ∧ tp1.used = tp.used := by
  have hM : MAX_STR = 4 := rfl
  induction k with
  | zero =>
      intro fuel i chrndx tp hf _ hlen _ _ hsp
      cases fuel with
      | zero => omega
      | succ f =>
          refine ⟨tp, ?_, hlen, rfl, fun _ _ => rfl, fun j hj => by omega, rfl, rfl, rfl⟩
          rw [parse_hex, if_pos (by simpa using hsp)]
  | succ k ih =>
      intro fuel i chrndx tp hf hik hlen hz hhex hsp
      obtain ⟨f, rfl⟩ : ∃ f, fuel = f + 2 := ⟨fuel - 2, by omega⟩
      have h0 := hhex 0 (by omega)
      have h1 := hhex 1 (by omega)
      rw [Nat.add_zero] at h0
      obtain ⟨v1, hv1⟩ := Option.ne_none_iff_exists'.mp h0
      obtain ⟨v2, hv2⟩ := Option.ne_none_iff_exists'.mp h1
      rw [parse_hex_two line f i chrndx v1 v2 tp hv1 hv2 (by omega) hlen (hz i (le_refl _))]
      obtain ⟨tp1, e1, e2, e3, e4, e5, e6, e7, e8⟩ := ih f (i + 1) (chrndx + 2)
        { tp with srch := tp.srch.set i (16 * v1 + v2), srchlen := tp.srchlen + 1 }
        (by omega) (by omega) (by simpa using hlen)
        (fun j hj => by
          show (tp.srch.set i (16 * v1 + v2)).getD j 0 = 0
          rw [getD_set_other _ _ _ _ (by omega)]
          exact hz j (by omega))
        (fun j hj => by
          have := hhex (j + 2) (by omega)
          rwa [show chrndx + 2 + j = chrndx + (j + 2) by omega])
        (by rwa [show chrndx + 2 + 2 * k = chrndx + 2 * (k + 1) by omega])
      refine ⟨tp1, ?_, e2, ?_, ?_, ?_, e6, e7, e8⟩
      · rw [e1]
        congr 2
        omega
      · rw [e3]
        show tp.srchlen + 1 + k = _
        omega
      · intro j hj
        rw [e4 j (by omega)]
        exact getD_set_other _ _ _ _ (by omega)
      · intro j hj
        cases j with
        | zero =>
            rw [Nat.add_zero, e4 i (by omega)]
            show (tp.srch.set i (16 * v1 + v2)).getD i 0 = _
            rw [getD_set_self _ _ _ (by omega)]
            simp only [hex_byte, Nat.mul_zero, Nat.add_zero, hv1, hv2, Option.getD_some]
        | succ j =>
            have := e5 j (by omega)
            rw [show i + (j + 1) = i + 1 + j by omega, this]
            congr 2 <;> omega

/-- The replacement loop on `m` characters and the closing delimiter: it ends
at the delimiter, with the `m` characters in `repl`. -/
theorem parse_repl_chars (line : Nat → Nat) (delim : Nat) (m : Nat) :
    ∀ fuel rndx chrndx tp, m < fuel → rndx + m ≤ MAX_STR → chrndx + m < LINESIZE →
      tp.repl.length = MAX_STR →
      (∀ j, j < m → line (chrndx + j) ≠ delim) → line (chrndx + m) = delim →
      ∃ tp1, parse_repl line delim fuel rndx chrndx tp = Except.ok tp1 ∧
        tp1.repl.length = MAX_STR ∧ tp1.repllen = tp.repllen + m ∧
        (∀ j, j < rndx → tp1.repl.getD j 0 = tp.repl.getD j 0) ∧
        (∀ j, j < m → tp1.repl.getD (rndx + j) 0 = line (chrndx + j)) ∧
        tp1.srch = tp.srch ∧ tp1.srchlen = tp.srchlen ∧ tp1.used = tp.used := by
  have hM : MAX_STR = 4 := rfl
  induction m with
  | zero =>
      intro fuel rndx chrndx tp hf _ hc hlen _ hd
      cases fuel with
      | zero => omega
      | succ f =>
          refine ⟨tp, ?_, hlen, rfl, fun _ _ => rfl, fun j hj => by omega, rfl, rfl, rfl⟩
          rw [parse_repl, if_neg (by omega), if_pos (by simpa using hd)]
  | succ m ih =>
      intro fuel rndx chrndx tp hf hr hc hlen hne hd
      cases fuel with
      | zero => omega
      | succ f =>
          have h0 := hne 0 (by omega)
          rw [Nat.add_zero] at h0
          rw [parse_repl, if_neg (by omega), if_neg h0, if_pos (by omega)]
          obtain ⟨tp1, e1, e2, e3, e4, e5, e6, e7, e8⟩ := ih f (rndx + 1) (chrndx + 1)
            { tp with repl := tp.repl.set rndx (line chrndx), repllen := tp.repllen + 1 }
            (by omega) (by omega) (by omega) (by simpa using hlen)
            (fun j hj => by
              have := hne (j + 1) (by omega)
              rwa [show chrndx + 1 + j = chrndx + (j + 1) by omega])
            (by rwa [show chrndx + 1 + m = chrndx + (m + 1) by omega])
          refine ⟨tp1, e1, e2, ?_, ?_, ?_, e6, e7, e8⟩
          · rw [e3]
            show tp.repllen + 1 + m = _
            omega
          · intro j hj
            rw [e4 j (by omega)]
            exact getD_set_other _ _ _ _ (by omega)
          · intro j hj
            cases j with
            | zero =>
                rw [Nat.add_zero, Nat.add_zero, e4 rndx (by omega)]
                exact getD_set_self _ _ _ (by omega)
            | succ j =>
                have := e5 j (by omega)
                rw [show rndx + (j + 1) = rndx + 1 + j by omega, this]
                congr 1; omega

/-- The characters of a rule line in the array `line`, by position. -/
theorem rule_line_chars (line : Nat → Nat) (hex : List Nat) (b delim : Nat)
    (repl rest : List Nat) (hlen : (rule_line hex b delim repl rest).length < LINESIZE) :
    (∀ j, j < hex.length → store_line line (rule_line hex b delim repl rest) j = hex.getD j 0) ∧
    (∀ j, j < b + 1 → store_line line (rule_line hex b delim repl rest) (hex.length + j) = 32) ∧
    store_line line (rule_line hex b delim repl rest) (hex.length + (b + 1)) = delim ∧
    (∀ j, j < repl.length →
      store_line line (rule_line hex b delim repl rest) (hex.length + (b + 1) + 1 + j)
        = repl.getD j 0) ∧
    store_line line (rule_line hex b delim repl rest) (hex.length + (b + 1) + 1 + repl.length)
      = delim := by
  have hl : (rule_line hex b delim repl rest).length
      = hex.length + (b + 1 + (1 + (repl.length + (1 + rest.length)))) := by
    simp only [rule_line, List.length_append, List.length_replicate, List.length_cons]
    omega
  have f4 : ∀ j, hex.length + (b + 1) + j < (rule_line hex b delim repl rest).length →
      store_line line (rule_line hex b delim repl rest) (hex.length + (b + 1) + j)
        = (delim :: (repl ++ delim :: rest)).getD j 0 := by
    intro j hj
    rw [store_line_lt _ _ _ hj]
    unfold rule_line
    have h2 := getD_append_right_add (List.replicate (b + 1) 32)
      (delim :: (repl ++ delim :: rest)) j
    rw [List.length_replicate] at h2
    rw [show hex.length + (b + 1) + j = hex.length + ((b + 1) + j) by omega,
      getD_append_right_add, h2]
  refine ⟨?_, ?_, ?_, ?_, ?_⟩
  · intro j hj
    rw [store_line_lt _ _ _ (by omega)]
    unfold rule_line
    rw [getD_append_left_lt _ _ _ hj]
  · intro j hj
    rw [store_line_lt _ _ _ (by omega)]
    unfold rule_line
    rw [getD_append_right_add, getD_append_left_lt _ _ _ (by simpa using hj),
      getD_replicate_lt _ _ _ hj]
  · have := f4 0 (by omega)
    rw [Nat.add_zero] at this
    rw [this]; rfl
  · intro j hj
    have := f4 (1 + j) (by omega)
    rw [show hex.length + (b + 1) + 1 + j = hex.length + (b + 1) + (1 + j) by omega, this,
      show 1 + j = j + 1 by omega, List.getD_cons_succ, getD_append_left_lt _ _ _ hj]
  · have := f4 (1 + repl.length) (by omega)
    rw [show hex.length + (b + 1) + 1 + repl.length
        = hex.length + (b + 1) + (1 + repl.length) by omega, this,
      show 1 + repl.length = repl.length + 1 by omega, List.getD_cons_succ]
    have := getD_append_right_add repl (delim :: rest) 0
    rw [Nat.add_zero] at this
    rw [this]; rfl

/-- C12, amended: let a rule line of fewer than `LINESIZE` characters be made of
`2 * k` hex digits (`k` from 1 to 4, upper or lower case), one or more spaces, a
delimiter (`"` or `'`), a string `repl` of at most `k` characters without that
delimiter, the delimiter again and any rest, and let it be read while fewer
than `MAX_TRANSLATIONS - 1` rules are stored. Then the loop body of
`read_translations` appends exactly one rule to the table: its search bytes are
the `k` bytes that the hex digits denote, `srchlen = k`, its replacement is
`repl`, `repllen` is the length of `repl`, and its `used` counter is 0. -/
theorem rule_line_stored (line : Nat → Nat) (table : List translation_t)
    (hex repl rest : List Nat) (b delim k : Nat)
    (hk1 : 1 ≤ k) (hk4 : k ≤ MAX_STR) (hhexlen : hex.length = 2 * k)
    (hhex : ∀ c ∈ hex, hex_value c ≠ none) (hdelim : delim = 34 ∨ delim = 39)
    (hrepl : repl.length ≤ k) (hnd : delim ∉ repl)
    (hlen : (rule_line hex b delim repl rest).length < LINESIZE)
    (hroom : table.length + 1 < MAX_TRANSLATIONS) :
    ∃ tp, process_line (store_line line (rule_line hex b delim repl rest)) table
        = Except.ok (table ++ [tp]) ∧
      tp.srchlen = k ∧
      (∀ j, j < k → tp.srch.getD j 0 = hex_byte (hex.getD (2 * j) 0) (hex.getD (2 * j + 1) 0)) ∧
      tp.repllen = repl.length ∧ (∀ j, j < repl.length → tp.repl.getD j 0 = repl.getD j 0) ∧
      tp.used = 0 := by
  have hM : MAX_STR = 4 := rfl
  have hL : LINESIZE = 80 := rfl
  obtain ⟨g1, g2, g3, g4, g5⟩ := rule_line_chars line hex b delim repl rest hlen
  have hl : (rule_line hex b delim repl rest).length
      = hex.length + (b + 1 + (1 + (repl.length + (1 + rest.length)))) := by
    simp only [rule_line, List.length_append, List.length_replicate, List.length_cons]
    omega
  generalize store_line line (rule_line hex b delim repl rest) = L at g1 g2 g3 g4 g5 ⊢
  have hhexv : ∀ j, j < 2 * k → hex_value (L (0 + j)) ≠ none := by
    intro j hj
    rw [Nat.zero_add, g1 j (by omega)]
    exact hhex _ (getD_mem hex j (by omega))
  have hdelim32 : delim ≠ 32 := by rcases hdelim with h | h <;> omega
  have hfirst : hex_value (L 0) ≠ none := hhexv 0 (by omega)
  have hskip0 : skip_spaces L LINESIZE 0 = 0 :=
    skip_spaces_run L 0 LINESIZE 0 (by omega) (fun j hj => by omega) (by
      intro hc
      have hc1 : L 0 = 32 := hc
      rw [hc1] at hfirst
      exact hfirst hex_value_space)
  obtain ⟨tp1, hph, p1, p2, _, p4, p5, p6, p7⟩ := parse_hex_pairs L k (MAX_STR * 2 + 1) 0 0
    zero_translation (by omega) (by omega) (by simp [zero_translation])
    (fun j _ => by
      simp only [zero_translation, List.getD_eq_getElem?_getD, List.getElem?_replicate]
      split_ifs <;> rfl)
    hhexv (by have := g2 0 (by omega); rwa [Nat.add_zero, hhexlen, ← Nat.zero_add (2 * k)] at this)
  rw [Nat.mul_zero, Nat.zero_add] at hph
  have hskip1 : skip_spaces L LINESIZE (2 * k + 1) = hex.length + (b + 1) := by
    have := skip_spaces_run L b LINESIZE (2 * k + 1) (by omega)
      (fun j hj => by
        have := g2 (1 + j) (by omega)
        rwa [show hex.length + (1 + j) = 2 * k + 1 + j by omega] at this) (by
        rw [show 2 * k + 1 + b = hex.length + (b + 1) by omega, g3]
        exact hdelim32)
    rw [this]; omega
  obtain ⟨tp2, hpr, q1, q2, _, q4, q5, q6, q7⟩ := parse_repl_chars L delim repl.length
    (MAX_STR + 1) 0 (hex.length + (b + 1) + 1) tp1 (by omega) (by omega) (by omega)
    (by rw [p5]; simp [zero_translation])
    (fun j hj => by
      rw [g4 j hj]
      intro hc
      exact hnd (hc ▸ getD_mem repl j hj)) g5
  have hz1 : zero_translation.srchlen = 0 := rfl
  have hz2 : zero_translation.repllen = 0 := rfl
  have hz3 : zero_translation.used = 0 := rfl
  refine ⟨tp2, ?_, by omega, ?_, by omega, ?_, by rw [q7, p7, hz3]⟩
  · unfold process_line
    simp only
    rw [hskip0, if_neg (by
      intro hc
      rcases hc with hc | hc <;> (rw [hc] at hfirst; exact hfirst (by decide))), hph]
    simp only
    rw [if_neg (by rw [Nat.and_one_is_mod]; omega), if_neg (by omega), hskip1, g3,
      if_neg (not_not.mpr hdelim), hpr]
    simp only
    rw [if_pos (by omega)]
  · intro j hj
    rw [q5]
    have := p4 j hj
    simp only [Nat.zero_add] at this
    rw [this, g1 _ (by omega), g1 _ (by omega)]
  · intro j hj
    have := q4 j hj
    simp only [Nat.zero_add] at this
    rw [this, g4 j hj]

/-- C12 as stated fails on two rule lines of the shape it describes: the line
`E28093`, 73 spaces, `"-"` is longer than what `fgets` delivers at once, and
`read_translations` stops with a failed `assert`; and in a file of 250 lines
`C2A0 " "` the first 249 are stored and the 250th stops `read_translations`
with the message `too many translations`. -/
theorem rule_line_not_stored :
    read_translations (fun _ => 0) (rule_line (chars_of "E28093") 72 34 (chars_of "-") [10])
      = Except.error (Fault.assertion "missing string delimiter") ∧
    read_translations (fun _ => 0) (nbsp_lines 249) = Except.ok (List.replicate 249 rule_nbsp) ∧
    read_translations (fun _ => 0) (nbsp_lines 250)
      = Except.error (Fault.assertion "too many translations") := by
  decide!

/-- C12, amended, at the documented line `E28093 "-"    En dash`, and the table
that `read_translations` stores for the two documented lines `E28093 "-"` and
`E2809C '"'`. -/
theorem rule_line_stored_witness :
    rule_line (chars_of "E28093") 0 34 (chars_of "-") (chars_of "    En dash\n")
      = chars_of "E28093 \"-\"    En dash\n" ∧
    (rule_line (chars_of "E28093") 0 34 (chars_of "-") (chars_of "    En dash\n")).length
      < LINESIZE ∧
    (∃ tp, process_line (store_line (fun _ => 0)
          (rule_line (chars_of "E28093") 0 34 (chars_of "-") (chars_of "    En dash\n"))) []
        = Except.ok ([] ++ [tp]) ∧
      tp.srchlen = 3 ∧
      (∀ j, j < 3 → tp.srch.getD j 0
        = hex_byte ((chars_of "E28093").getD (2 * j) 0) ((chars_of "E28093").getD (2 * j + 1) 0)) ∧
      tp.repllen = (chars_of "-").length ∧
      (∀ j, j < (chars_of "-").length → tp.repl.getD j 0 = (chars_of "-").getD j 0) ∧
      tp.used = 0) ∧
    read_translations (fun _ => 0)
        (chars_of "E28093 \"-\"    En dash\nE2809C '\"'    left double quote\n")
      = Except.ok [rule_en_dash,
          { srch := [0xE2, 0x80, 0x9C, 0], srchlen := 3, repl := [0x22, 0, 0, 0], repllen := 1,
            used := 0 }] :=
  ⟨by decide, by decide,
    rule_line_stored (fun _ => 0) [] (chars_of "E28093") (chars_of "-")
      (chars_of "    En dash\n") 0 34 3 (by decide) (by decide) (by decide) (by decide)
      (by decide) (by decide) (by decide) (by decide) (by decide),
    by decide⟩

/-! ## Claim C13: the comment of a rule line -/

/-- C13 fails on a rule line with a long comment: with the comment `En dash`
the line `E28093 "-"` gives the table of that one rule; with a comment that
fills the line up to 79 characters and goes on with `C2A0 " "`, the table has
a second rule, taken from the comment. -/
theorem long_comment_is_parsed :
    read_translations (fun _ => 0) (chars_of "E28093 \"-\" En dash\n")
      = Except.ok [rule_en_dash] ∧
    read_translations (fun _ => 0)
        (chars_of "E28093 \"-\" " ++ (List.replicate 68 0x78 ++ chars_of "C2A0 \" \"\n"))
      = Except.ok [rule_en_dash, rule_nbsp] := by
  decide

/-! ## Claim C14: the comparison and the valid data -/

/-- C14 fails on the empty mailbox with the rule `00 -> "x"`, where the run
ends with `total_changes = 1`, and on the mailbox `41 E2` with the rule
`E2 00 -> "-"`, whose last byte becomes `2D` although `E2 00` does not occur in
the file: the comparison takes the zero byte behind the valid data. -/
theorem match_uses_bytes_behind_the_data :
    (prime [] [rule_nul]).bufferlen = 0 ∧
    (run 5 [] [rule_nul]).map (fun s => (s.total_changes, s.file)) = some (1, []) ∧
    occurs_at [0x41, 0xE2] 1 rule_e2_nul = false ∧
    (run 5 [0x41, 0xE2] [rule_e2_nul]).map (fun s => (s.total_changes, s.file))
      = some (1, [0x41, 0x2D]) := by
  decide

/-! ## Claim C15: one pass through the loop over the table -/

/-- C15: let the program stand before the `for` loop over the table, at
`bufferpos = p`, with a table in which every rule has `1 <= srchlen` and
`repllen <= srchlen`. If some rule matches at `p`, then for the first such rule
`t`, which is the one applied, after `++bufferpos` the pointer is
`p + t.srchlen`, the buffer holds the replacement at `p .. p + repllen - 1`,
zeros at `p + repllen .. p + srchlen - 1` and its old bytes elsewhere. If no
rule matches, the pointer is `p + 1` and the buffer is unchanged. -/
theorem scan_iteration_effect (s : State)
    (hw : ∀ t ∈ s.translation, 1 ≤ t.srchlen ∧ t.repllen ≤ t.srchlen) :
    ((∃ u ∈ s.translation, memcmp_eq s.buffer s.bufferpos u.srch u.srchlen = true) →
      ∃ (x : Nat) (t : translation_t), s.translation[x]? = some t ∧
        memcmp_eq s.buffer s.bufferpos t.srch t.srchlen = true ∧
        (∀ (j : Nat) (u : translation_t), j < x → s.translation[j]? = some u →
          memcmp_eq s.buffer s.bufferpos u.srch u.srchlen = false) ∧
        (advance (try_translations s)).bufferpos = s.bufferpos + t.srchlen ∧
        ∀ i, (advance (try_translations s)).buffer i
          = if s.bufferpos ≤ i ∧ i < s.bufferpos + t.repllen then
              t.repl.getD (i - s.bufferpos).toNat 0
            else if s.bufferpos + t.repllen ≤ i ∧ i < s.bufferpos + t.srchlen then 0
            else s.buffer i) ∧
    ((∀ u ∈ s.translation, memcmp_eq s.buffer s.bufferpos u.srch u.srchlen = false) →
      (advance (try_translations s)).bufferpos = s.bufferpos + 1 ∧
        (advance (try_translations s)).buffer = s.buffer) := by
  constructor
  · rintro ⟨u, hu, hm⟩
    rcases try_from_cases s s.translation 0 with ⟨hnone, _⟩ | ⟨x, t, hx, hmt, hfirst, htry⟩
    · rw [hnone u hu] at hm
      cases hm
    · refine ⟨x, t, hx, hmt, hfirst, ?_, ?_⟩
      · show (try_translations s).bufferpos + 1 = _
        rw [try_translations, htry, substitute_bufferpos s _ t (hw t (List.getElem?_mem hx)).2]
        omega
      · intro i
        show (try_translations s).buffer i = _
        rw [try_translations, htry]
        exact substitute_buffer s _ t i
  · intro hnone
    have h : try_translations s = s := try_from_none s s.translation 0 hnone
    rw [h]
    exact ⟨rfl, rfl⟩

/-- C15 at the start of the run on the mailbox `E2 80 93 41` with the rules
`C2 A0 -> " "` and `E2 80 93 -> "-"`, where the second rule matches. -/
theorem scan_iteration_effect_witness :
    (∀ t ∈ (prime [0xE2, 0x80, 0x93, 0x41] [rule_nbsp, rule_en_dash]).translation,
      1 ≤ t.srchlen ∧ t.repllen ≤ t.srchlen) ∧
    ∃ (x : Nat) (t : translation_t),
      (prime [0xE2, 0x80, 0x93, 0x41] [rule_nbsp, rule_en_dash]).translation[x]? = some t ∧
      (advance (try_translations
          (prime [0xE2, 0x80, 0x93, 0x41] [rule_nbsp, rule_en_dash]))).bufferpos
        = (prime [0xE2, 0x80, 0x93, 0x41] [rule_nbsp, rule_en_dash]).bufferpos + t.srchlen :=
  ⟨by decide,
    match (scan_iteration_effect (prime [0xE2, 0x80, 0x93, 0x41] [rule_nbsp, rule_en_dash])
      (by decide)).1 ⟨rule_en_dash, by decide, by decide⟩ with
    | ⟨x, t, h1, _, _, h4, _⟩ => ⟨x, t, h1, h4⟩⟩

/-! ## Claim C16: the end of the scan loop -/

/-- With a first rule whose search string and replacement are empty, the scan
loop on a file that is not empty stays at the first byte for ever. -/
theorem empty_search_loops (file : List Nat) (hfile : file ≠ []) (k : Nat) :
    ∀ table, (∃ t rest, table = t :: rest ∧ t.srchlen = 0 ∧ t.repllen = 0) →
    ∃ s, program_point file table k = (Phase.scan, s) ∧ s.bufferpos = 0 ∧ 0 < s.bufferlen ∧
      s.filepos1st = 0 ∧ s.total_changes = wrap32 (k : Int) ∧ s.file = file ∧
      ∃ t rest, s.translation = t :: rest ∧ t.srchlen = 0 ∧ t.repllen = 0 := by
  intro table htable
  induction k with
  | zero =>
      refine ⟨prime file table, rfl, rfl, ?_, rfl, rfl, rfl, htable⟩
      show (0 : Int) < ((fread file 0 BLKSIZE).length : Int)
        + ((fread file (fread file 0 BLKSIZE).length BLKSIZE).length : Int)
      have h1 : 0 < file.length := List.length_pos.mpr hfile
      have h2 : 0 < (fread file 0 BLKSIZE).length := by
        rw [fread_length]
        have := BLKSIZE_eq
        omega
      omega
  | succ k ih =>
      obtain ⟨s, hs, h1, h2, h3, h4, h5, t, rest, h6, h7, h8⟩ := ih
      have hchk : chk_buffer false s = s := by
        unfold chk_buffer
        rw [if_neg]
        rw [h1]
        simp [BLKSIZE]
      have hm : memcmp_eq s.buffer s.bufferpos t.srch t.srchlen = true := by
        rw [memcmp_eq_iff]
        intro j hj
        omega
      have htry : try_translations s = substitute s 0 t := by
        rw [try_translations, h6, try_from, if_pos hm]
      have hbody : scan_body s = advance (substitute s 0 t) := by
        rw [scan_body, hchk, htry]
      have hpos : (scan_body s).bufferpos = 0 := by
        rw [hbody]
        show (substitute s 0 t).bufferpos + 1 = 0
        rw [substitute_bufferpos s 0 t (by omega), h1, h7]
        simp
      have hlen : (scan_body s).bufferlen = s.bufferlen := by rw [hbody]; rfl
      refine ⟨scan_body s, ?_, hpos, by rw [hlen]; exact h2, by rw [hbody]; exact h3,
        by
          rw [hbody]
          show wrap32 (s.total_changes + 1) = wrap32 ((k + 1 : Nat) : Int)
          rw [h4, wrap32_add_one]
          push_cast
          rfl, by rw [hbody]; exact h5, ?_⟩
      · show step (program_point file table k) = _
        rw [hs]
        simp only [step]
        rw [if_pos (by rw [hpos, hlen]; exact h2)]
      · refine ⟨{ t with used := wrap32 (t.used + 1) }, rest, ?_, h7, h8⟩
        rw [hbody]
        show incr_used 0 s.translation = _
        rw [h6]
        rfl

/-- The translations file of one line: a space, `E`, a space, two double quotes. -/
theorem read_translations_odd (line0 : Nat → Nat) :
    read_translations line0 (chars_of " E \"\"\n") = Except.ok [rule_odd] := by
  have h : fgets_lines (chars_of " E \"\"\n") = [[32, 69, 32, 34, 34, 10]] := by decide
  rw [read_translations, h]
  simp [read_lines, process_line, skip_spaces, parse_hex, parse_repl, store_line, hex_value,
    zero_translation, MAX_STR, LINESIZE, MAX_TRANSLATIONS, rule_odd]

/-- C16 fails on the translations file of the one line made of a space, `E`, a
space and two double quotes, and the mailbox `41`: `read_translations` stores
a rule with a search string of length 0, which matches at every position and
does not move the pointer; at every iteration the program is in the scan loop
with the cursor at file position 0, `total_changes` is the 32-bit count of the
iterations, and no number of iterations ends the run. -/
theorem scan_loop_never_ends (line0 : Nat → Nat) :
    read_translations line0 (chars_of " E \"\"\n") = Except.ok [rule_odd] ∧
    ∀ k, (program_point [0x41] [rule_odd] k).1 = Phase.scan ∧
      cursor (program_point [0x41] [rule_odd] k).2 = 0 ∧
      (program_point [0x41] [rule_odd] k).2.total_changes = wrap32 (k : Int) ∧
      run k [0x41] [rule_odd] = none := by
  refine ⟨read_translations_odd line0, fun k => ?_⟩
  obtain ⟨s, hs, h1, h2, h3, h4, _⟩ :=
    empty_search_loops [0x41] (by simp) k [rule_odd] ⟨rule_odd, [], rfl, rfl, rfl⟩
  rw [run, hs]
  refine ⟨rfl, ?_, h4, rfl⟩
  show (s.filepos1st : Int) + s.bufferpos = 0
  rw [h1, h3]
  rfl

/-! ## Claim C17: the buffer indices of a pass -/

/-- C17: in a run on any file with a table in which every rule has
`1 <= srchlen <= MAX_STR` and `repllen <= srchlen`, in every iteration of the
scan loop, after `chk_buffer(false)` has returned, `0 <= bufferpos < BLKSIZE`;
for every rule the indices `bufferpos .. bufferpos + srchlen - 1`, which the
comparison reads and the substitution with its zero padding writes, lie in
`[0, 2 * BLKSIZE)`: the comparison depends on no byte outside that range, and
the substitution changes no byte outside it. -/
theorem scan_indices_in_buffer (file : List Nat) (table : List translation_t)
    (hw : well_formed table) (k : Nat) (s : State)
    (hk : program_point file table k = (Phase.scan, s)) :
    0 ≤ (chk_buffer false s).bufferpos ∧ (chk_buffer false s).bufferpos < (BLKSIZE : Int) ∧
    (∀ t ∈ (chk_buffer false s).translation, ∀ j : Nat, j < t.srchlen →
      0 ≤ (chk_buffer false s).bufferpos + (j : Int) ∧
        (chk_buffer false s).bufferpos + (j : Int) < 2 * (BLKSIZE : Int)) ∧
    (∀ t ∈ (chk_buffer false s).translation, ∀ b : Int → Nat,
      (∀ i : Int, 0 ≤ i → i < 2 * (BLKSIZE : Int) → b i = (chk_buffer false s).buffer i) →
      memcmp_eq b (chk_buffer false s).bufferpos t.srch t.srchlen
        = memcmp_eq (chk_buffer false s).buffer (chk_buffer false s).bufferpos t.srch t.srchlen) ∧
    (∀ t ∈ (chk_buffer false s).translation, ∀ (x : Nat) (i : Int),
      i < 0 ∨ 2 * (BLKSIZE : Int) ≤ i →
      (substitute (chk_buffer false s) x t).buffer i = (chk_buffer false s).buffer i) := by
  have hB := BLKSIZE_eq
  have hM : MAX_STR = 4 := rfl
  have hinv : ScanInv file table s := by
    have := run_inv file table hw k
    rw [hk] at this
    exact this
  obtain ⟨h1, hp1, _, _⟩ := chk_buffer_false_inv file table s hinv
  have hp0 := h1.pos_nonneg
  have hwf := well_formed_of_same_rules _ _ h1.rules hw
  generalize chk_buffer false s = s1 at h1 hp1 hp0 hwf
  refine ⟨hp0, hp1, ?_, ?_, ?_⟩
  · intro t ht j hj
    obtain ⟨_, w2, _⟩ := hwf t ht
    omega
  · intro t ht b hb
    obtain ⟨_, w2, _⟩ := hwf t ht
    rw [Bool.eq_iff_iff, memcmp_eq_iff, memcmp_eq_iff]
    constructor
    · intro h j hj
      rw [← hb _ (by omega) (by omega)]
      exact h j hj
    · intro h j hj
      rw [hb _ (by omega) (by omega)]
      exact h j hj
  · intro t ht x i hi
    obtain ⟨_, w2, w3⟩ := hwf t ht
    rw [substitute_buffer, if_neg (by omega), if_neg (by omega)]

/-- C17 at the start of the run on `hello_file`. -/
theorem scan_indices_in_buffer_witness :
    well_formed [rule_en_dash, rule_nbsp] ∧
    0 ≤ (chk_buffer false (prime hello_file [rule_en_dash, rule_nbsp])).bufferpos ∧
    (chk_buffer false (prime hello_file [rule_en_dash, rule_nbsp])).bufferpos < (BLKSIZE : Int) :=
  ⟨by unfold well_formed; decide,
    (scan_indices_in_buffer hello_file [rule_en_dash, rule_nbsp] (by unfold well_formed; decide)
      0 (prime hello_file [rule_en_dash, rule_nbsp]) rfl).1,
    (scan_indices_in_buffer hello_file [rule_en_dash, rule_nbsp] (by unfold well_formed; decide)
      0 (prime hello_file [rule_en_dash, rule_nbsp]) rfl).2.1⟩

/-! ## Claim C18: the blocks that are written back -/

theorem try_from_find (s : State) (rest : List translation_t) :
    ∀ base, (rest.find? (fun t => memcmp_eq s.buffer s.bufferpos t.srch t.srchlen) = none ∧
        try_from s base rest = s) ∨
      ∃ t x, rest.find? (fun t => memcmp_eq s.buffer s.bufferpos t.srch t.srchlen) = some t ∧
        t ∈ rest ∧ try_from s base rest = substitute s x t := by
  induction rest with
  | nil => intro base; exact Or.inl ⟨rfl, rfl⟩
  | cons u rest ih =>
      intro base
      by_cases hm : memcmp_eq s.buffer s.bufferpos u.srch u.srchlen = true
      · right
        refine ⟨u, base, ?_, by simp, ?_⟩
        · rw [List.find?_cons, hm]
        · rw [try_from, if_pos hm]
      · have hm1 : memcmp_eq s.buffer s.bufferpos u.srch u.srchlen = false := by
          simpa using hm
        rcases ih (base + 1) with ⟨h1, h2⟩ | ⟨t, x, h1, h2, h3⟩
        · left
          refine ⟨?_, ?_⟩
          · rw [List.find?_cons, hm1]; exact h1
          · rw [try_from, if_neg hm]; exact h2
        · right
          refine ⟨t, x, ?_, by simp [h2], ?_⟩
          · rw [List.find?_cons, hm1]; exact h1
          · rw [try_from, if_neg hm]; exact h3

theorem dirty_inv_mono (n : Nat) (T T1 : Nat → Prop) (s : State) (h : DirtyInv n T s)
    (hT : ∀ i, T i → T1 i) : DirtyInv n T1 s := by
  refine ⟨fun h1 h2 => ?_, fun h1 h2 => ?_⟩
  · obtain ⟨i, a, b⟩ := h.first h1 h2
    exact ⟨i, hT i a, b⟩
  · obtain ⟨i, a, b⟩ := h.second h1 h2
    exact ⟨i, hT i a, b⟩

/-- A slide of the buffer keeps what the dirty flags say. -/
theorem slide_dirty (n : Nat) (T : Nat → Prop) (s : State) (hg : Geom n s)
    (h0 : 0 < s.bufferlen) (h : DirtyInv n T s) : DirtyInv n T (slide s) := by
  have hB := BLKSIZE_eq
  obtain ⟨nb, hnb, h3, hs⟩ := slide_shape n s hg h0
  have hlen : (slide s).bufferlen = s.bufferlen - (BLKSIZE : Int) + nb := by
    rw [slide_bufferlen, hnb]
  refine ⟨fun h1 h2 => ?_, fun h1 _ => ?_⟩
  · have h1a : s.dirty2nd = true := h1
    rw [hlen] at h2
    have hf : (slide s).filepos1st = s.filepos2nd := rfl
    rw [hf]
    rcases hs with ⟨e1, e2, e3, e4, e5⟩ | ⟨e1, e2, e3, e4, e5⟩ | ⟨e1, e2, e3, e4, e5⟩
    · obtain ⟨i, a, b, c, d⟩ := h.second h1a (by omega)
      exact ⟨i, a, by omega, by omega, d⟩
    · obtain ⟨i, a, b, c, d⟩ := h.second h1a (by omega)
      exact ⟨i, a, by omega, by omega, d⟩
    · omega
  · have : (slide s).dirty2nd = false := rfl
    rw [this] at h1
    cases h1

theorem substitute_dirty2nd (s : State) (x : Nat) (t : translation_t)
    (hp : s.bufferpos < (BLKSIZE : Int)) (h : t.repllen ≤ t.srchlen) :
    (substitute s x t).dirty2nd
      = if (BLKSIZE : Int) ≤ s.bufferpos + t.srchlen - 1 then true else s.dirty2nd := by
  simp only [substitute, zero_pad_eq]
  rw [if_pos hp]
  have e : s.bufferpos + ((t.repllen : Int) - 1) + ((((t.srchlen : Int) - t.repllen).toNat : Nat) : Int)
      = s.bufferpos + t.srchlen - 1 := by omega
  rw [e]

/-- A substitution in the first half of the buffer keeps what the dirty flags
say, its bytes being among the written ones. -/
theorem substitute_dirty (n : Nat) (T : Nat → Prop) (s : State) (x : Nat) (t : translation_t)
    (hg : Geom n s) (hp0 : 0 ≤ s.bufferpos) (hpB : s.bufferpos < (BLKSIZE : Int))
    (hstart : s.bufferpos < s.bufferlen ∨ s.bufferpos = 0) (hd : DirtyInv n T s)
    (hw1 : 1 ≤ t.srchlen) (hw3 : t.repllen ≤ t.srchlen)
    (hT : ∀ i, (cursor s).toNat ≤ i → i < (cursor s).toNat + t.srchlen → T i) :
    DirtyInv n T (substitute s x t) := by
  have hB := BLKSIZE_eq
  obtain ⟨h3, hs⟩ := geom_shape n s hg
  have hf : (substitute s x t).filepos1st = s.filepos1st := rfl
  have hl : (substitute s x t).bufferlen = s.bufferlen := rfl
  have hc : (cursor s).toNat = s.filepos1st + s.bufferpos.toNat := by
    unfold cursor; omega
  refine ⟨fun _ h2 => ?_, fun h1 h2 => ?_⟩
  · rw [hl] at h2
    rw [hf]
    refine ⟨(cursor s).toNat, hT _ (le_refl _) (by omega), by omega, by omega, ?_⟩
    rcases hs with ⟨e1, e2, e3⟩ | ⟨e1, e2, e3, e4⟩ | ⟨e1, e2, e3, e4⟩ <;> omega
  · rw [hl] at h2
    rw [hf]
    rw [substitute_dirty2nd s x t hpB hw3] at h1
    by_cases hc2 : (BLKSIZE : Int) ≤ s.bufferpos + t.srchlen - 1
    · refine ⟨s.filepos1st + BLKSIZE, hT _ (by omega) (by omega), le_refl _, by omega, ?_⟩
      rcases hs with ⟨e1, e2, e3⟩ | ⟨e1, e2, e3, e4⟩ | ⟨e1, e2, e3, e4⟩ <;> omega
    · rw [if_neg hc2] at h1
      exact hd.second h1 h2

theorem touched_mono (file : List Nat) (table : List translation_t) (k i : Nat)
    (h : touched file table k i) : touched file table (k + 1) i := by
  obtain ⟨k1, q, len, h1, h2⟩ := h
  exact ⟨k1, q, len, by omega, h2⟩

/-- One loop iteration keeps what the dirty flags say. -/
theorem dirty_step (file : List Nat) (table : List translation_t) (hw : well_formed table)
    (k : Nat)
    (hd : DirtyRun file.length (touched file table k) (program_point file table k)) :
    DirtyRun file.length (touched file table (k + 1)) (program_point file table (k + 1)) := by
  have hB := BLKSIZE_eq
  have hri := run_inv file table hw k
  have hnext : program_point file table (k + 1) = step (program_point file table k) := rfl
  have hsubst : ∀ q len, substitutes (program_point file table k) = some (q, len) →
      ∀ i, q ≤ i → i < q + len → touched file table (k + 1) i :=
    fun q len h i h1 h2 => ⟨k, q, len, Nat.lt_succ_self k, h, h1, h2⟩
  rw [hnext]
  generalize program_point file table k = ps at hd hri hsubst
  obtain ⟨ph, s⟩ := ps
  cases ph with
  | scan =>
      obtain ⟨hd0, hstart⟩ := hd
      obtain ⟨h1, hp1, _, _⟩ := chk_buffer_false_inv file table s hri
      have hd1 : DirtyInv file.length (touched file table k) (chk_buffer false s) ∧
          ((chk_buffer false s).bufferpos < (chk_buffer false s).bufferlen ∨
            (chk_buffer false s).bufferpos = 0) := by
        by_cases hlt : s.bufferpos < (BLKSIZE : Int)
        · rw [chk_buffer_false_of_lt s hlt]
          exact ⟨hd0, hstart⟩
        · rw [chk_buffer_false_of_ge s (by omega)]
          have h0 : 0 < s.bufferlen := by omega
          refine ⟨slide_dirty _ _ s hri.geom h0 hd0, Or.inl ?_⟩
          rw [slide_bufferlen]
          show s.bufferpos - (BLKSIZE : Int) < _
          omega
      have hsub : substitutes (Phase.scan, s)
          = match (chk_buffer false s).translation.find? (fun t =>
              memcmp_eq (chk_buffer false s).buffer (chk_buffer false s).bufferpos
                t.srch t.srchlen) with
            | some t => some ((cursor (chk_buffer false s)).toNat, t.srchlen)
            | none => none := rfl
      have hwf := well_formed_of_same_rules _ _ h1.rules hw
      have hbody : scan_body s = advance (try_translations (chk_buffer false s)) := rfl
      have hp0 := h1.pos_nonneg
      have hg1 := h1.geom
      generalize chk_buffer false s = s1 at hd1 hsub hwf hbody hp1 hp0 hg1
      have hdirty : DirtyInv file.length (touched file table (k + 1)) (scan_body s) := by
        have hmono := dirty_inv_mono _ _ _ s1 hd1.1 (touched_mono file table k)
        rcases try_from_find s1 s1.translation 0 with ⟨_, htry⟩ | ⟨t, x, hsome, hmem, htry⟩
        · rw [hbody, try_translations, htry]
          exact ⟨hmono.first, hmono.second⟩
        · rw [hsome] at hsub
          obtain ⟨w1, _, w3⟩ := hwf t hmem
          have := substitute_dirty file.length _ s1 x t hg1 hp0 hp1 hd1.2 hmono w1 w3
            (hsubst _ _ hsub)
          rw [hbody, try_translations, htry]
          exact ⟨this.first, this.second⟩
      simp only [step]
      split_ifs with hlt
      · exact ⟨hdirty, Or.inl hlt⟩
      · exact hdirty
  | drain =>
      simp only [step]
      split_ifs with h0
      · rw [chk_buffer_true]
        exact slide_dirty _ _ s (hri.2.2 h0).1 h0
          (dirty_inv_mono _ _ _ s hd (touched_mono file table k))
      · trivial
  | done => trivial

theorem dirty_run (file : List Nat) (table : List translation_t) (hw : well_formed table)
    (k : Nat) :
    DirtyRun file.length (touched file table k) (program_point file table k) := by
  induction k with
  | zero =>
      refine ⟨⟨fun h => ?_, fun h => ?_⟩, Or.inr rfl⟩
      · cases h
      · cases h
  | succ k ih => exact dirty_step file table hw k ih

/-- A block is written back only after a substitution has written a byte of it
that lies inside the file; it is written at its block boundary with the number
of bytes it has in the file. -/
theorem written_was_touched (file : List Nat) (table : List translation_t)
    (hw : well_formed table) (k pos cnt : Nat)
    (h : writes_back (program_point file table k) = some (pos, cnt)) :
    BLKSIZE ∣ pos ∧ cnt = min BLKSIZE (file.length - pos) ∧
      ∃ i, touched file table k i ∧ i < file.length ∧ pos ≤ i ∧ i < pos + BLKSIZE := by
  have hB := BLKSIZE_eq
  have hri := run_inv file table hw k
  have hd := dirty_run file table hw k
  generalize program_point file table k = ps at h hri hd
  obtain ⟨ph, s⟩ := ps
  cases ph with
  | scan =>
      simp only [writes_back] at h
      split_ifs at h with hc
      simp only [Option.some.injEq, Prod.mk.injEq] at h
      obtain ⟨hpos, hcnt⟩ := h
      obtain ⟨h3, hs⟩ := geom_shape _ s hri.geom
      have hlen : (BLKSIZE : Int) < s.bufferlen := by
        rcases hd.2 with g | g <;> omega
      obtain ⟨i, a, b, c, d⟩ := hd.1.first hc.2 (by omega)
      refine ⟨hpos ▸ hri.geom.blk, ?_, i, a, d, by omega, by omega⟩
      rcases hs with ⟨e1, e2, e3⟩ | ⟨e1, e2, e3, e4⟩ | ⟨e1, e2, e3, e4⟩ <;> omega
  | drain =>
      simp only [writes_back] at h
      split_ifs at h with hc
      simp only [Option.some.injEq, Prod.mk.injEq] at h
      obtain ⟨hpos, hcnt⟩ := h
      obtain ⟨hg, _, hn⟩ := hri.2.2 hc.1
      obtain ⟨h3, hs⟩ := geom_shape _ s hg
      obtain ⟨i, a, b, c, d⟩ := hd.first hc.2 hc.1
      refine ⟨hpos ▸ hg.blk, ?_, i, a, d, by omega, by omega⟩
      rcases hs with ⟨e1, e2, e3⟩ | ⟨e1, e2, e3, e4⟩ | ⟨e1, e2, e3, e4⟩ <;> omega
  | done => simp [writes_back] at h

/-- The block of a byte inside the file that a substitution writes is written
back in a later loop iteration. -/
theorem touched_is_written (file : List Nat) (table : List translation_t)
    (hw : well_formed table) (k q len i : Nat)
    (h : substitutes (program_point file table k) = some (q, len))
    (hq : q ≤ i) (hi : i < q + len) (hin : i < file.length) :
    ∃ k2, k < k2 ∧ writes_back (program_point file table k2)
      = some (i / BLKSIZE * BLKSIZE, min BLKSIZE (file.length - i / BLKSIZE * BLKSIZE)) := by
  have hB := BLKSIZE_eq
  have hM : MAX_STR = 4 := rfl
  have hri := run_inv file table hw k
  have hnext : program_point file table (k + 1) = step (program_point file table k) := rfl
  generalize hps : program_point file table k = ps at h hri hnext
  obtain ⟨ph, s⟩ := ps
  cases ph with
  | scan =>
      obtain ⟨h1, hp1, _, _⟩ := chk_buffer_false_inv file table s hri
      obtain ⟨g, _⟩ := scan_body_inv file table s hw hri
      have hsub : substitutes (Phase.scan, s)
          = match (chk_buffer false s).translation.find? (fun t =>
              memcmp_eq (chk_buffer false s).buffer (chk_buffer false s).bufferpos
                t.srch t.srchlen) with
            | some t => some ((cursor (chk_buffer false s)).toNat, t.srchlen)
            | none => none := rfl
      rw [hsub] at h
      have hwf := well_formed_of_same_rules _ _ h1.rules hw
      have hbody : scan_body s = advance (try_translations (chk_buffer false s)) := rfl
      have hp0 := h1.pos_nonneg
      have hg1 := h1.geom
      generalize chk_buffer false s = s1 at h hwf hbody hp1 hp0 hg1
      rcases try_from_find s1 s1.translation 0 with ⟨hnone, _⟩ | ⟨t, x, hsome, hmem, htry⟩
      · rw [hnone] at h
        cases h
      · rw [hsome] at h
        simp only [Option.some.injEq, Prod.mk.injEq] at h
        obtain ⟨hqe, hle⟩ := h
        obtain ⟨w1, w2, w3⟩ := hwf t hmem
        have hc : (cursor s1).toNat = s1.filepos1st + s1.bufferpos.toNat := by
          unfold cursor; omega
        rw [try_translations, htry] at hbody
        have b1 : (scan_body s).filepos1st = s1.filepos1st := by rw [hbody]; rfl
        have b2 : (scan_body s).dirty1st = true := by
          rw [hbody]
          show (if s1.bufferpos < (BLKSIZE : Int) then true else s1.dirty1st) = true
          rw [if_pos hp1]
        have b3 : (scan_body s).dirty2nd
            = if (BLKSIZE : Int) ≤ s1.bufferpos + t.srchlen - 1 then true else s1.dirty2nd := by
          rw [hbody]
          exact substitute_dirty2nd s1 x t hp1 w3
        have b4 : (scan_body s).bufferpos = s1.bufferpos + t.srchlen := by
          rw [hbody]
          show (substitute s1 x t).bufferpos + 1 = _
          rw [substitute_bufferpos s1 x t w3]
          omega
        have hst : (program_point file table (k + 1)).2 = scan_body s := by
          rw [hnext, step_state_scan]
        have hnd : (program_point file table (k + 1)).1 ≠ Phase.done := by
          rw [hnext]; simp only [step]; split_ifs <;> simp
        obtain ⟨h3, hs⟩ := geom_shape _ _ g
        obtain ⟨c, hblk⟩ := hg1.blk
        rw [hB] at hblk
        by_cases hhalf : i < s1.filepos1st + BLKSIZE
        · have hdiv : i / BLKSIZE * BLKSIZE = s1.filepos1st := by
            rw [hB]; omega
          rw [hdiv]
          obtain ⟨k1, hk1, hw1⟩ := eventually_written file table hw s1.filepos1st (by omega)
            (steps_left file.length (program_point file table (k + 1))) (k + 1) (le_refl _)
            (by rw [hst]; exact b1) (by rw [hst]; exact b2) hnd (fun _ => by
              rw [hst]
              rcases hs with ⟨e1, e2, e3⟩ | ⟨e1, e2, e3, e4⟩ | ⟨e1, e2, e3, e4⟩ <;> omega)
          exact ⟨k1, by omega, hw1⟩
        · have hdiv : i / BLKSIZE * BLKSIZE = s1.filepos1st + BLKSIZE := by
            rw [hB]; omega
          rw [hdiv]
          have c2 : (scan_body s).dirty2nd = true := by
            rw [b3, if_pos (by omega)]
          generalize hps1 : program_point file table (k + 1) = ps1 at hst hnd
          obtain ⟨ph1, s3⟩ := ps1
          change s3 = scan_body s at hst
          subst hst
          obtain ⟨f1, f2, f3, f4⟩ := second_half_slides file table hw (k + 1) ph1 _ hps1 hnd g c2
            (by omega) (by omega)
          obtain ⟨k2, hk2, hw2⟩ := eventually_written file table hw (s1.filepos1st + BLKSIZE)
            (by omega)
            (steps_left file.length (program_point file table (k + 1 + 1))) (k + 1 + 1) (le_refl _)
            (by rw [f1, b1]) f2 f3 (fun _ => f4)
          exact ⟨k2, by omega, hw2⟩
  | drain => cases h
  | done => cases h

/-- The total of changes is incremented in the iterations in which a
substitution is made, and in no other. -/
theorem substitutes_counts (file : List Nat) (table : List translation_t) (k : Nat) :
    (program_point file table (k + 1)).2.total_changes
      = if (substitutes (program_point file table k)).isSome then
          wrap32 ((program_point file table k).2.total_changes + 1)
        else (program_point file table k).2.total_changes := by
  have hnext : program_point file table (k + 1) = step (program_point file table k) := rfl
  rw [hnext]
  generalize program_point file table k = ps
  obtain ⟨ph, s⟩ := ps
  cases ph with
  | scan =>
      rw [step_state_scan]
      have hsub : substitutes (Phase.scan, s)
          = match (chk_buffer false s).translation.find? (fun t =>
              memcmp_eq (chk_buffer false s).buffer (chk_buffer false s).bufferpos
                t.srch t.srchlen) with
            | some t => some ((cursor (chk_buffer false s)).toNat, t.srchlen)
            | none => none := rfl
      have hbody : scan_body s = advance (try_translations (chk_buffer false s)) := rfl
      have htot := chk_buffer_total_changes false s
      rw [hsub, hbody]
      generalize chk_buffer false s = s1 at htot
      show (try_translations s1).total_changes = _
      rcases try_from_find s1 s1.translation 0 with ⟨hnone, htry⟩ | ⟨t, x, hsome, _, htry⟩
      · rw [hnone, try_translations, htry, htot]
        rfl
      · rw [hsome, try_translations, htry]
        show wrap32 (s1.total_changes + 1) = _
        rw [htot]
        rfl
  | drain =>
      have hsub : substitutes (Phase.drain, s) = none := rfl
      rw [hsub]
      simp only [step, Option.isSome_none, Bool.false_eq_true, if_false]
      split_ifs
      · exact chk_buffer_total_changes true s
      · rfl
  | done => rfl

/-- The file after a loop iteration is the file before it with the `fwrite`
of `chk_buffer` applied, when `chk_buffer` issues one in that iteration, and
the same file when it issues none. -/
theorem step_file (ps : Phase × State) :
    (step ps).2.file
      = match writes_back ps with
        | some (pos, cnt) => fwrite ps.2.file pos (buffer_bytes ps.2.buffer cnt)
        | none => ps.2.file := by
  obtain ⟨ph, s⟩ := ps
  have hslide : (slide s).file
      = if s.dirty1st = true then
          fwrite s.file s.filepos1st
            (buffer_bytes s.buffer (min (BLKSIZE : Int) s.bufferlen).toNat)
        else s.file := rfl
  cases ph with
  | scan =>
      rw [step_state_scan]
      have hbody : (scan_body s).file = (chk_buffer false s).file := by
        show (try_translations (chk_buffer false s)).file = _
        exact try_translations_file _
      rw [hbody]
      simp only [writes_back]
      by_cases hb : (BLKSIZE : Int) ≤ s.bufferpos
      · rw [chk_buffer_false_of_ge s hb, hslide]
        by_cases hd : s.dirty1st = true
        · rw [if_pos hd, if_pos ⟨hb, hd⟩]
        · rw [if_neg hd, if_neg (fun h => hd h.2)]
      · rw [chk_buffer_false_of_lt s (by omega), if_neg (fun h => hb h.1)]
  | drain =>
      simp only [step, writes_back]
      by_cases h0 : 0 < s.bufferlen
      · rw [if_pos h0]
        show (chk_buffer true s).file = _
        rw [chk_buffer_true, hslide]
        by_cases hd : s.dirty1st = true
        · rw [if_pos hd, if_pos ⟨h0, hd⟩]
        · rw [if_neg hd, if_neg (fun h => hd h.2)]
      · rw [if_neg h0, if_neg (fun h => h0 h.1)]
  | done => rfl

theorem written_bytes (ps : Phase × State) (pos cnt : Nat)
    (h : writes_back ps = some (pos, cnt)) :
    (step ps).2.file = fwrite ps.2.file pos (buffer_bytes ps.2.buffer cnt) ∧
      ∀ j, j < cnt → (step ps).2.file.getD (pos + j) 0 = ps.2.buffer (j : Int) := by
  have hf : (step ps).2.file = fwrite ps.2.file pos (buffer_bytes ps.2.buffer cnt) := by
    rw [step_file, h]
  refine ⟨hf, fun j hj => ?_⟩
  rw [hf, fwrite_getD, buffer_bytes_length, if_pos ⟨by omega, by omega⟩, buffer_bytes_getD,
    if_pos (by omega)]
  congr 2
  omega

/-- C18: over a whole run on any file with a table in which every rule has
`1 <= srchlen <= MAX_STR` (the size of the array `srch`) and
`repllen <= srchlen`: in every loop iteration the file on disk changes by the
`fwrite` of `chk_buffer` and by nothing else; every such `fwrite` writes a
block of the file, at its block boundary, with the bytes the block has in the
file, taken from the first half of the buffer, and some substitution of an
earlier loop iteration has written a byte of that block that lies inside the
file; and when a substitution writes a byte that lies inside the file, the
block of that byte is written to the file in a later loop iteration. The
substitutions are those that `total_changes` counts. -/
theorem block_written_iff_touched (file : List Nat) (table : List translation_t)
    (hw : well_formed table) :
    (∀ k, (program_point file table (k + 1)).2.file
      = match writes_back (program_point file table k) with
        | some (pos, cnt) =>
            fwrite (program_point file table k).2.file pos
              (buffer_bytes (program_point file table k).2.buffer cnt)
        | none => (program_point file table k).2.file) ∧
    (∀ k pos cnt, writes_back (program_point file table k) = some (pos, cnt) →
      BLKSIZE ∣ pos ∧ cnt = min BLKSIZE (file.length - pos) ∧
      (∀ j, j < cnt → (program_point file table (k + 1)).2.file.getD (pos + j) 0
        = (program_point file table k).2.buffer (j : Int)) ∧
      ∃ k1 q len i, k1 < k ∧ substitutes (program_point file table k1) = some (q, len) ∧
        q ≤ i ∧ i < q + len ∧ i < file.length ∧ pos ≤ i ∧ i < pos + BLKSIZE) ∧
    (∀ k q len i, substitutes (program_point file table k) = some (q, len) →
      q ≤ i → i < q + len → i < file.length →
      ∃ k2, k < k2 ∧
        writes_back (program_point file table k2)
          = some (i / BLKSIZE * BLKSIZE, min BLKSIZE (file.length - i / BLKSIZE * BLKSIZE)) ∧
        (program_point file table (k2 + 1)).2.file
          = fwrite (program_point file table k2).2.file (i / BLKSIZE * BLKSIZE)
              (buffer_bytes (program_point file table k2).2.buffer
                (min BLKSIZE (file.length - i / BLKSIZE * BLKSIZE)))) ∧
    (∀ k, (program_point file table (k + 1)).2.total_changes
      = if (substitutes (program_point file table k)).isSome then
          wrap32 ((program_point file table k).2.total_changes + 1)
        else (program_point file table k).2.total_changes) := by
  refine ⟨fun k => step_file _, fun k pos cnt h => ?_, fun k q len i h hq hi hin => ?_,
    fun k => substitutes_counts file table k⟩
  · obtain ⟨h1, h2, i, ⟨k1, q, len, a, b, c, d⟩, h4, h5, h6⟩ :=
      written_was_touched file table hw k pos cnt h
    exact ⟨h1, h2, (written_bytes _ pos cnt h).2, k1, q, len, i, a, b, c, d, h4, h5, h6⟩
  · obtain ⟨k2, hk2, hw2⟩ := touched_is_written file table hw k q len i h hq hi hin
    exact ⟨k2, hk2, hw2, (written_bytes _ _ _ hw2).1⟩

/-- C18 in the run on `hello_file`: the sixth loop iteration replaces the three
bytes at file offset 5, and the only block of the file is written to the file
later, with its 16 bytes: the iteration that follows the scan loop turns the
file on disk from `hello_file` into the patched bytes. -/
theorem block_written_iff_touched_witness :
    well_formed [rule_en_dash, rule_nbsp] ∧
    substitutes (program_point hello_file [rule_en_dash, rule_nbsp] 5) = some (5, 3) ∧
    (∃ k2, 5 < k2 ∧
      writes_back (program_point hello_file [rule_en_dash, rule_nbsp] k2) = some (0, 16) ∧
      (program_point hello_file [rule_en_dash, rule_nbsp] (k2 + 1)).2.file
        = fwrite (program_point hello_file [rule_en_dash, rule_nbsp] k2).2.file 0
            (buffer_bytes (program_point hello_file [rule_en_dash, rule_nbsp] k2).2.buffer 16)) ∧
    writes_back (program_point hello_file [rule_en_dash, rule_nbsp] 13) = some (0, 16) ∧
    (program_point hello_file [rule_en_dash, rule_nbsp] 13).2.file = hello_file ∧
    (program_point hello_file [rule_en_dash, rule_nbsp] 14).2.file
      = [0x48, 0x65, 0x6C, 0x6C, 0x6F, 0x2D, 0, 0, 0x77, 0x6F, 0x72, 0x6C, 0x64, 0x20, 0, 0x21] :=
  ⟨by unfold well_formed; decide, by decide,
    (block_written_iff_touched hello_file [rule_en_dash, rule_nbsp]
      (by unfold well_formed; decide)).2.2.1 5 5 3 5 (by decide) (by decide) (by decide)
      (by decide),
    by decide, by decide, by decide⟩

/-! ## Claim C19: leading spaces and the check for an odd number of hex digits -/

/-- C19 fails on the line `E28093 "-"`: as it stands it is stored; with one
leading space it is rejected by the check for an odd number of hex digits,
although it has six; and the line ` E2809 "-"`, with one leading space and
five hex digits, is stored. -/
theorem leading_space_flips_odd_check (line0 : Nat → Nat) :
    read_translations line0 (chars_of "E28093 \"-\"\n") = Except.ok [rule_en_dash] ∧
    read_translations line0 (chars_of " E28093 \"-\"\n")
      = Except.error (Fault.assertion "odd number of hex chars") ∧
    read_translations line0 (chars_of " E2809 \"-\"\n")
      = Except.ok [{ srch := [0xE2, 0x80, 0x09, 0], srchlen := 2, repl := [0x2D, 0, 0, 0],
                     repllen := 1, used := 0 }] := by
  have h1 : fgets_lines (chars_of "E28093 \"-\"\n") = [chars_of "E28093 \"-\"\n"] := by decide
  have h2 : fgets_lines (chars_of " E28093 \"-\"\n") = [chars_of " E28093 \"-\"\n"] := by decide
  have h3 : fgets_lines (chars_of " E2809 \"-\"\n") = [chars_of " E2809 \"-\"\n"] := by decide
  refine ⟨?_, ?_, ?_⟩
  · rw [read_translations, h1]
    simp [read_lines, process_line, skip_spaces, parse_hex, parse_repl, store_line, hex_value,
      zero_translation, MAX_STR, LINESIZE, MAX_TRANSLATIONS, chars_of, rule_en_dash]
  · rw [read_translations, h2]
    simp [read_lines, process_line, skip_spaces, parse_hex, parse_repl, store_line, hex_value,
      zero_translation, MAX_STR, LINESIZE, MAX_TRANSLATIONS, chars_of]
  · rw [read_translations, h3]
    simp [read_lines, process_line, skip_spaces, parse_hex, parse_repl, store_line, hex_value,
      zero_translation, MAX_STR, LINESIZE, MAX_TRANSLATIONS, chars_of]

/-! ## Claim C5: a match across a block boundary and a rule of length 0 -/

/-- With a second rule whose search string and replacement are empty, and a
first rule that does not start with the first byte of the file, the scan loop
stays at the first byte for ever, and nothing is written. -/
theorem second_rule_empty_loops (file : List Nat) (hfile : file ≠ []) (t0 t : translation_t)
    (h0 : 1 ≤ t0.srchlen) (hne : t0.srch.getD 0 0 ≠ file.getD 0 0)
    (hsl : t.srchlen = 0) (hrl : t.repllen = 0) (k : Nat) :
    ∃ s, program_point file [t0, t] k = (Phase.scan, s) ∧ s.bufferpos = 0 ∧ 0 < s.bufferlen ∧
      s.filepos1st = 0 ∧ s.file = file ∧ s.buffer 0 = file.getD 0 0 ∧
      ∃ u, s.translation = [t0, { t with used := u }] := by
  induction k with
  | zero =>
      have hlen : 0 < (prime file [t0, t]).bufferlen := by
        show (0 : Int) < ((fread file 0 BLKSIZE).length : Int)
          + ((fread file (fread file 0 BLKSIZE).length BLKSIZE).length : Int)
        have h1 : 0 < file.length := List.length_pos.mpr hfile
        have h2 : 0 < (fread file 0 BLKSIZE).length := by
          rw [fread_length]
          have := BLKSIZE_eq
          omega
        omega
      exact ⟨prime file [t0, t], rfl, rfl, hlen, rfl, rfl,
        prime_buffer file [t0, t] 0 (le_refl _) hlen, t.used, rfl⟩
  | succ k ih =>
      obtain ⟨s, hs, h1, h2, h3, h5, h6, u, h7⟩ := ih
      have hchk : chk_buffer false s = s := by
        unfold chk_buffer
        rw [if_neg]
        rw [h1]
        simp [BLKSIZE]
      have hm0 : ¬ memcmp_eq s.buffer s.bufferpos t0.srch t0.srchlen = true := by
        rw [memcmp_eq_iff]
        intro h
        have := h 0 (by omega)
        rw [h1, buffer_congr s _ 0 (by simp), h6] at this
        exact hne this.symm
      have hm : memcmp_eq s.buffer s.bufferpos ({ t with used := u } : translation_t).srch
          ({ t with used := u } : translation_t).srchlen = true := by
        rw [memcmp_eq_iff]
        intro j hj
        have : ({ t with used := u } : translation_t).srchlen = 0 := hsl
        omega
      have htry : try_translations s = substitute s 1 { t with used := u } := by
        rw [try_translations, h7, try_from, if_neg hm0, try_from, if_pos hm]
      have hbody : scan_body s = advance (substitute s 1 { t with used := u }) := by
        rw [scan_body, hchk, htry]
      have hpos : (scan_body s).bufferpos = 0 := by
        rw [hbody]
        show (substitute s 1 { t with used := u }).bufferpos + 1 = 0
        rw [substitute_bufferpos s 1 _ (by show t.repllen ≤ t.srchlen; omega), h1]
        show (0 : Int) + (t.srchlen : Int) - 1 + 1 = 0
        rw [hsl]
        simp
      have hlen : (scan_body s).bufferlen = s.bufferlen := by rw [hbody]; rfl
      have hbuf : (scan_body s).buffer 0 = s.buffer 0 := by
        rw [hbody]
        show (substitute s 1 { t with used := u }).buffer 0 = _
        rw [substitute_buffer]
        have e1 : ({ t with used := u } : translation_t).repllen = 0 := hrl
        have e2 : ({ t with used := u } : translation_t).srchlen = 0 := hsl
        rw [e1, e2, if_neg (by omega), if_neg (by omega)]
      refine ⟨scan_body s, ?_, hpos, by rw [hlen]; exact h2, by rw [hbody]; exact h3,
        by rw [hbody]; exact h5, by rw [hbuf]; exact h6,
        wrap32 (u + 1), ?_⟩
      · show step (program_point file [t0, t] k) = _
        rw [hs]
        simp only [step]
        rw [if_pos (by rw [hpos, hlen]; exact h2)]
      · rw [hbody]
        show incr_used 1 s.translation = _
        rw [h7]
        rfl

/-- The translations file of the two lines `E2809341 "-"` and ` E ""`. -/
theorem read_translations_long_odd (line0 : Nat → Nat) :
    read_translations line0 (chars_of "E2809341 \"-\"\n E \"\"\n")
      = Except.ok [rule_long, rule_odd] := by
  have h : fgets_lines (chars_of "E2809341 \"-\"\n E \"\"\n")
      = [chars_of "E2809341 \"-\"\n", chars_of " E \"\"\n"] := by decide
  rw [read_translations, h]
  simp [read_lines, process_line, skip_spaces, parse_hex, parse_repl, store_line, hex_value,
    zero_translation, MAX_STR, LINESIZE, MAX_TRANSLATIONS, chars_of, rule_long, rule_odd]

/-- C5 fails on the translations file of the two lines `E2809341 "-"` and
` E ""` and the mailbox `cross_file`: the pattern `E2 80 93 41` occurs wholly
inside the file, two bytes before the block boundary 4096, and it belongs to
the first rule of the table; yet the second rule, stored with a search string
of length 0, matches at file offset 0 without moving the pointer, so at every
loop iteration the program is in the scan loop at file offset 0, `chk_buffer`
writes nothing, the file on disk is as it was, and no number of iterations
ends the run. The occurrence is never replaced and no block is written. -/
theorem cross_window_match_never_made (line0 : Nat → Nat) :
    read_translations line0 (chars_of "E2809341 \"-\"\n E \"\"\n")
      = Except.ok [rule_long, rule_odd] ∧
    occurs_at cross_file 4094 rule_long = true ∧ 4094 + 2 = BLKSIZE ∧
    ∀ k, (program_point cross_file [rule_long, rule_odd] k).1 = Phase.scan ∧
      cursor (program_point cross_file [rule_long, rule_odd] k).2 = 0 ∧
      (program_point cross_file [rule_long, rule_odd] k).2.file = cross_file ∧
      writes_back (program_point cross_file [rule_long, rule_odd] k) = none ∧
      run k cross_file [rule_long, rule_odd] = none := by
  have hget : ∀ j, j < 4 → cross_file.getD (4094 + j) 0 = [0xE2, 0x80, 0x93, 0x41].getD j 0 := by
    intro j _
    have := getD_append_right_add (List.replicate 4094 0x41) [0xE2, 0x80, 0x93, 0x41] j
    rw [List.length_replicate] at this
    exact this
  have hlen : cross_file.length = 4098 := by
    unfold cross_file
    rw [List.length_append, List.length_replicate]
    rfl
  have hfirst : cross_file.getD 0 0 = 0x41 := by
    unfold cross_file
    rw [getD_append_left_lt _ _ _ (by rw [List.length_replicate]; decide),
      getD_replicate_lt _ _ _ (by decide)]
  refine ⟨read_translations_long_odd line0, ?_, rfl, fun k => ?_⟩
  · rw [occurs_at_iff, hlen]
    refine ⟨by decide, fun j hj => ?_⟩
    rw [hget j hj]; rfl
  · obtain ⟨s, hs, h1, h2, h3, h5, _, _⟩ := second_rule_empty_loops cross_file
      (fun h => by rw [h] at hlen; exact absurd hlen (by decide)) rule_long rule_odd (by decide)
      (by rw [hfirst]; decide) rfl rfl k
    rw [run, hs]
    refine ⟨rfl, ?_, h5, ?_, rfl⟩
    · show (s.filepos1st : Int) + s.bufferpos = 0
      rw [h1, h3]
      rfl
    · simp only [writes_back]
      rw [if_neg]
      rw [h1]
      simp [BLKSIZE]

end FixUTF8
